import Mathlib

/-!
Verification of the B+ tree index in `src/include/storage/index/bplustree.h`
(class `terrier::storage::index::BPlusTree`, the per-node-latch variant).

The embedding instantiates the template with `KeyType = ValueType = Nat`,
`KeyComparator = Nat.lt`, `KeyEqualityChecker = Nat.beq` and models the
`std::unordered_set` value container as a duplicate-free `List Nat`.
Pointer-based in-place mutation becomes explicit state passing: each public
operation maps the old tree to the new tree plus its returned values.
The latching protocol is dropped (single-threaded semantics); the traceback
stack of the source becomes structural recursion along the descent path,
and the `Balance` while-loop that walks the traceback upward becomes the
rebalancing performed by each recursive frame on its updated child.
-/

namespace BPT

/-- `#define FAN_OUT 10` -/
def FAN_OUT : Nat := 10
/-- `#define MIN_KEYS_INNER_NODE 4` -/
def MIN_KEYS_INNER_NODE : Nat := 4
/-- `#define MIN_PTR_INNER_NODE 5` -/
def MIN_PTR_INNER_NODE : Nat := 5
/-- `#define MIN_KEYS_LEAF_NODE 5` -/
def MIN_KEYS_LEAF_NODE : Nat := 5

/-- Modulus of the C++ `uint64_t` arithmetic used by `WillUnderflow`. -/
def U64 : Nat := 2 ^ 64

/-! ### Value sets (`std::unordered_set<ValueType>`) -/

/-- The per-key value container, kept duplicate-free like `std::unordered_set`. -/
abbrev ValueSet := List Nat

/-- `unordered_set::insert`: adding an equal value is a no-op. -/
def vsInsert (v : Nat) (s : ValueSet) : ValueSet :=
  if v ∈ s then s else s ++ [v]

/-- `set.erase(set.find(value))`; erasing an absent value is UB in the
source and never happens there (callers check `HasKeyValue` first). -/
def vsErase (v : Nat) (s : ValueSet) : ValueSet := s.erase v

/-! ### Position helpers shared by `LeafNode` and `InnerNode`

`std::lower_bound` / `std::upper_bound` over the sorted `entries_` vector,
with comparator `KEY_CMP_OBJ(a.first, b.first)`. On the sorted vectors the
binary search coincides with the leftmost scan modelled here. -/

/-- `std::lower_bound` index: first position whose key is not `< key`. -/
def lowerBoundPos (key : Nat) (es : List (Nat × α)) : Nat :=
  (es.takeWhile (fun p => decide (p.1 < key))).length

/-- `std::upper_bound` index: first position whose key is `> key`. -/
def upperBoundPos (key : Nat) (es : List (Nat × α)) : Nat :=
  (es.takeWhile (fun p => decide (p.1 ≤ key))).length

/-- `GetPositionLessThanEqualTo`: `upper_bound` index minus one (may be `-1`). -/
def ltePos (key : Nat) (es : List (Nat × α)) : Int :=
  (upperBoundPos key es : Int) - 1

/-- `GetPositionOfKey`: `lower_bound`, then check the hit is in range and
its key equals `key`; `none` models the `entries_.end()` return. -/
def getPositionOfKey (key : Nat) (es : List (Nat × α)) : Option Nat :=
  let i := lowerBoundPos key es
  match es[i]? with
  | none => none
  | some p => if p.1 = key then some i else none

/-- Insert an element at a position (the `entries_.insert(begin()+pos, x)` call). -/
def insertAt (pos : Nat) (x : α) (xs : List α) : List α :=
  xs.take pos ++ x :: xs.drop pos

/-! ### LeafNode -/

/-- `LeafNode::entries_`: ordered `(key, value-set)` pairs. -/
abbrev LeafEntries := List (Nat × ValueSet)

/-- `LeafNode::HasKey`. -/
def hasKey (key : Nat) (es : LeafEntries) : Bool :=
  (getPositionOfKey key es).isSome

/-- `LeafNode::HasKeyValue`. -/
def hasKeyValue (key value : Nat) (es : LeafEntries) : Bool :=
  match getPositionOfKey key es with
  | none => false
  | some i => decide (value ∈ (es.getD i (0, [])).2)

/-- `LeafNode::Insert(key, value)`: add to the existing set, or insert a
fresh `(key, {value})` entry at the sorted position. -/
def leafInsert (key value : Nat) (es : LeafEntries) : LeafEntries :=
  let pos := lowerBoundPos key es
  match es[pos]? with
  | some p =>
    if p.1 = key then es.set pos (p.1, vsInsert value p.2)
    else insertAt pos (key, [value]) es
  | none => insertAt pos (key, [value]) es

/-- `LeafNode::Insert(key, value_set)` (borrow path): replace the whole set,
or insert the pair at the sorted position. -/
def leafInsertSet (key : Nat) (vs : ValueSet) (es : LeafEntries) : LeafEntries :=
  let pos := lowerBoundPos key es
  match es[pos]? with
  | some p =>
    if p.1 = key then es.set pos (p.1, vs)
    else insertAt pos (key, vs) es
  | none => insertAt pos (key, vs) es

/-- `LeafNode::SatisfiesPredicate`. -/
def satisfiesPredicate (key : Nat) (p : Nat → Bool) (es : LeafEntries) : Bool :=
  match getPositionOfKey key es with
  | none => false
  | some i => (es.getD i (0, [])).2.any p

/-- `LeafNode::ScanAndPopulateResults`: append every value at `key` to `results`. -/
def scanAndPopulateResults (key : Nat) (es : LeafEntries) (results : List Nat) : List Nat :=
  match getPositionOfKey key es with
  | none => results
  | some i => results ++ (es.getD i (0, [])).2

/-- `LeafNode::DeleteEntry`: remove the value from the set at `key`; drop
the entry when the set empties. The key is present at every call site. -/
def deleteEntry (key value : Nat) (es : LeafEntries) : LeafEntries :=
  match getPositionOfKey key es with
  | none => es
  | some i =>
    let s := vsErase value (es.getD i (0, [])).2
    if s = [] then es.eraseIdx i else es.set i ((es.getD i (0, [])).1, s)

/-- `LeafNode::GetFirstKey` (`entries_[0].first`; UB on an empty leaf,
which the callers exclude). -/
def leafFirstKey (es : LeafEntries) : Nat :=
  match es with
  | [] => 0
  | p :: _ => p.1

/-- `LeafNode::IsOverflow`: `size >= FAN_OUT`. -/
def leafIsOverflow (es : LeafEntries) : Bool := decide (FAN_OUT ≤ es.length)

/-- `LeafNode::IsUnderflow`: `size < MIN_KEYS_LEAF_NODE`. -/
def leafIsUnderflow (es : LeafEntries) : Bool := decide (es.length < MIN_KEYS_LEAF_NODE)

/-- `LeafNode::WillUnderflow`: `(size - 1) < MIN_KEYS_LEAF_NODE` computed on
`uint64_t`, so `size == 0` wraps to `2^64 - 1`. -/
def leafWillUnderflow (es : LeafEntries) : Bool :=
  decide ((es.length + (U64 - 1)) % U64 < MIN_KEYS_LEAF_NODE)

/-- `LeafNode::WillOverflow`: `size == FAN_OUT - 1` (an equality test). -/
def leafWillOverflow (es : LeafEntries) : Bool := decide (es.length = FAN_OUT - 1)

/-! ### The node tree -/

/-- `Node`: either a `LeafNode` or an `InnerNode` (`prev_ptr_` is the
leftmost child of an inner node).  Leaf sibling pointers are not stored:
the in-order leaf sequence recovers them where needed. -/
inductive Node where
  | leaf (entries : LeafEntries)
  | inner (prev : Node) (entries : List (Nat × Node))
deriving Repr

abbrev InnerEntries := List (Nat × Node)

/-- `Node::GetSize`: number of entries (keys) in the node. -/
def getSize : Node → Nat
  | .leaf es => es.length
  | .inner _ es => es.length

/-- `Node::IsLeaf`. -/
def isLeafNode : Node → Bool
  | .leaf _ => true
  | .inner _ _ => false

/-- `InnerNode::WillUnderflow`: `(size + 1 - 1) < MIN_PTR_INNER_NODE`. -/
def innerWillUnderflow (es : InnerEntries) : Bool :=
  decide (es.length + 1 - 1 < MIN_PTR_INNER_NODE)

/-- `InnerNode::IsUnderflow`: `size + (prev_ptr_ != nullptr) < MIN_PTR_INNER_NODE`
(`prev_ptr_` is always set on the trees this model builds). -/
def innerIsUnderflow (es : InnerEntries) : Bool :=
  decide (es.length + 1 < MIN_PTR_INNER_NODE)

/-- `InnerNode::IsOverflow`: `size >= FAN_OUT`. -/
def innerIsOverflow (es : InnerEntries) : Bool := decide (FAN_OUT ≤ es.length)

/-- `InnerNode::WillOverflow`: `size == FAN_OUT - 1`. -/
def innerWillOverflow (es : InnerEntries) : Bool := decide (es.length = FAN_OUT - 1)

/-- `Node::WillUnderflow` virtual dispatch. -/
def nodeWillUnderflow : Node → Bool
  | .leaf es => leafWillUnderflow es
  | .inner _ es => innerWillUnderflow es

/-- `Node::WillOverflow` virtual dispatch. -/
def nodeWillOverflow : Node → Bool
  | .leaf es => leafWillOverflow es
  | .inner _ es => innerWillOverflow es

/-- `BPlusTree::IsSafe` (pessimistic descent safety predicate). -/
def isSafe (node : Node) (is_delete : Bool) : Bool :=
  if is_delete then !nodeWillUnderflow node else !nodeWillOverflow node

/-- `Node::GetFirstKey` (`entries_[0].first` in both subclasses). -/
def nodeFirstKey : Node → Nat
  | .leaf es => leafFirstKey es
  | .inner _ es =>
    match es with
    | [] => 0
    | p :: _ => p.1

/-- `InnerNode::GetKeyNodePtrPair` as an index: `GetPositionLessThanEqualTo`,
falling back to `entries_.end() - 1` when that returns `-1`. -/
def keyNodePtrPairIdx (key : Nat) (es : InnerEntries) : Nat :=
  let p := ltePos key es
  if p = -1 then es.length - 1 else p.toNat

/-- Routing slot chosen by `InnerNode::GetNodePtrForKey`: `none` is the
`prev_ptr_` child, `some i` the child of `entries_[i]`.  An empty inner
node dereferences `entries_.begin()` in the source (UB, unreachable);
the model routes to `prev_ptr_`. -/
def routeSlot (key : Nat) (es : InnerEntries) : Option Nat :=
  match es with
  | [] => none
  | p :: _ => if key < p.1 then none else some (keyNodePtrPairIdx key es)

/-- Child designated by a routing slot. -/
def childAt (prev : Node) (es : InnerEntries) : Option Nat → Node
  | none => prev
  | some i =>
    match es[i]? with
    | some p => p.2
    | none => prev

/-- Replace the child at a routing slot (writing back through the pointer
that the source mutates in place). -/
def setSlot (prev : Node) (es : InnerEntries) (slot : Option Nat) (c : Node) :
    Node × InnerEntries :=
  match slot with
  | none => (c, es)
  | some i =>
    match es[i]? with
    | some p => (prev, es.set i (p.1, c))
    | none => (prev, es)

mutual

/-- In-order concatenation of all leaf entry lists below a node. -/
def flat : Node → LeafEntries
  | .leaf es => es
  | .inner prev es => flat prev ++ flatList es

def flatList : InnerEntries → LeafEntries
  | [] => []
  | (_, c) :: rest => flat c ++ flatList rest

end

mutual

/-- In-order list of the leaf entry vectors below a node (the leaf chain). -/
def leavesOf : Node → List LeafEntries
  | .leaf es => [es]
  | .inner prev es => leavesOf prev ++ leavesList es

def leavesList : InnerEntries → List LeafEntries
  | [] => []
  | (_, c) :: rest => leavesOf c ++ leavesList rest

end

/-- Bound on the size of a routed child, for termination of the descent. -/
theorem sizeOf_childAt_lt (prev : Node) (es : InnerEntries) (slot : Option Nat) :
    sizeOf (childAt prev es slot) < sizeOf (Node.inner prev es) := by
  simp only [Node.inner.sizeOf_spec]
  cases slot with
  | none => simp only [childAt]; omega
  | some i =>
    simp only [childAt]
    cases h : es[i]? with
    | none => simp; omega
    | some p =>
      have hm : p ∈ es := by
        obtain ⟨hlt, hget⟩ := List.getElem?_eq_some_iff.mp h
        exact hget ▸ List.getElem_mem hlt
      have h1 : sizeOf p < sizeOf es := List.sizeOf_lt_of_mem hm
      have h2 : sizeOf p.2 < sizeOf p := by
        obtain ⟨a, b⟩ := p; simp only [Prod.mk.sizeOf_spec]; omega
      simp
      omega

/-- `BPlusTree::FindLeafNode`: descend from the root following
`GetNodePtrForKey` until a leaf is reached; the model returns the leaf's
entry vector (latching is dropped). -/
def findLeafNode (key : Nat) : Node → LeafEntries
  | .leaf es => es
  | .inner prev es => findLeafNode key (childAt prev es (routeSlot key es))
termination_by n => sizeOf n
decreasing_by exact sizeOf_childAt_lt _ _ _

/-! ### Insert path (`InsertAndPropagate` / `InsertNodePtr`)

The source inserts at the write-latched leaf, splits on overflow and
propagates `(middle key, new right node)` up the traceback stack, mutating
each ancestor in place.  The recursion below performs the same per-level
steps: the frame for each node on the descent path applies exactly the
leaf-level `Insert`+`Split` or inner-level `Insert`+`Split`+`RemoveFirstKey`
sequence of the source, and hands the propagated pair to its parent frame. -/

/-- One descent frame of the insert path.  Returns the updated node and the
`(separator, new right sibling)` pair that must be inserted into the parent,
if a split occurred at this level. -/
def insertRec (key value : Nat) : Node → Node × Option (Nat × Node)
  | .leaf es =>
    -- LeafNode::Insert, then IsOverflow / Split
    let es2 := leafInsert key value es
    if leafIsOverflow es2 then
      let right := es2.drop MIN_KEYS_LEAF_NODE
      (.leaf (es2.take MIN_KEYS_LEAF_NODE), some (leafFirstKey right, .leaf right))
    else (.leaf es2, none)
  | .inner prev es =>
    let slot := routeSlot key es
    let res := insertRec key value (childAt prev es slot)
    let ps := setSlot prev es slot res.1
    match res.2 with
    | none => (.inner ps.1 ps.2, none)
    | some (sep, child) =>
      -- InnerNode::Insert(middle_key, child_node), then IsOverflow / Split / RemoveFirstKey
      let es2 := insertAt (lowerBoundPos sep ps.2) (sep, child) ps.2
      if innerIsOverflow es2 then
        match es2.drop MIN_KEYS_INNER_NODE with
        | [] => (.inner ps.1 (es2.take MIN_KEYS_INNER_NODE), none)  -- unreachable: overflow means ≥ FAN_OUT entries
        | (mk, mc) :: rtail =>
          (.inner ps.1 (es2.take MIN_KEYS_INNER_NODE), some (mk, .inner mc rtail))
      else (.inner ps.1 es2, none)
termination_by n => sizeOf n
decreasing_by exact sizeOf_childAt_lt _ _ _

/-- Complete insert of `(key, value)`: when the propagation reaches the old
root with a split pending, a new inner root with `prev_ptr_` = old root and
one `(separator, right)` entry is allocated. -/
def insertProp (key value : Nat) (t : Node) : Node :=
  match insertRec key value t with
  | (n, none) => n
  | (n, some (sep, r)) => .inner n [(sep, r)]

/-- `BPlusTree::Insert(key, value, unique_key)`. Both the optimistic and the
pessimistic descent run the same collision check and `InsertAndPropagate`;
only the latching differs, so the sequential model has a single path. -/
def insertOp (key value : Nat) (unique_key : Bool) (t : Node) : Node × Bool :=
  let insert_node := findLeafNode key t
  if hasKeyValue key value insert_node || (unique_key && hasKey key insert_node) then
    (t, false)
  else
    (insertProp key value t, true)

/-- `BPlusTree::ConditionalInsert(key, value, predicate, predicate_satisfied)`:
result is `(new tree, returned bool, *predicate_satisfied)`. -/
def conditionalInsertOp (key value : Nat) (predicate : Nat → Bool) (t : Node) :
    Node × Bool × Bool :=
  let insert_node := findLeafNode key t
  if satisfiesPredicate key predicate insert_node then
    (t, false, true)
  else
    (insertProp key value t, true, false)

/-- `BPlusTree::GetValue(key, results)`. -/
def getValueOp (key : Nat) (t : Node) (results : List Nat) : List Nat :=
  scanAndPopulateResults key (findLeafNode key t) results

/-! ### Metrics -/

/-- `sizeof(KeyType)` for the `int64_t` instantiation used by the tests. -/
def SIZEOF_KEY : Nat := 8
/-- `sizeof(ValueType)` for the `int64_t` instantiation. -/
def SIZEOF_VALUE : Nat := 8
/-- `sizeof(KeyNodePtrPair)` = `sizeof(std::pair<int64_t, Node*>)`. -/
def SIZEOF_KEY_NODE_PTR_PAIR : Nat := 16

mutual

/-- `Node::GetHeapSpaceSubtree` (`entries_.capacity()` modelled as the size;
the capacity is allocation-history dependent and only scales the inner-node
term). -/
def getHeapSpaceSubtree : Node → Nat
  | .leaf es => (es.map (fun p => p.2.length * SIZEOF_VALUE + SIZEOF_KEY)).sum
  | .inner prev es =>
    getHeapSpaceSubtree prev + es.length * SIZEOF_KEY_NODE_PTR_PAIR + heapList es

def heapList : InnerEntries → Nat
  | [] => 0
  | (_, c) :: rest => getHeapSpaceSubtree c + heapList rest

end

/-- `BPlusTree::GetHeapUsage`. -/
def getHeapUsage (t : Node) : Nat :=
  if getSize t = 0 then 0 else getHeapSpaceSubtree t

/-- The `while (!node->IsLeaf())` loop of `GetHeightOfTree`, starting from
`height = 1`: on an inner node `GetPrevPtr()` is the leftmost child. -/
def heightLoop : Node → Nat
  | .leaf _ => 1
  | .inner prev _ => 1 + heightLoop prev

/-- `BPlusTree::GetHeightOfTree`. -/
def getHeightOfTree (t : Node) : Nat :=
  if getSize t = 0 then 0 else heightLoop t

/-- Spec-side definition (from the specification's words): the number of
nodes on the left spine from the root down to a leaf. -/
def leftSpineLen : Node → Nat
  | .leaf _ => 1
  | .inner prev _ => leftSpineLen prev + 1

/-! ### Delete path (`BPlusTree::Delete` and `Balance`)

`Balance` walks the traceback upward, locating the siblings of the
underflowed node inside its parent by key search
(`GetPredecessor` / `GetSuccessor` on the node's `GetFirstKey()`), and
applies borrow / coalesce.  In the recursion below each frame performs the
source's per-parent step on its updated child.  The source mutates the
found sibling and the node through pointers; the model writes the child
back at its routed slot and the sibling at the slot the key search found.
Slot write-backs only change the `Node` component of an entry, so they
commute with the key-searched `ReplaceKey` / `DeleteEntry` on the parent,
which only read and change keys; the model performs the slot write-backs
first. -/

/-- `InnerNode::GetPredecessor` as a slot: `none` = no predecessor (null),
`some none` = the `prev_ptr_` child, `some (some j)` = `entries_[j]`. -/
def predecessorSlot (idx : Int) : Option (Option Nat) :=
  if idx = -1 then none
  else if idx = 0 then some none
  else some (some (idx.toNat - 1))

/-- `InnerNode::GetSuccessor` as an entry index (`none` = null). -/
def successorSlot (idx : Int) (len : Nat) : Option Nat :=
  if (idx + 1).toNat = len then none else some (idx + 1).toNat

/-- `InnerNode::ReplaceKey(old_key, new_key)`: overwrite the key of the slot
covering `old_key`, return the overwritten key.  `key_pos` is `uint64_t`, so
a `-1` search result indexes out of bounds (UB, excluded by the callers);
the model leaves the entries unchanged there. -/
def replaceKeyRet (old_key new_key : Nat) (es : InnerEntries) : Nat × InnerEntries :=
  let p := ltePos old_key es
  if p = -1 then (0, es)
  else
    match es[p.toNat]? with
    | some e => (e.1, es.set p.toNat (new_key, e.2))
    | none => (0, es)

/-- `InnerNode::DeleteEntry(key)`: erase the entry found by
`GetKeyNodePtrPair` and return its key. -/
def innerDeleteEntry (key : Nat) (es : InnerEntries) : Nat × InnerEntries :=
  let i := keyNodePtrPairIdx key es
  match es[i]? with
  | some e => (e.1, es.eraseIdx i)
  | none => (0, es)

/-- First key of an inner entry list (`entries_[0].first`). -/
def innerFirstKey (es : InnerEntries) : Nat :=
  match es with
  | [] => 0
  | p :: _ => p.1

/-- Rebalancing of an underflowed *leaf* child, as performed by the leaf
part of `Balance` against the parent `(prev1, es1)`.  `slot` is the child's
routed slot, `ces` its entries, `fk` its `GetFirstKey()`, `idx` the
parent-side `GetPositionLessThanEqualTo(fk)`. -/
def balanceLeafAt (prev1 : Node) (es1 : InnerEntries) (slot : Option Nat)
    (ces : LeafEntries) (fk : Nat) (idx : Int) : Node :=
  -- dynamic_cast<LeafNode *>: a non-leaf sibling becomes null
  let leftOpt : Option (Option Nat × LeafEntries) :=
    match predecessorSlot idx with
    | none => none
    | some s =>
      match childAt prev1 es1 s with
      | .leaf les => some (s, les)
      | .inner _ _ => none
  let rightOpt : Option (Nat × LeafEntries) :=
    match successorSlot idx es1.length with
    | none => none
    | some i =>
      match childAt prev1 es1 (some i) with
      | .leaf res => some (i, res)
      | .inner _ _ => none
  -- BorrowFromRightLeaf(right_sibling, node, parent)
  let borrowRight : Nat × LeafEntries → Node := fun (i, res) =>
    let rp := res.headD (0, [])
    let res2 := res.tail
    let es2 := (replaceKeyRet rp.1 (leafFirstKey res2) es1).2
    let ps := setSlot prev1 es2 (some i) (.leaf res2)
    let qs := setSlot ps.1 ps.2 slot (.leaf (leafInsertSet rp.1 rp.2 ces))
    .inner qs.1 qs.2
  -- CoalesceLeaf(node, left_sibling, parent) followed by `delete node`
  let coalesceLeft : Option Nat × LeafEntries → Node := fun (s, les) =>
    let ps := setSlot prev1 es1 s (.leaf (les ++ ces))
    .inner ps.1 (innerDeleteEntry fk ps.2).2
  -- CoalesceLeaf(right_sibling, node, parent) followed by `delete right_sibling`
  let coalesceRight : Nat × LeafEntries → Node := fun (_, res) =>
    let ps := setSlot prev1 es1 slot (.leaf (ces ++ res))
    .inner ps.1 (innerDeleteEntry (leafFirstKey res) ps.2).2
  match leftOpt with
  | some sl =>
    if leafWillUnderflow sl.2 = false then
      -- BorrowFromLeftLeaf(left_sibling, node, parent)
      let lp := sl.2.getLastD (0, [])
      let es2 := (replaceKeyRet fk lp.1 es1).2
      let ps := setSlot prev1 es2 sl.1 (.leaf sl.2.dropLast)
      let qs := setSlot ps.1 ps.2 slot (.leaf (leafInsertSet lp.1 lp.2 ces))
      .inner qs.1 qs.2
    else
      match rightOpt with
      | some ir =>
        if leafWillUnderflow ir.2 = false then borrowRight ir else coalesceLeft sl
      | none => coalesceLeft sl
  | none =>
    match rightOpt with
    | some ir =>
      if leafWillUnderflow ir.2 = false then borrowRight ir else coalesceRight ir
    | none => .inner prev1 es1  -- both siblings null: the source dereferences nullptr (unreachable)

/-- Rebalancing of an underflowed *inner* child (`cprev`, `ces`), as
performed by one iteration of the `while` loop in `Balance`. -/
def balanceInnerAt (prev1 : Node) (es1 : InnerEntries) (slot : Option Nat)
    (cprev : Node) (ces : InnerEntries) (fk : Nat) (idx : Int) : Node :=
  -- dynamic_cast<InnerNode *>: a leaf sibling becomes null
  let leftOpt : Option (Option Nat × Node × InnerEntries) :=
    match predecessorSlot idx with
    | none => none
    | some s =>
      match childAt prev1 es1 s with
      | .inner lprev les => some (s, lprev, les)
      | .leaf _ => none
  let rightOpt : Option (Nat × Node × InnerEntries) :=
    match successorSlot idx es1.length with
    | none => none
    | some i =>
      match childAt prev1 es1 (some i) with
      | .inner rprev res => some (i, rprev, res)
      | .leaf _ => none
  -- BorrowFromRightInner(right_sibling, node, parent)
  let borrowRight : Nat × Node × InnerEntries → Node := fun (i, rprev, res) =>
    let rp := res.headD (0, Node.leaf [])
    let r := replaceKeyRet rp.1 rp.1 es1
    let node2 : Node := .inner cprev (insertAt (lowerBoundPos r.1 ces) (r.1, rprev) ces)
    let right2 : Node := .inner rp.2 res.tail
    let ps := setSlot prev1 r.2 (some i) right2
    let qs := setSlot ps.1 ps.2 slot node2
    .inner qs.1 qs.2
  -- CoalesceInner(node, left_sibling, parent) followed by `delete node`
  let coalesceLeft : Option Nat × Node × InnerEntries → Node := fun (s, lprev, les) =>
    let pk := (innerDeleteEntry fk es1).1
    let left2 : Node := .inner lprev (insertAt (lowerBoundPos pk les) (pk, cprev) les ++ ces)
    let ps := setSlot prev1 es1 s left2
    .inner ps.1 (innerDeleteEntry fk ps.2).2
  -- CoalesceInner(right_sibling, node, parent) followed by `delete right_sibling`
  let coalesceRight : Nat × Node × InnerEntries → Node := fun (_, rprev, res) =>
    let rk := innerFirstKey res
    let pk := (innerDeleteEntry rk es1).1
    let node2 : Node := .inner cprev (insertAt (lowerBoundPos pk ces) (pk, rprev) ces ++ res)
    let ps := setSlot prev1 es1 slot node2
    .inner ps.1 (innerDeleteEntry rk ps.2).2
  match leftOpt with
  | some sl =>
    if innerWillUnderflow sl.2.2 = false then
      -- BorrowFromLeftInner(left_sibling, node, parent)
      let lp := sl.2.2.getLastD (0, Node.leaf [])
      let r := replaceKeyRet fk lp.1 es1
      let node2 : Node := .inner lp.2 (insertAt (lowerBoundPos r.1 ces) (r.1, cprev) ces)
      let left2 : Node := .inner sl.2.1 sl.2.2.dropLast
      let ps := setSlot prev1 r.2 sl.1 left2
      let qs := setSlot ps.1 ps.2 slot node2
      .inner qs.1 qs.2
    else
      match rightOpt with
      | some ir =>
        if innerWillUnderflow ir.2.2 = false then borrowRight ir else coalesceLeft sl
      | none => coalesceLeft sl
  | none =>
    match rightOpt with
    | some ir =>
      if innerWillUnderflow ir.2.2 = false then borrowRight ir else coalesceRight ir
    | none => .inner prev1 es1  -- both siblings null: unreachable

/-- Dispatch of the rebalance on the dynamic type of the underflowed child. -/
def balanceAt (prev1 : Node) (es1 : InnerEntries) (slot : Option Nat) (child : Node) : Node :=
  let fk := nodeFirstKey child
  let idx := ltePos fk es1
  match child with
  | .leaf ces => balanceLeafAt prev1 es1 slot ces fk idx
  | .inner cprev ces => balanceInnerAt prev1 es1 slot cprev ces fk idx

/-- The trigger for rebalancing a child: the leaf check is
`node->IsUnderflow()` in `Delete`, the inner check the `while` condition of
`Balance`. -/
def childUnderflow : Node → Bool
  | .leaf es => leafIsUnderflow es
  | .inner _ es => innerIsUnderflow es

/-- Recursive core of the delete path: delete at the routed leaf, then on
the way back up let every ancestor rebalance its child when that child
underflowed (the source's `Balance` traceback walk). -/
def delRec (key value : Nat) : Node → Node
  | .leaf es => .leaf (deleteEntry key value es)
  | .inner prev es =>
    let slot := routeSlot key es
    let child2 := delRec key value (childAt prev es slot)
    let ps := setSlot prev es slot child2
    if childUnderflow child2 then balanceAt ps.1 ps.2 slot child2
    else .inner ps.1 ps.2
termination_by n => sizeOf n
decreasing_by exact sizeOf_childAt_lt _ _ _

/-- `BPlusTree::Delete(key, value)`.  The root-leaf case deletes without
rebalancing (a root leaf may reach zero entries); otherwise the recursive
delete runs, and if the inner root is left with zero entries its single
`prev_ptr_` child becomes the new root. -/
def deleteOp (key value : Nat) (t : Node) : Node × Bool :=
  let les := findLeafNode key t
  if hasKeyValue key value les = false then (t, false)
  else
    match t with
    | .leaf es => (.leaf (deleteEntry key value es), true)
    | .inner prev es =>
      match delRec key value (.inner prev es) with
      | .inner prev2 es2 => if es2.length = 0 then (prev2, true) else (.inner prev2 es2, true)
      | .leaf es2 => (.leaf es2, true)

/-! ### Iterator (`IndexIterator`) and the `Begin` / `End` endpoints -/

/-- The model of `IndexIterator`'s state: the current leaf (`none` models a
null `current_`), two offsets, and the cached `(first_, second_)` pair.
`cached = none` models the constructor reading out of bounds (the source
leaves `first_`/`second_` holding indeterminate values there). -/
structure IndexIter where
  current : Option LeafEntries
  keyOff : Nat
  valOff : Nat
  cached : Option (Nat × Nat)
deriving Repr, DecidableEq

/-- The `IndexIterator(LeafNode *c, size_t k, size_t v)` constructor. -/
def mkIndexIter (c : Option LeafEntries) (k v : Nat) : IndexIter :=
  { current := c, keyOff := k, valOff := v,
    cached :=
      match c with
      | none => none
      | some es =>
        match es[k]? with
        | none => none      -- (GetEntriesBegin() + k) dereferenced past the end
        | some e =>
          match e.2[v]? with
          | none => none    -- std::next(second.begin(), v) dereferenced past the end
          | some w => some (e.1, w) }

/-- `BPlusTree::End()`: the null sentinel. -/
def endIter : IndexIter := mkIndexIter none 0 0

/-- Leftmost leaf of a subtree (the `GetPrevPtr` walk of `Begin()`). -/
def leftmostLeaf : Node → LeafEntries
  | .leaf es => es
  | .inner prev _ => leftmostLeaf prev

/-- `BPlusTree::Begin()`: `root_` is never null (the constructor allocates a
leaf), so the nullptr check never fires. -/
def beginIter (t : Node) : IndexIter := mkIndexIter (some (leftmostLeaf t)) 0 0

/-- Routed descent that also collects the leaves strictly to the left of the
routed leaf, in order: the last of those is the routed leaf's backward
sibling (`prev_ptr_`), as maintained by `Split` and the coalesce splices. -/
def routedWithLeft (key : Nat) : Node → List LeafEntries × LeafEntries
  | .leaf es => ([], es)
  | .inner prev es =>
    match routeSlot key es with
    | none => routedWithLeft key prev
    | some i =>
      let r := routedWithLeft key (childAt prev es (some i))
      (leavesOf prev ++ leavesList (es.take i) ++ r.1, r.2)
termination_by n => sizeOf n
decreasing_by
  · exact sizeOf_childAt_lt _ _ none
  · exact sizeOf_childAt_lt _ _ _

/-- `BPlusTree::End(key)`. -/
def endKeyIter (key : Nat) (t : Node) : IndexIter :=
  let r := routedWithLeft key t
  let es := r.2
  if es.length = 0 then endIter
  else
    let pos := ltePos key es
    if pos = -1 then
      match r.1.getLast? with
      | none => mkIndexIter none 0 0  -- dynamic_cast of the null prev_ptr_
      | some pes =>
        -- pos = node->GetSize() - 1; val_off from (GetEntriesEnd() - 1)
        let voff := (pes.getLastD (0, [])).2.length - 1
        mkIndexIter (some pes) (pes.length - 1) voff
    else
      -- val_off = (node->GetEntriesEnd() - 1)->second.size() - 1:
      -- computed from the leaf's LAST entry, not the entry at `pos`
      let voff := (es.getLastD (0, [])).2.length - 1
      mkIndexIter (some es) pos.toNat voff

/-! ### The tree invariant

Reachable trees (§3 and §8 of the specification): leaf entries strictly
increasing, value sets non-empty (and duplicate-free, as `unordered_set`
guarantees), every key of a subtree within the half-open interval delimited
by the separators above it, inner entry lists non-empty with strictly
increasing separators, occupancy floors for non-root nodes and the
`< FAN_OUT` ceiling everywhere. -/

/-- Lower-bound check (`none` = unbounded). -/
def lbOk : Option Nat → Nat → Bool
  | none, _ => true
  | some lo, k => decide (lo ≤ k)

/-- Upper-bound check (`none` = unbounded). -/
def ubOk : Option Nat → Nat → Bool
  | none, _ => true
  | some hi, k => decide (k < hi)

/-- Interval membership. -/
def okB (lo hi : Option Nat) (k : Nat) : Bool := lbOk lo k && ubOk hi k

/-- Strictly increasing keys of an entry list. -/
def sortedKeysB : List (Nat × α) → Bool
  | [] => true
  | [_] => true
  | p :: q :: rest => decide (p.1 < q.1) && sortedKeysB (q :: rest)

/-- One well-formed leaf entry: key in range, value set non-empty and
duplicate-free. -/
def leafEntryOk (lo hi : Option Nat) (p : Nat × ValueSet) : Bool :=
  okB lo hi p.1 && !p.2.isEmpty && p.2.Nodup

mutual

/-- Well-formedness of a subtree within key bounds `[lo, hi)`; `rt` marks
the root (exempt from the occupancy floor). -/
def wfB (lo hi : Option Nat) (rt : Bool) : Node → Bool
  | .leaf es =>
    sortedKeysB es && es.all (leafEntryOk lo hi) &&
      (rt || decide (MIN_KEYS_LEAF_NODE ≤ es.length)) &&
      decide (es.length ≤ FAN_OUT - 1)
  | .inner prev es =>
    match es with
    | [] => false
    | (k0, c0) :: rest =>
      wfB lo (some k0) false prev && lbOk lo k0 && wfChain hi k0 c0 rest &&
        (rt || decide (MIN_KEYS_INNER_NODE ≤ es.length)) &&
        decide (es.length ≤ FAN_OUT - 1)
termination_by n => sizeOf n
decreasing_by
  all_goals try simp only [Node.inner.sizeOf_spec, List.cons.sizeOf_spec, List.nil.sizeOf_spec, Prod.mk.sizeOf_spec]
  all_goals omega

/-- The chain of children of an inner node: each child well-formed between
its separator and the next, the last bounded by the parent's `hi`. -/
def wfChain (hi : Option Nat) (k : Nat) (c : Node) : InnerEntries → Bool
  | [] => ubOk hi k && wfB (some k) hi false c
  | (k2, c2) :: rest => decide (k < k2) && wfB (some k) (some k2) false c && wfChain hi k2 c2 rest
termination_by l => sizeOf c + sizeOf l
decreasing_by
  all_goals try simp only [Node.inner.sizeOf_spec, List.cons.sizeOf_spec, List.nil.sizeOf_spec, Prod.mk.sizeOf_spec]
  all_goals omega

end

/-- Invariant of a whole tree. -/
def wfTree (t : Node) : Bool := wfB none none true t

/-- The leaf-level facts named by the specification: every leaf's entries
strictly increasing by key and every value set non-empty. -/
def leafFactsB (t : Node) : Bool :=
  (leavesOf t).all fun es => sortedKeysB es && es.all fun p => !p.2.isEmpty

/-- Entry-set view of a tree: `(k, v)` is stored iff some flattened entry
carries it. -/
def containsKV (t : Node) (k v : Nat) : Prop :=
  ∃ p ∈ flat t, p.1 = k ∧ v ∈ p.2

/-- A key is present iff some flattened entry carries it. -/
def containsKey (t : Node) (k : Nat) : Prop :=
  ∃ p ∈ flat t, p.1 = k

/-- The values carried by an entry list at a key (`[]` when absent). -/
def listValuesAt (k : Nat) (es : LeafEntries) : List Nat :=
  ((es.filter (fun p => decide (p.1 = k))).map (fun p => p.2)).flatten

/-- The values stored at a key (`[]` when the key is absent). -/
def valuesAt (k : Nat) (t : Node) : List Nat :=
  listValuesAt k (flat t)

/-! ## Lemma toolkit: sorted entry lists -/

/-- Strict sortedness of an entry list as a `Pairwise` proposition. -/
def sortedP (es : List (Nat × α)) : Prop :=
  es.Pairwise (fun p q => p.1 < q.1)

theorem sortedKeysB_iff (es : List (Nat × α)) :
    sortedKeysB es = true ↔ sortedP es := by
  induction es with
  | nil => simp [sortedKeysB, sortedP]
  | cons p tl ih =>
    cases tl with
    | nil => simp [sortedKeysB, sortedP]
    | cons q tl2 =>
      simp only [sortedKeysB, Bool.and_eq_true, decide_eq_true_eq, ih, sortedP,
        List.pairwise_cons]
      constructor
      · rintro ⟨h1, h2, h3⟩
        refine ⟨?_, h2, h3⟩
        intro r hr
        rcases List.mem_cons.mp hr with h | h
        · exact h ▸ h1
        · exact h1.trans (h2 r h)
      · rintro ⟨h1, h2, h3⟩
        exact ⟨h1 _ (by simp), h2, h3⟩

theorem upperBoundPos_cons (key : Nat) (p : Nat × α) (tl : List (Nat × α)) :
    upperBoundPos key (p :: tl) =
      if p.1 ≤ key then upperBoundPos key tl + 1 else 0 := by
  simp only [upperBoundPos, List.takeWhile_cons]
  by_cases h : p.1 ≤ key <;> simp [h, Nat.add_comm]

theorem lowerBoundPos_cons (key : Nat) (p : Nat × α) (tl : List (Nat × α)) :
    lowerBoundPos key (p :: tl) =
      if p.1 < key then lowerBoundPos key tl + 1 else 0 := by
  simp only [lowerBoundPos, List.takeWhile_cons]
  by_cases h : p.1 < key <;> simp [h, Nat.add_comm]

theorem lowerBoundPos_nil (key : Nat) : lowerBoundPos key ([] : List (Nat × α)) = 0 := rfl

theorem upperBoundPos_nil (key : Nat) : upperBoundPos key ([] : List (Nat × α)) = 0 := rfl

theorem lowerBoundPos_le_length (key : Nat) (es : List (Nat × α)) :
    lowerBoundPos key es ≤ es.length := by
  simpa [lowerBoundPos] using (List.takeWhile_prefix (l := es) _).length_le

theorem upperBoundPos_le_length (key : Nat) (es : List (Nat × α)) :
    upperBoundPos key es ≤ es.length := by
  simpa [upperBoundPos] using (List.takeWhile_prefix (l := es) _).length_le

/-- If every key of `es` is `< key`, the lower bound is the whole list. -/
theorem lowerBoundPos_all_lt (key : Nat) (es : List (Nat × α))
    (h : ∀ p ∈ es, p.1 < key) : lowerBoundPos key es = es.length := by
  induction es with
  | nil => rfl
  | cons p tl ih =>
    rw [lowerBoundPos_cons, if_pos (h p (by simp))]
    rw [ih (fun q hq => h q (by simp [hq]))]
    simp

/-- If the head key is `≥ key`, the lower bound is `0`. -/
theorem lowerBoundPos_head_ge (key : Nat) (p : Nat × α) (tl : List (Nat × α))
    (h : key ≤ p.1) : lowerBoundPos key (p :: tl) = 0 := by
  rw [lowerBoundPos_cons, if_neg (by omega)]

theorem lowerBoundPos_append_right (key : Nat) (A B : List (Nat × α))
    (hA : ∀ p ∈ A, p.1 < key) :
    lowerBoundPos key (A ++ B) = A.length + lowerBoundPos key B := by
  induction A with
  | nil => simp
  | cons p tl ih =>
    rw [List.cons_append, lowerBoundPos_cons, if_pos (hA p (by simp))]
    rw [ih (fun q hq => hA q (by simp [hq]))]
    simp; omega

theorem lowerBoundPos_append_left (key : Nat) (A B : List (Nat × α))
    (hB : ∀ p ∈ B, key ≤ p.1) :
    lowerBoundPos key (A ++ B) = lowerBoundPos key A := by
  induction A with
  | nil =>
    cases B with
    | nil => rfl
    | cons q tl => simpa [lowerBoundPos_nil] using lowerBoundPos_head_ge key q tl (hB q (by simp))
  | cons p tl ih =>
    rw [List.cons_append, lowerBoundPos_cons, lowerBoundPos_cons, ih]

theorem insertAt_append_of_le (pos : Nat) (x : α) (A B : List α) (h : pos ≤ A.length) :
    insertAt pos x (A ++ B) = insertAt pos x A ++ B := by
  simp only [insertAt, List.take_append_of_le_length h, List.drop_append_of_le_length h]
  simp

theorem insertAt_append_add (pos : Nat) (x : α) (A B : List α) :
    insertAt (A.length + pos) x (A ++ B) = A ++ insertAt pos x B := by
  simp only [insertAt]
  rw [List.take_append, List.drop_append]
  simp

theorem insertAt_zero (x : α) (xs : List α) : insertAt 0 x xs = x :: xs := by
  simp [insertAt]

theorem insertAt_succ_cons (n : Nat) (x p : α) (tl : List α) :
    insertAt (n + 1) x (p :: tl) = p :: insertAt n x tl := by
  simp [insertAt]

theorem insertAt_length (pos : Nat) (x : α) (xs : List α) (h : pos ≤ xs.length) :
    (insertAt pos x xs).length = xs.length + 1 := by
  simp [insertAt]; omega

theorem mem_insertAt (pos : Nat) (x y : α) (xs : List α) :
    y ∈ insertAt pos x xs ↔ y = x ∨ y ∈ xs := by
  simp only [insertAt, List.mem_append, List.mem_cons]
  constructor
  · rintro (h | h | h)
    · exact Or.inr (List.mem_of_mem_take h)
    · exact Or.inl h
    · exact Or.inr (List.mem_of_mem_drop h)
  · rintro (h | h)
    · exact Or.inr (Or.inl h)
    · rcases List.mem_append.mp ((List.take_append_drop pos xs).symm ▸ h) with h | h
      · exact Or.inl h
      · exact Or.inr (Or.inr h)

/-- Unfolding of `GetPositionOfKey` over a cons cell. -/
theorem gpk_cons (key : Nat) (p : Nat × α) (tl : List (Nat × α)) :
    getPositionOfKey key (p :: tl) =
      if p.1 < key then (getPositionOfKey key tl).map (· + 1)
      else if p.1 = key then some 0 else none := by
  by_cases h : p.1 < key
  · simp only [getPositionOfKey, lowerBoundPos_cons, if_pos h]
    rw [List.getElem?_cons_succ]
    cases htl : tl[lowerBoundPos key tl]? with
    | none => simp [h]
    | some q => by_cases hq : q.1 = key <;> simp [h, hq]
  · simp only [getPositionOfKey, lowerBoundPos_cons, if_neg h]
    by_cases hq : p.1 = key <;> simp [h, hq]

theorem gpk_nil (key : Nat) : getPositionOfKey key ([] : List (Nat × α)) = none := rfl

/-- A `some` result of `GetPositionOfKey` points at an entry with that key. -/
theorem gpk_some (key : Nat) (es : List (Nat × α)) (i : Nat)
    (h : getPositionOfKey key es = some i) :
    ∃ vs, es[i]? = some (key, vs) := by
  simp only [getPositionOfKey] at h
  cases hp : es[lowerBoundPos key es]? with
  | none => simp [hp] at h
  | some p =>
    simp only [hp] at h
    by_cases hk : p.1 = key
    · rw [if_pos hk] at h
      injection h with h2
      subst h2
      refine ⟨p.2, ?_⟩
      rw [hp]
      obtain ⟨a, b⟩ := p
      simp only [Prod.mk.injEq]
      simp at hk
      simp [hk]
    · rw [if_neg hk] at h
      exact absurd h (by simp)

theorem gpk_none_iff (key : Nat) (es : List (Nat × α)) (h : sortedP es) :
    getPositionOfKey key es = none ↔ ∀ p ∈ es, p.1 ≠ key := by
  induction es with
  | nil => simp [gpk_nil]
  | cons p tl ih =>
    have hs : sortedP tl := (List.pairwise_cons.mp h).2
    rw [gpk_cons]
    by_cases h1 : p.1 < key
    · rw [if_pos h1]
      constructor
      · intro hm q hq
        rcases List.mem_cons.mp hq with rfl | hq
        · omega
        · have hn : getPositionOfKey key tl = none := by
            cases hg : getPositionOfKey key tl
            · rfl
            · rw [hg] at hm; exact absurd hm (by simp)
          exact (ih hs).mp hn q hq
      · intro hq
        rw [(ih hs).mpr (fun q hqt => hq q (by simp [hqt]))]
        rfl
    · rw [if_neg h1]
      by_cases h2 : p.1 = key
      · simp only [if_pos h2]
        constructor
        · intro hm; exact absurd hm (by simp)
        · intro hq; exact absurd h2 (hq p (by simp))
      · simp only [if_neg h2, true_iff]
        intro q hq
        rcases List.mem_cons.mp hq with rfl | hq
        · exact h2
        · have := (List.pairwise_cons.mp h).1 q hq
          omega

/-- Unfolding of `LeafNode::Insert(key, value)` over a cons cell. -/
theorem leafInsert_cons (key value : Nat) (p : Nat × ValueSet) (tl : LeafEntries) :
    leafInsert key value (p :: tl) =
      if p.1 < key then p :: leafInsert key value tl
      else if p.1 = key then (p.1, vsInsert value p.2) :: tl
      else (key, [value]) :: p :: tl := by
  by_cases h : p.1 < key
  · simp only [leafInsert, lowerBoundPos_cons, if_pos h]
    rw [List.getElem?_cons_succ]
    cases htl : tl[lowerBoundPos key tl]? with
    | none => simp [h, insertAt_succ_cons]
    | some q =>
      by_cases hq : q.1 = key <;> simp [h, hq, insertAt_succ_cons, List.set_cons_succ]
  · simp only [leafInsert, lowerBoundPos_cons, if_neg h]
    by_cases hq : p.1 = key <;> simp [h, hq, insertAt_zero, List.set_cons_zero]

theorem leafInsert_nil (key value : Nat) :
    leafInsert key value ([] : LeafEntries) = [(key, [value])] := rfl

/-- Unfolding of `LeafNode::Insert(key, value_set)` over a cons cell. -/
theorem leafInsertSet_cons (key : Nat) (vs : ValueSet) (p : Nat × ValueSet) (tl : LeafEntries) :
    leafInsertSet key vs (p :: tl) =
      if p.1 < key then p :: leafInsertSet key vs tl
      else if p.1 = key then (p.1, vs) :: tl
      else (key, vs) :: p :: tl := by
  by_cases h : p.1 < key
  · simp only [leafInsertSet, lowerBoundPos_cons, if_pos h]
    rw [List.getElem?_cons_succ]
    cases htl : tl[lowerBoundPos key tl]? with
    | none => simp [h, insertAt_succ_cons]
    | some q =>
      by_cases hq : q.1 = key <;> simp [h, hq, insertAt_succ_cons, List.set_cons_succ]
  · simp only [leafInsertSet, lowerBoundPos_cons, if_neg h]
    by_cases hq : p.1 = key <;> simp [h, hq, insertAt_zero, List.set_cons_zero]

theorem leafInsertSet_nil (key : Nat) (vs : ValueSet) :
    leafInsertSet key vs ([] : LeafEntries) = [(key, vs)] := rfl

/-- Unfolding of `LeafNode::DeleteEntry` over a cons cell. -/
theorem deleteEntry_cons (key value : Nat) (p : Nat × ValueSet) (tl : LeafEntries) :
    deleteEntry key value (p :: tl) =
      if p.1 < key then p :: deleteEntry key value tl
      else if p.1 = key then
        (if vsErase value p.2 = [] then tl else (p.1, vsErase value p.2) :: tl)
      else p :: tl := by
  by_cases h : p.1 < key
  · simp only [deleteEntry, gpk_cons, if_pos h]
    cases htl : getPositionOfKey key tl with
    | none => simp [deleteEntry, htl]
    | some i =>
      have hd : (p :: tl).getD (i + 1) (0, ([] : ValueSet)) = tl.getD i (0, []) := by
        simp [List.getD]
      simp only [Option.map_some', deleteEntry, htl, hd]
      split <;> rfl
  · by_cases hq : p.1 = key
    · by_cases he : vsErase value p.2 = [] <;>
        simp [deleteEntry, gpk_cons, h, hq, he]
    · simp [deleteEntry, gpk_cons, h, hq]

theorem deleteEntry_nil (key value : Nat) :
    deleteEntry key value ([] : LeafEntries) = [] := rfl

end BPT

namespace BPT

/-! ### Characterizations of the leaf operations on sorted entry lists -/

theorem listValuesAt_nil (k : Nat) : listValuesAt k [] = [] := rfl

theorem listValuesAt_cons (k : Nat) (p : Nat × ValueSet) (tl : LeafEntries) :
    listValuesAt k (p :: tl) =
      (if p.1 = k then p.2 else []) ++ listValuesAt k tl := by
  by_cases h : p.1 = k <;> simp [listValuesAt, List.filter_cons, h]

theorem listValuesAt_append (k : Nat) (A B : LeafEntries) :
    listValuesAt k (A ++ B) = listValuesAt k A ++ listValuesAt k B := by
  simp [listValuesAt]

theorem listValuesAt_eq_nil (k : Nat) (es : LeafEntries) (h : ∀ p ∈ es, p.1 ≠ k) :
    listValuesAt k es = [] := by
  induction es with
  | nil => rfl
  | cons p tl ih =>
    rw [listValuesAt_cons, if_neg (h p (by simp)), List.nil_append]
    exact ih fun q hq => h q (by simp [hq])

theorem mem_listValuesAt (k v : Nat) (es : LeafEntries) :
    v ∈ listValuesAt k es ↔ ∃ p ∈ es, p.1 = k ∧ v ∈ p.2 := by
  induction es with
  | nil => simp [listValuesAt_nil]
  | cons p tl ih =>
    rw [listValuesAt_cons]
    by_cases h : p.1 = k <;> simp [h, ih]

/-- Keys strictly above the head in a sorted list. -/
theorem sorted_tail_gt (p : Nat × α) (tl : List (Nat × α)) (h : sortedP (p :: tl)) :
    ∀ q ∈ tl, p.1 < q.1 :=
  (List.pairwise_cons.mp h).1

theorem sortedP_tail (p : Nat × α) (tl : List (Nat × α)) (h : sortedP (p :: tl)) :
    sortedP tl :=
  (List.pairwise_cons.mp h).2

/-- `HasKeyValue` on a sorted leaf finds exactly the stored values. -/
theorem hasKeyValue_cons (k v : Nat) (p : Nat × ValueSet) (tl : LeafEntries) :
    hasKeyValue k v (p :: tl) =
      if p.1 < k then hasKeyValue k v tl
      else if p.1 = k then decide (v ∈ p.2) else false := by
  by_cases h : p.1 < k
  · simp only [hasKeyValue, gpk_cons, if_pos h]
    cases htl : getPositionOfKey k tl with
    | none => simp [htl]
    | some i =>
      have hd : (p :: tl).getD (i + 1) (0, ([] : ValueSet)) = tl.getD i (0, []) := by
        simp [List.getD]
      simp only [Option.map_some', htl, hd]
  · by_cases hq : p.1 = k <;> simp [hasKeyValue, gpk_cons, h, hq]

theorem hasKeyValue_iff (k v : Nat) (es : LeafEntries) (h : sortedP es) :
    hasKeyValue k v es = true ↔ v ∈ listValuesAt k es := by
  induction es with
  | nil => simp [hasKeyValue, gpk_nil, listValuesAt_nil]
  | cons p tl ih =>
    rw [hasKeyValue_cons, listValuesAt_cons]
    by_cases h1 : p.1 < k
    · have : p.1 ≠ k := by omega
      simp [h1, this, ih (sortedP_tail _ _ h)]
    · by_cases h2 : p.1 = k
      · have : listValuesAt k tl = [] :=
          listValuesAt_eq_nil _ _ fun q hq => by
            have := sorted_tail_gt p tl h q hq; omega
        simp [h1, h2, this]
      · have hn : listValuesAt k tl = [] :=
          listValuesAt_eq_nil _ _ fun q hq => by
            have := sorted_tail_gt p tl h q hq; omega
        simp [h1, h2, hn]

theorem hasKey_iff (k : Nat) (es : LeafEntries) (h : sortedP es) :
    hasKey k es = true ↔ ∃ p ∈ es, p.1 = k := by
  cases hg : getPositionOfKey k es with
  | none =>
    have hall := (gpk_none_iff k es h).mp hg
    simp only [hasKey, hg, Option.isSome_none, Bool.false_eq_true, false_iff]
    rintro ⟨p, hp, rfl⟩
    exact hall p hp rfl
  | some i =>
    obtain ⟨vs, hvs⟩ := gpk_some k es i hg
    simp only [hasKey, hg, Option.isSome_some, true_iff]
    exact ⟨(k, vs), List.getElem?_mem hvs, rfl⟩

theorem satisfiesPredicate_cons (k : Nat) (pr : Nat → Bool) (p : Nat × ValueSet)
    (tl : LeafEntries) :
    satisfiesPredicate k pr (p :: tl) =
      if p.1 < k then satisfiesPredicate k pr tl
      else if p.1 = k then p.2.any pr else false := by
  by_cases h : p.1 < k
  · simp only [satisfiesPredicate, gpk_cons, if_pos h]
    cases htl : getPositionOfKey k tl with
    | none => simp [htl]
    | some i =>
      have hd : (p :: tl).getD (i + 1) (0, ([] : ValueSet)) = tl.getD i (0, []) := by
        simp [List.getD]
      simp only [Option.map_some', htl, hd]
  · by_cases hq : p.1 = k <;> simp [satisfiesPredicate, gpk_cons, h, hq]

theorem satisfiesPredicate_iff (k : Nat) (pr : Nat → Bool) (es : LeafEntries)
    (h : sortedP es) :
    satisfiesPredicate k pr es = true ↔ ∃ v ∈ listValuesAt k es, pr v = true := by
  induction es with
  | nil => simp [satisfiesPredicate, gpk_nil, listValuesAt_nil]
  | cons p tl ih =>
    rw [satisfiesPredicate_cons, listValuesAt_cons]
    by_cases h1 : p.1 < k
    · have : p.1 ≠ k := by omega
      simp [h1, this, ih (sortedP_tail _ _ h)]
    · by_cases h2 : p.1 = k
      · have : listValuesAt k tl = [] :=
          listValuesAt_eq_nil _ _ fun q hq => by
            have := sorted_tail_gt p tl h q hq; omega
        simp [h1, h2, this, List.any_eq_true]
      · have hn : listValuesAt k tl = [] :=
          listValuesAt_eq_nil _ _ fun q hq => by
            have := sorted_tail_gt p tl h q hq
            intro hqk
            exact h1 (by omega)
        simp [h1, h2, hn]

theorem scanAndPopulateResults_cons (k : Nat) (p : Nat × ValueSet) (tl : LeafEntries)
    (results : List Nat) :
    scanAndPopulateResults k (p :: tl) results =
      if p.1 < k then scanAndPopulateResults k tl results
      else if p.1 = k then results ++ p.2 else results := by
  by_cases h : p.1 < k
  · simp only [scanAndPopulateResults, gpk_cons, if_pos h]
    cases htl : getPositionOfKey k tl with
    | none => simp [htl]
    | some i =>
      have hd : (p :: tl).getD (i + 1) (0, ([] : ValueSet)) = tl.getD i (0, []) := by
        simp [List.getD]
      simp only [Option.map_some', htl, hd]
  · by_cases hq : p.1 = k <;> simp [scanAndPopulateResults, gpk_cons, h, hq]

theorem scanAndPopulateResults_eq (k : Nat) (es : LeafEntries) (results : List Nat)
    (h : sortedP es) :
    scanAndPopulateResults k es results = results ++ listValuesAt k es := by
  induction es generalizing results with
  | nil => simp [scanAndPopulateResults, gpk_nil, listValuesAt_nil]
  | cons p tl ih =>
    rw [scanAndPopulateResults_cons, listValuesAt_cons]
    have ih2 := fun r => ih r (sortedP_tail _ _ h)
    by_cases h1 : p.1 < k
    · have : p.1 ≠ k := by omega
      simp [h1, this, ih2]
    · by_cases h2 : p.1 = k
      · have : listValuesAt k tl = [] :=
          listValuesAt_eq_nil _ _ fun q hq => by
            have := sorted_tail_gt p tl h q hq; omega
        simp [h1, h2, this]
      · have hn : listValuesAt k tl = [] :=
          listValuesAt_eq_nil _ _ fun q hq => by
            have := sorted_tail_gt p tl h q hq; omega
        simp [h1, h2, hn]

end BPT

namespace BPT

/-! ### Structural lemmas for `LeafNode::Insert` and `LeafNode::DeleteEntry` -/

theorem vsInsert_mem (v w : Nat) (s : ValueSet) :
    w ∈ vsInsert v s ↔ w ∈ s ∨ w = v := by
  by_cases h : v ∈ s
  · simp only [vsInsert, if_pos h]
    constructor
    · exact Or.inl
    · rintro (hw | rfl) <;> assumption
  · simp [vsInsert, if_neg h]

theorem vsInsert_nodup (v : Nat) (s : ValueSet) (h : s.Nodup) : (vsInsert v s).Nodup := by
  by_cases hm : v ∈ s
  · simpa [vsInsert, hm]
  · simp [vsInsert, hm, List.nodup_append, h]

theorem vsInsert_ne_nil (v : Nat) (s : ValueSet) : vsInsert v s ≠ [] := by
  by_cases hm : v ∈ s
  · simp only [vsInsert, if_pos hm]
    rintro rfl
    exact absurd hm (by simp)
  · simp [vsInsert, hm]

theorem vsErase_nodup (v : Nat) (s : ValueSet) (h : s.Nodup) : (vsErase v s).Nodup :=
  h.erase v

theorem vsErase_mem (v w : Nat) (s : ValueSet) (h : s.Nodup) :
    w ∈ vsErase v s ↔ w ∈ s ∧ w ≠ v := by
  simp [vsErase, List.Nodup.mem_erase_iff h, and_comm]

theorem mem_leafInsert (key value : Nat) (es : LeafEntries) (q : Nat × ValueSet)
    (hq : q ∈ leafInsert key value es) :
    q ∈ es ∨ q = (key, [value]) ∨ ∃ r ∈ es, r.1 = key ∧ q = (r.1, vsInsert value r.2) := by
  induction es with
  | nil =>
    rw [leafInsert_nil] at hq
    simp at hq
    exact Or.inr (Or.inl hq)
  | cons p tl ih =>
    rw [leafInsert_cons] at hq
    by_cases h1 : p.1 < key
    · rw [if_pos h1] at hq
      rcases List.mem_cons.mp hq with rfl | hq
      · exact Or.inl (by simp)
      · rcases ih hq with h | h | ⟨r, hr, hrk, rfl⟩
        · exact Or.inl (by simp [h])
        · exact Or.inr (Or.inl h)
        · exact Or.inr (Or.inr ⟨r, by simp [hr], hrk, rfl⟩)
    · by_cases h2 : p.1 = key
      · rw [if_neg h1, if_pos h2] at hq
        rcases List.mem_cons.mp hq with rfl | hq
        · exact Or.inr (Or.inr ⟨p, by simp, h2, rfl⟩)
        · exact Or.inl (by simp [hq])
      · rw [if_neg h1, if_neg h2] at hq
        rcases List.mem_cons.mp hq with rfl | hq
        · exact Or.inr (Or.inl rfl)
        · exact Or.inl hq

theorem mem_leafInsertSet (key : Nat) (vs : ValueSet) (es : LeafEntries) (q : Nat × ValueSet)
    (hq : q ∈ leafInsertSet key vs es) :
    q ∈ es ∨ q = (key, vs) ∨ ∃ r ∈ es, r.1 = key ∧ q = (r.1, vs) := by
  induction es with
  | nil =>
    rw [leafInsertSet_nil] at hq
    simp at hq
    exact Or.inr (Or.inl hq)
  | cons p tl ih =>
    rw [leafInsertSet_cons] at hq
    by_cases h1 : p.1 < key
    · rw [if_pos h1] at hq
      rcases List.mem_cons.mp hq with rfl | hq
      · exact Or.inl (by simp)
      · rcases ih hq with h | h | ⟨r, hr, hrk, rfl⟩
        · exact Or.inl (by simp [h])
        · exact Or.inr (Or.inl h)
        · exact Or.inr (Or.inr ⟨r, by simp [hr], hrk, rfl⟩)
    · by_cases h2 : p.1 = key
      · rw [if_neg h1, if_pos h2] at hq
        rcases List.mem_cons.mp hq with rfl | hq
        · exact Or.inr (Or.inr ⟨p, by simp, h2, rfl⟩)
        · exact Or.inl (by simp [hq])
      · rw [if_neg h1, if_neg h2] at hq
        rcases List.mem_cons.mp hq with rfl | hq
        · exact Or.inr (Or.inl rfl)
        · exact Or.inl hq

theorem mem_deleteEntry (key value : Nat) (es : LeafEntries) (q : Nat × ValueSet)
    (hq : q ∈ deleteEntry key value es) :
    q ∈ es ∨ ∃ r ∈ es, r.1 = key ∧ q = (r.1, vsErase value r.2) := by
  induction es with
  | nil => rw [deleteEntry_nil] at hq; exact Or.inl hq
  | cons p tl ih =>
    rw [deleteEntry_cons] at hq
    by_cases h1 : p.1 < key
    · rw [if_pos h1] at hq
      rcases List.mem_cons.mp hq with rfl | hq
      · exact Or.inl (by simp)
      · rcases ih hq with h | ⟨r, hr, hrk, rfl⟩
        · exact Or.inl (by simp [h])
        · exact Or.inr ⟨r, by simp [hr], hrk, rfl⟩
    · by_cases h2 : p.1 = key
      · rw [if_neg h1, if_pos h2] at hq
        by_cases he : vsErase value p.2 = []
        · rw [if_pos he] at hq
          exact Or.inl (by simp [hq])
        · rw [if_neg he] at hq
          rcases List.mem_cons.mp hq with rfl | hq
          · exact Or.inr ⟨p, by simp, h2, rfl⟩
          · exact Or.inl (by simp [hq])
      · rw [if_neg h1, if_neg h2] at hq
        exact Or.inl hq

/-- First component of any entry in the insert result. -/
theorem keys_leafInsert (key value : Nat) (es : LeafEntries) (q : Nat × ValueSet)
    (hq : q ∈ leafInsert key value es) :
    q.1 = key ∨ ∃ r ∈ es, q.1 = r.1 := by
  rcases mem_leafInsert key value es q hq with h | rfl | ⟨r, hr, hrk, rfl⟩
  · exact Or.inr ⟨q, h, rfl⟩
  · exact Or.inl rfl
  · exact Or.inr ⟨r, hr, rfl⟩

theorem keys_deleteEntry (key value : Nat) (es : LeafEntries) (q : Nat × ValueSet)
    (hq : q ∈ deleteEntry key value es) :
    ∃ r ∈ es, q.1 = r.1 := by
  rcases mem_deleteEntry key value es q hq with h | ⟨r, hr, hrk, rfl⟩
  · exact ⟨q, h, rfl⟩
  · exact ⟨r, hr, rfl⟩

theorem sorted_leafInsert (key value : Nat) (es : LeafEntries) (h : sortedP es) :
    sortedP (leafInsert key value es) := by
  induction es with
  | nil => rw [leafInsert_nil]; simp [sortedP]
  | cons p tl ih =>
    rw [leafInsert_cons]
    by_cases h1 : p.1 < key
    · rw [if_pos h1]
      refine List.pairwise_cons.mpr ⟨?_, ih (sortedP_tail _ _ h)⟩
      intro q hq
      rcases keys_leafInsert key value tl q hq with hk | ⟨r, hr, hk⟩
      · omega
      · have := sorted_tail_gt p tl h r hr; omega
    · by_cases h2 : p.1 = key
      · rw [if_neg h1, if_pos h2]
        exact List.pairwise_cons.mpr ⟨sorted_tail_gt p tl h, sortedP_tail _ _ h⟩
      · rw [if_neg h1, if_neg h2]
        refine List.pairwise_cons.mpr ⟨?_, h⟩
        intro q hq
        rcases List.mem_cons.mp hq with rfl | hq
        · omega
        · have := sorted_tail_gt p tl h q hq; omega

theorem sorted_leafInsertSet (key : Nat) (vs : ValueSet) (es : LeafEntries) (h : sortedP es) :
    sortedP (leafInsertSet key vs es) := by
  induction es with
  | nil => rw [leafInsertSet_nil]; simp [sortedP]
  | cons p tl ih =>
    rw [leafInsertSet_cons]
    by_cases h1 : p.1 < key
    · rw [if_pos h1]
      refine List.pairwise_cons.mpr ⟨?_, ih (sortedP_tail _ _ h)⟩
      intro q hq
      rcases mem_leafInsertSet key vs tl q hq with hm | rfl | ⟨r, hr, hrk, rfl⟩
      · exact sorted_tail_gt p tl h q hm
      · omega
      · have := sorted_tail_gt p tl h r hr; simpa [hrk] using this
    · by_cases h2 : p.1 = key
      · rw [if_neg h1, if_pos h2]
        exact List.pairwise_cons.mpr ⟨sorted_tail_gt p tl h, sortedP_tail _ _ h⟩
      · rw [if_neg h1, if_neg h2]
        refine List.pairwise_cons.mpr ⟨?_, h⟩
        intro q hq
        rcases List.mem_cons.mp hq with rfl | hq
        · omega
        · have := sorted_tail_gt p tl h q hq; omega

theorem sorted_deleteEntry (key value : Nat) (es : LeafEntries) (h : sortedP es) :
    sortedP (deleteEntry key value es) := by
  induction es with
  | nil => rw [deleteEntry_nil]; exact h
  | cons p tl ih =>
    rw [deleteEntry_cons]
    by_cases h1 : p.1 < key
    · rw [if_pos h1]
      refine List.pairwise_cons.mpr ⟨?_, ih (sortedP_tail _ _ h)⟩
      intro q hq
      obtain ⟨r, hr, hk⟩ := keys_deleteEntry key value tl q hq
      have := sorted_tail_gt p tl h r hr; omega
    · by_cases h2 : p.1 = key
      · rw [if_neg h1, if_pos h2]
        by_cases he : vsErase value p.2 = []
        · rw [if_pos he]; exact sortedP_tail _ _ h
        · rw [if_neg he]
          exact List.pairwise_cons.mpr ⟨sorted_tail_gt p tl h, sortedP_tail _ _ h⟩
      · rw [if_neg h1, if_neg h2]; exact h

end BPT

namespace BPT

/-! ### Value-level behaviour of the leaf mutations -/

theorem listValuesAt_cons_ne (k : Nat) (p : Nat × ValueSet) (tl : LeafEntries)
    (h : p.1 ≠ k) : listValuesAt k (p :: tl) = listValuesAt k tl := by
  rw [listValuesAt_cons, if_neg h, List.nil_append]

theorem listValuesAt_cons_self (k : Nat) (vs : ValueSet) (tl : LeafEntries) :
    listValuesAt k ((k, vs) :: tl) = vs ++ listValuesAt k tl := by
  rw [listValuesAt_cons, if_pos rfl]

theorem listValuesAt_leafInsert (k1 key value : Nat) (es : LeafEntries) (h : sortedP es) :
    listValuesAt k1 (leafInsert key value es) =
      if k1 = key then vsInsert value (listValuesAt key es) else listValuesAt k1 es := by
  induction es with
  | nil =>
    rw [leafInsert_nil]
    by_cases h1 : k1 = key
    · subst h1
      rw [if_pos rfl, listValuesAt_cons_self, listValuesAt_nil]
      simp [vsInsert]
    · rw [if_neg h1, listValuesAt_cons_ne k1 (key, [value]) [] (fun hh => h1 hh.symm)]
  | cons p tl ih =>
    rw [leafInsert_cons]
    obtain ⟨pk, pv⟩ := p
    simp only at *
    by_cases h1 : pk < key
    · rw [if_pos h1]
      by_cases h2 : k1 = key
      · subst h2
        rw [if_pos rfl, listValuesAt_cons_ne k1 (pk, pv) _ (by simp; omega),
          listValuesAt_cons_ne k1 (pk, pv) _ (by simp; omega),
          ih (sortedP_tail _ _ h), if_pos rfl]
      · rw [if_neg h2]
        by_cases h3 : pk = k1
        · subst h3
          rw [listValuesAt_cons_self, listValuesAt_cons_self,
            ih (sortedP_tail _ _ h), if_neg h2]
        · rw [listValuesAt_cons_ne k1 (pk, pv) _ (by simpa using h3),
            listValuesAt_cons_ne k1 (pk, pv) _ (by simpa using h3),
            ih (sortedP_tail _ _ h), if_neg h2]
    · by_cases h2 : pk = key
      · subst h2
        rw [if_neg h1, if_pos rfl]
        have ht : listValuesAt pk tl = [] :=
          listValuesAt_eq_nil _ _ fun q hq => by
            have := sorted_tail_gt (pk, pv) tl h q hq
            simp at this; omega
        by_cases h3 : k1 = pk
        · subst h3
          rw [if_pos rfl, listValuesAt_cons_self, listValuesAt_cons_self, ht]
          simp [vsInsert]
        · rw [if_neg h3, listValuesAt_cons_ne k1 (pk, vsInsert value pv) _
            (by simpa using fun hh => h3 hh.symm),
            listValuesAt_cons_ne k1 (pk, pv) _ (by simpa using fun hh => h3 hh.symm)]
      · rw [if_neg h1, if_neg h2]
        have ht : listValuesAt key ((pk, pv) :: tl) = [] :=
          listValuesAt_eq_nil _ _ fun q hq => by
            rcases List.mem_cons.mp hq with rfl | hq
            · simpa using h2
            · have := sorted_tail_gt (pk, pv) tl h q hq
              simp at this; omega
        by_cases h3 : k1 = key
        · subst h3
          rw [if_pos rfl, ht, listValuesAt_cons_self, ht]
          simp [vsInsert]
        · rw [if_neg h3, listValuesAt_cons_ne k1 (key, [value]) ((pk, pv) :: tl)
            (by simpa using fun hh => h3 hh.symm)]

theorem listValuesAt_leafInsertSet (k1 key : Nat) (vs : ValueSet) (es : LeafEntries)
    (h : sortedP es) :
    listValuesAt k1 (leafInsertSet key vs es) =
      if k1 = key then vs else listValuesAt k1 es := by
  induction es with
  | nil =>
    rw [leafInsertSet_nil]
    by_cases h1 : k1 = key
    · subst h1
      rw [if_pos rfl, listValuesAt_cons_self, listValuesAt_nil]
      simp
    · rw [if_neg h1, listValuesAt_cons_ne k1 (key, vs) [] (fun hh => h1 hh.symm)]
  | cons p tl ih =>
    rw [leafInsertSet_cons]
    obtain ⟨pk, pv⟩ := p
    simp only at *
    by_cases h1 : pk < key
    · rw [if_pos h1]
      by_cases h2 : k1 = key
      · subst h2
        rw [if_pos rfl, listValuesAt_cons_ne k1 (pk, pv) _ (by simp; omega),
          ih (sortedP_tail _ _ h), if_pos rfl]
      · rw [if_neg h2]
        by_cases h3 : pk = k1
        · subst h3
          rw [listValuesAt_cons_self, listValuesAt_cons_self,
            ih (sortedP_tail _ _ h), if_neg h2]
        · rw [listValuesAt_cons_ne k1 (pk, pv) _ (by simpa using h3),
            listValuesAt_cons_ne k1 (pk, pv) _ (by simpa using h3),
            ih (sortedP_tail _ _ h), if_neg h2]
    · by_cases h2 : pk = key
      · subst h2
        rw [if_neg h1, if_pos rfl]
        have ht : listValuesAt pk tl = [] :=
          listValuesAt_eq_nil _ _ fun q hq => by
            have := sorted_tail_gt (pk, pv) tl h q hq
            simp at this; omega
        by_cases h3 : k1 = pk
        · subst h3
          rw [if_pos rfl, listValuesAt_cons_self, ht]
          simp
        · rw [if_neg h3, listValuesAt_cons_ne k1 (pk, vs) _
            (by simpa using fun hh => h3 hh.symm),
            listValuesAt_cons_ne k1 (pk, pv) _ (by simpa using fun hh => h3 hh.symm)]
      · rw [if_neg h1, if_neg h2]
        by_cases h3 : k1 = key
        · subst h3
          have ht : listValuesAt k1 ((pk, pv) :: tl) = [] :=
            listValuesAt_eq_nil _ _ fun q hq => by
              rcases List.mem_cons.mp hq with rfl | hq
              · simpa using h2
              · have := sorted_tail_gt (pk, pv) tl h q hq
                simp at this; omega
          rw [if_pos rfl, listValuesAt_cons_self, ht]
          simp
        · rw [if_neg h3, listValuesAt_cons_ne k1 (key, vs) ((pk, pv) :: tl)
            (by simpa using fun hh => h3 hh.symm)]

theorem listValuesAt_deleteEntry (k1 key value : Nat) (es : LeafEntries) (h : sortedP es) :
    listValuesAt k1 (deleteEntry key value es) =
      if k1 = key then vsErase value (listValuesAt key es) else listValuesAt k1 es := by
  induction es with
  | nil =>
    rw [deleteEntry_nil]
    by_cases h1 : k1 = key
    · subst h1; rw [if_pos rfl, listValuesAt_nil]; rfl
    · rw [if_neg h1]
  | cons p tl ih =>
    rw [deleteEntry_cons]
    obtain ⟨pk, pv⟩ := p
    simp only at *
    by_cases h1 : pk < key
    · rw [if_pos h1]
      by_cases h2 : k1 = key
      · subst h2
        rw [if_pos rfl, listValuesAt_cons_ne k1 (pk, pv) _ (by simp; omega),
          listValuesAt_cons_ne k1 (pk, pv) _ (by simp; omega),
          ih (sortedP_tail _ _ h), if_pos rfl]
      · rw [if_neg h2]
        by_cases h3 : pk = k1
        · subst h3
          rw [listValuesAt_cons_self, listValuesAt_cons_self,
            ih (sortedP_tail _ _ h), if_neg h2]
        · rw [listValuesAt_cons_ne k1 (pk, pv) _ (by simpa using h3),
            listValuesAt_cons_ne k1 (pk, pv) _ (by simpa using h3),
            ih (sortedP_tail _ _ h), if_neg h2]
    · by_cases h2 : pk = key
      · subst h2
        rw [if_neg h1, if_pos rfl]
        have ht : listValuesAt pk tl = [] :=
          listValuesAt_eq_nil _ _ fun q hq => by
            have := sorted_tail_gt (pk, pv) tl h q hq
            simp at this; omega
        by_cases he : vsErase value pv = []
        · rw [if_pos he]
          by_cases h3 : k1 = pk
          · subst h3
            rw [if_pos rfl, listValuesAt_cons_self, ht, List.append_nil, he]
          · rw [if_neg h3, listValuesAt_cons_ne k1 (pk, pv) _
              (by simpa using fun hh => h3 hh.symm)]
        · rw [if_neg he]
          by_cases h3 : k1 = pk
          · subst h3
            rw [if_pos rfl, listValuesAt_cons_self, listValuesAt_cons_self, ht]
            simp [vsErase]
          · rw [if_neg h3, listValuesAt_cons_ne k1 (pk, vsErase value pv) _
              (by simpa using fun hh => h3 hh.symm),
              listValuesAt_cons_ne k1 (pk, pv) _ (by simpa using fun hh => h3 hh.symm)]
      · rw [if_neg h1, if_neg h2]
        by_cases h3 : k1 = key
        · subst h3
          have ht : listValuesAt k1 ((pk, pv) :: tl) = [] :=
            listValuesAt_eq_nil _ _ fun q hq => by
              rcases List.mem_cons.mp hq with rfl | hq
              · simpa using h2
              · have := sorted_tail_gt (pk, pv) tl h q hq
                simp at this; omega
          rw [if_pos rfl, ht]
          rfl
        · rw [if_neg h3]

/-! ### Localization of the leaf mutations over appends -/

theorem leafInsert_all_gt (key value : Nat) (es : LeafEntries)
    (h : ∀ q ∈ es, key < q.1) :
    leafInsert key value es = (key, [value]) :: es := by
  cases es with
  | nil => rfl
  | cons p tl =>
    rw [leafInsert_cons]
    have := h p (by simp)
    rw [if_neg (by omega), if_neg (by omega)]

theorem leafInsert_append_right (key value : Nat) (A B : LeafEntries)
    (hB : ∀ q ∈ B, key < q.1) :
    leafInsert key value (A ++ B) = leafInsert key value A ++ B := by
  induction A with
  | nil =>
    rw [List.nil_append, leafInsert_all_gt key value B hB, leafInsert_nil]
    rfl
  | cons p tl ih =>
    rw [List.cons_append, leafInsert_cons, leafInsert_cons]
    by_cases h1 : p.1 < key
    · rw [if_pos h1, if_pos h1, ih, List.cons_append]
    · by_cases h2 : p.1 = key
      · rw [if_neg h1, if_neg h1, if_pos h2, if_pos h2, List.cons_append]
      · rw [if_neg h1, if_neg h1, if_neg h2, if_neg h2]
        simp

theorem leafInsert_append_left (key value : Nat) (A B : LeafEntries)
    (hA : ∀ q ∈ A, q.1 < key) :
    leafInsert key value (A ++ B) = A ++ leafInsert key value B := by
  induction A with
  | nil => simp
  | cons p tl ih =>
    rw [List.cons_append, leafInsert_cons, if_pos (hA p (by simp)),
      ih (fun q hq => hA q (by simp [hq])), List.cons_append]

theorem deleteEntry_all_gt (key value : Nat) (es : LeafEntries)
    (h : ∀ q ∈ es, key < q.1) :
    deleteEntry key value es = es := by
  induction es with
  | nil => rfl
  | cons p tl ih =>
    rw [deleteEntry_cons]
    have := h p (by simp)
    rw [if_neg (by omega), if_neg (by omega)]

theorem deleteEntry_append_right (key value : Nat) (A B : LeafEntries)
    (hB : ∀ q ∈ B, key < q.1) :
    deleteEntry key value (A ++ B) = deleteEntry key value A ++ B := by
  induction A with
  | nil =>
    rw [List.nil_append, deleteEntry_all_gt key value B hB, deleteEntry_nil, List.nil_append]
  | cons p tl ih =>
    rw [List.cons_append, deleteEntry_cons, deleteEntry_cons]
    by_cases h1 : p.1 < key
    · rw [if_pos h1, if_pos h1, ih, List.cons_append]
    · by_cases h2 : p.1 = key
      · rw [if_neg h1, if_neg h1, if_pos h2, if_pos h2]
        by_cases he : vsErase value p.2 = []
        · rw [if_pos he, if_pos he]
        · rw [if_neg he, if_neg he, List.cons_append]
      · rw [if_neg h1, if_neg h1, if_neg h2, if_neg h2, List.cons_append]

theorem deleteEntry_append_left (key value : Nat) (A B : LeafEntries)
    (hA : ∀ q ∈ A, q.1 < key) :
    deleteEntry key value (A ++ B) = A ++ deleteEntry key value B := by
  induction A with
  | nil => simp
  | cons p tl ih =>
    rw [List.cons_append, deleteEntry_cons, if_pos (hA p (by simp)),
      ih (fun q hq => hA q (by simp [hq])), List.cons_append]

/-! ### Length bounds -/

theorem leafInsert_length (key value : Nat) (es : LeafEntries) :
    es.length ≤ (leafInsert key value es).length ∧
      (leafInsert key value es).length ≤ es.length + 1 := by
  induction es with
  | nil => rw [leafInsert_nil]; simp
  | cons p tl ih =>
    rw [leafInsert_cons]
    by_cases h1 : p.1 < key
    · rw [if_pos h1]; simpa using ih
    · by_cases h2 : p.1 = key
      · rw [if_neg h1, if_pos h2]; simp
      · rw [if_neg h1, if_neg h2]; simp

theorem deleteEntry_length (key value : Nat) (es : LeafEntries) :
    es.length - 1 ≤ (deleteEntry key value es).length ∧
      (deleteEntry key value es).length ≤ es.length := by
  induction es with
  | nil => rw [deleteEntry_nil]; simp
  | cons p tl ih =>
    rw [deleteEntry_cons]
    by_cases h1 : p.1 < key
    · rw [if_pos h1]; simp; omega
    · by_cases h2 : p.1 = key
      · rw [if_neg h1, if_pos h2]
        by_cases he : vsErase value p.2 = []
        · rw [if_pos he]; simp
        · rw [if_neg he]; simp
      · rw [if_neg h1, if_neg h2]; simp

end BPT

namespace BPT

/-! ### Tree-level glue: flattening and invariant unfolding -/

theorem flat_leaf (es : LeafEntries) : flat (.leaf es) = es := by
  simp [flat]

theorem flat_inner (prev : Node) (es : InnerEntries) :
    flat (.inner prev es) = flat prev ++ flatList es := by
  simp [flat]

theorem flatList_nil : flatList [] = [] := by simp [flatList]

theorem flatList_cons (k : Nat) (c : Node) (rest : InnerEntries) :
    flatList ((k, c) :: rest) = flat c ++ flatList rest := by
  simp [flatList]

theorem leavesOf_leaf (es : LeafEntries) : leavesOf (.leaf es) = [es] := by
  simp [leavesOf]

theorem leavesOf_inner (prev : Node) (es : InnerEntries) :
    leavesOf (.inner prev es) = leavesOf prev ++ leavesList es := by
  simp [leavesOf]

theorem leavesList_nil : leavesList [] = [] := by simp [leavesList]

theorem leavesList_cons (k : Nat) (c : Node) (rest : InnerEntries) :
    leavesList ((k, c) :: rest) = leavesOf c ++ leavesList rest := by
  simp [leavesList]

theorem wfB_leaf_iff (lo hi : Option Nat) (rt : Bool) (es : LeafEntries) :
    wfB lo hi rt (.leaf es) = true ↔
      sortedP es ∧ (∀ p ∈ es, okB lo hi p.1 = true ∧ p.2 ≠ [] ∧ p.2.Nodup) ∧
        (rt = true ∨ MIN_KEYS_LEAF_NODE ≤ es.length) ∧ es.length ≤ FAN_OUT - 1 := by
  rw [wfB]
  simp only [Bool.and_eq_true, Bool.or_eq_true, decide_eq_true_eq, List.all_eq_true,
    sortedKeysB_iff, leafEntryOk]
  constructor
  · rintro ⟨⟨⟨hs, ha⟩, hocc⟩, hlen⟩
    refine ⟨hs, ?_, hocc, hlen⟩
    intro p hp
    have hb := ha p hp
    simp only [Bool.and_eq_true] at hb
    obtain ⟨⟨h1a, h1b⟩, h2⟩ := hb
    refine ⟨h1a, ?_, by simpa using h2⟩
    simpa using h1b
  · rintro ⟨hs, ha, hocc, hlen⟩
    refine ⟨⟨⟨hs, ?_⟩, hocc⟩, hlen⟩
    intro p hp
    obtain ⟨h1, h2, h3⟩ := ha p hp
    simp [h1, h2, h3]

theorem wfB_inner_nil (lo hi : Option Nat) (rt : Bool) (prev : Node) :
    wfB lo hi rt (.inner prev []) = false := by
  rw [wfB]

theorem wfB_inner_cons_iff (lo hi : Option Nat) (rt : Bool) (prev : Node) (k0 : Nat)
    (c0 : Node) (rest : InnerEntries) :
    wfB lo hi rt (.inner prev ((k0, c0) :: rest)) = true ↔
      wfB lo (some k0) false prev = true ∧ lbOk lo k0 = true ∧
        wfChain hi k0 c0 rest = true ∧
        (rt = true ∨ MIN_KEYS_INNER_NODE ≤ rest.length + 1) ∧ rest.length + 1 ≤ FAN_OUT - 1 := by
  rw [wfB]
  simp only [Bool.and_eq_true, Bool.or_eq_true, decide_eq_true_eq, List.length_cons]
  constructor
  · rintro ⟨⟨⟨⟨h1, h2⟩, h3⟩, h4⟩, h5⟩
    exact ⟨h1, h2, h3, h4, h5⟩
  · rintro ⟨h1, h2, h3, h4, h5⟩
    exact ⟨⟨⟨⟨h1, h2⟩, h3⟩, h4⟩, h5⟩

theorem wfChain_nil_iff (hi : Option Nat) (k : Nat) (c : Node) :
    wfChain hi k c [] = true ↔ ubOk hi k = true ∧ wfB (some k) hi false c = true := by
  rw [wfChain]
  simp [Bool.and_eq_true]

theorem wfChain_cons_iff (hi : Option Nat) (k : Nat) (c : Node) (k2 : Nat) (c2 : Node)
    (rest : InnerEntries) :
    wfChain hi k c ((k2, c2) :: rest) = true ↔
      k < k2 ∧ wfB (some k) (some k2) false c = true ∧ wfChain hi k2 c2 rest = true := by
  rw [wfChain]
  simp only [Bool.and_eq_true, decide_eq_true_eq]
  exact and_assoc

/-- The first separator of a chain is below the parent's upper bound. -/
theorem wfChain_ubOk (hi : Option Nat) (k : Nat) (c : Node) (l : InnerEntries)
    (h : wfChain hi k c l = true) : ubOk hi k = true := by
  induction l generalizing k c with
  | nil => exact ((wfChain_nil_iff hi k c).mp h).1
  | cons p rest ih =>
    obtain ⟨pk, pc⟩ := p
    obtain ⟨h1, _, h3⟩ := (wfChain_cons_iff hi k c pk pc rest).mp h
    have := ih pk pc h3
    cases hi with
    | none => rfl
    | some b => simp only [ubOk, decide_eq_true_eq] at this ⊢; omega

theorem okB_mono (lo hi lo2 hi2 : Option Nat) (k : Nat)
    (h : okB lo2 hi2 k = true)
    (hlo : ∀ a, lo = some a → ∃ b, lo2 = some b ∧ a ≤ b)
    (hhi : ∀ a, hi = some a → ∃ b, hi2 = some b ∧ b ≤ a) :
    okB lo hi k = true := by
  simp only [okB, lbOk, ubOk, Bool.and_eq_true] at h ⊢
  constructor
  · cases lo with
    | none => rfl
    | some a =>
      obtain ⟨b, hb, hab⟩ := hlo a rfl
      rw [hb] at h
      simp only [decide_eq_true_eq] at h ⊢
      omega
  · cases hi with
    | none => rfl
    | some a =>
      obtain ⟨b, hb, hab⟩ := hhi a rfl
      rw [hb] at h
      simp only [decide_eq_true_eq] at h ⊢
      omega

end BPT

namespace BPT

theorem lbOk_trans (lo : Option Nat) (a b : Nat) (h : lbOk lo a = true) (hab : a ≤ b) :
    lbOk lo b = true := by
  cases lo with
  | none => rfl
  | some x => simp only [lbOk, decide_eq_true_eq] at h ⊢; omega

theorem ubOk_trans (hi : Option Nat) (a b : Nat) (h : ubOk hi a = true) (hba : b ≤ a) :
    ubOk hi b = true := by
  cases hi with
  | none => rfl
  | some x => simp only [ubOk, decide_eq_true_eq] at h ⊢; omega

theorem okB_split (lo hi : Option Nat) (k : Nat) :
    okB lo hi k = true ↔ lbOk lo k = true ∧ ubOk hi k = true := by
  simp [okB, Bool.and_eq_true]

/-- Keys below `some b` are strictly below `b`-bounded keys. -/
theorem ubOk_lt_lbOk (b : Nat) (x y : Nat) (hx : ubOk (some b) x = true)
    (hy : lbOk (some b) y = true) : x < y := by
  simp only [ubOk, lbOk, decide_eq_true_eq] at hx hy
  omega

mutual

/-- Every flattened entry of a well-formed subtree lies in the subtree's key
interval, carries a non-empty duplicate-free set, and the whole flattening
is sorted. -/
theorem wfB_flat_facts (lo hi : Option Nat) (rt : Bool) (t : Node)
    (h : wfB lo hi rt t = true) :
    sortedP (flat t) ∧ ∀ p ∈ flat t, okB lo hi p.1 = true ∧ p.2 ≠ [] ∧ p.2.Nodup := by
  match t with
  | .leaf es =>
    rw [flat_leaf]
    obtain ⟨hs, ha, _, _⟩ := (wfB_leaf_iff lo hi rt es).mp h
    exact ⟨hs, ha⟩
  | .inner prev es =>
    match es with
    | [] => rw [wfB_inner_nil] at h; exact absurd h (by simp)
    | (k0, c0) :: rest =>
      obtain ⟨hp, hlb, hc, _, _⟩ := (wfB_inner_cons_iff lo hi rt prev k0 c0 rest).mp h
      obtain ⟨hps, hpf⟩ := wfB_flat_facts lo (some k0) false prev hp
      obtain ⟨hcs, hcf⟩ := wfChain_flat_facts hi k0 c0 rest hc
      rw [flat_inner, flatList_cons]
      have hub0 : ubOk hi k0 = true := wfChain_ubOk hi k0 c0 rest hc
      constructor
      · rw [sortedP, List.pairwise_append]
        refine ⟨hps, hcs, ?_⟩
        intro a ha b hb
        have h1 := ((okB_split _ _ _).mp (hpf a ha).1).2
        have h2 := ((okB_split _ _ _).mp (hcf b hb).1).1
        exact ubOk_lt_lbOk k0 a.1 b.1 h1 h2
      · intro p hp2
        rcases List.mem_append.mp hp2 with hm | hm
        · obtain ⟨ho, h2, h3⟩ := hpf p hm
          obtain ⟨ho1, ho2⟩ := (okB_split _ _ _).mp ho
          refine ⟨(okB_split _ _ _).mpr ⟨ho1, ?_⟩, h2, h3⟩
          have : p.1 < k0 := by
            simp only [ubOk, decide_eq_true_eq] at ho2; omega
          exact ubOk_trans hi k0 p.1 hub0 (by omega)
        · obtain ⟨ho, h2, h3⟩ := hcf p hm
          obtain ⟨ho1, ho2⟩ := (okB_split _ _ _).mp ho
          refine ⟨(okB_split _ _ _).mpr ⟨?_, ho2⟩, h2, h3⟩
          have : k0 ≤ p.1 := by
            simp only [lbOk, decide_eq_true_eq] at ho1; omega
          exact lbOk_trans lo k0 p.1 hlb this
termination_by sizeOf t
decreasing_by
  all_goals try simp only [Node.inner.sizeOf_spec, List.cons.sizeOf_spec, List.nil.sizeOf_spec, Prod.mk.sizeOf_spec]
  all_goals omega

theorem wfChain_flat_facts (hi : Option Nat) (k : Nat) (c : Node) (l : InnerEntries)
    (h : wfChain hi k c l = true) :
    sortedP (flat c ++ flatList l) ∧
      ∀ p ∈ flat c ++ flatList l, okB (some k) hi p.1 = true ∧ p.2 ≠ [] ∧ p.2.Nodup := by
  match l with
  | [] =>
    obtain ⟨hub, hcw⟩ := (wfChain_nil_iff hi k c).mp h
    rw [flatList_nil, List.append_nil]
    exact wfB_flat_facts (some k) hi false c hcw
  | (k2, c2) :: rest =>
    obtain ⟨hlt, hcw, hch⟩ := (wfChain_cons_iff hi k c k2 c2 rest).mp h
    obtain ⟨hcs, hcf⟩ := wfB_flat_facts (some k) (some k2) false c hcw
    obtain ⟨hrs, hrf⟩ := wfChain_flat_facts hi k2 c2 rest hch
    rw [flatList_cons]
    have hub2 : ubOk hi k2 = true := wfChain_ubOk hi k2 c2 rest hch
    constructor
    · rw [sortedP, List.pairwise_append]
      refine ⟨hcs, hrs, ?_⟩
      intro a ha b hb
      have h1 := ((okB_split _ _ _).mp (hcf a ha).1).2
      have h2 := ((okB_split _ _ _).mp (hrf b hb).1).1
      exact ubOk_lt_lbOk k2 a.1 b.1 h1 h2
    · intro p hp2
      rcases List.mem_append.mp hp2 with hm | hm
      · obtain ⟨ho, h2, h3⟩ := hcf p hm
        obtain ⟨ho1, ho2⟩ := (okB_split _ _ _).mp ho
        refine ⟨(okB_split _ _ _).mpr ⟨ho1, ?_⟩, h2, h3⟩
        have : p.1 < k2 := by
          simp only [ubOk, decide_eq_true_eq] at ho2; omega
        exact ubOk_trans hi k2 p.1 hub2 (by omega)
      · obtain ⟨ho, h2, h3⟩ := hrf p hm
        obtain ⟨ho1, ho2⟩ := (okB_split _ _ _).mp ho
        refine ⟨(okB_split _ _ _).mpr ⟨?_, ho2⟩, h2, h3⟩
        simp only [lbOk, decide_eq_true_eq] at ho1 ⊢
        omega
termination_by sizeOf c + sizeOf l
decreasing_by
  all_goals try simp only [Node.inner.sizeOf_spec, List.cons.sizeOf_spec, List.nil.sizeOf_spec, Prod.mk.sizeOf_spec]
  all_goals omega

end

end BPT

namespace BPT

/-- On a chain whose first separator is `≤ k`, `GetKeyNodePtrPair` finds the
child of the greatest separator `≤ k`; that child is well-formed and holds
every key-`k` value of the chain. -/
theorem chain_route (k : Nat) (hi : Option Nat) (k0 : Nat) (c0 : Node) (rest : InnerEntries)
    (h : wfChain hi k0 c0 rest = true) (hk0 : k0 ≤ k) :
    ∃ p : Nat × Node, ((k0, c0) :: rest)[upperBoundPos k rest]? = some p ∧
      (∃ hi2, wfB (some p.1) hi2 false p.2 = true) ∧
      listValuesAt k (flat c0 ++ flatList rest) = listValuesAt k (flat p.2) := by
  induction rest generalizing k0 c0 with
  | nil =>
    obtain ⟨hub, hcw⟩ := (wfChain_nil_iff hi k0 c0).mp h
    refine ⟨(k0, c0), by simp [upperBoundPos_nil], ⟨hi, hcw⟩, ?_⟩
    rw [flatList_nil, List.append_nil]
  | cons q rest2 ih =>
    obtain ⟨k1, c1⟩ := q
    obtain ⟨hlt, hcw, hch⟩ := (wfChain_cons_iff hi k0 c0 k1 c1 rest2).mp h
    by_cases hk1 : k1 ≤ k
    · obtain ⟨p, hp, hw, hlv⟩ := ih k1 c1 hch hk1
      rw [upperBoundPos_cons, if_pos (by simpa using hk1)]
      refine ⟨p, by simpa using hp, hw, ?_⟩
      have hc0 : listValuesAt k (flat c0) = [] := by
        apply listValuesAt_eq_nil
        intro q hq
        have := ((okB_split _ _ _).mp ((wfB_flat_facts _ _ _ _ hcw).2 q hq).1).2
        simp only [ubOk, decide_eq_true_eq] at this
        omega
      rw [flatList_cons, listValuesAt_append, hc0, List.nil_append, hlv]
    · rw [upperBoundPos_cons, if_neg (by simpa using hk1)]
      refine ⟨(k0, c0), by simp, ⟨some k1, hcw⟩, ?_⟩
      have hrest : listValuesAt k (flatList ((k1, c1) :: rest2)) = [] := by
        apply listValuesAt_eq_nil
        intro q hq
        have hq2 : q ∈ flat c1 ++ flatList rest2 := by
          rw [flatList_cons] at hq; exact hq
        have := ((okB_split _ _ _).mp ((wfChain_flat_facts _ _ _ _ hch).2 q hq2).1).1
        simp only [lbOk, decide_eq_true_eq] at this
        omega
      rw [listValuesAt_append, hrest, List.append_nil]

/-- `keyNodePtrPairIdx` over a chain headed by a separator `≤ k`. -/
theorem keyNodePtrPairIdx_cons_le (k k0 : Nat) (c0 : Node) (rest : InnerEntries)
    (hk0 : k0 ≤ k) :
    keyNodePtrPairIdx k ((k0, c0) :: rest) = upperBoundPos k rest := by
  have hub : upperBoundPos k ((k0, c0) :: rest) = upperBoundPos k rest + 1 := by
    rw [upperBoundPos_cons, if_pos (show (k0, c0).1 ≤ k from hk0)]
  simp only [keyNodePtrPairIdx, ltePos, hub]
  have h1 : ((upperBoundPos k rest + 1 : Nat) : Int) - 1 = (upperBoundPos k rest : Int) := by
    push_cast; ring
  rw [h1, if_neg (show ((upperBoundPos k rest : Nat) : Int) ≠ -1 by omega)]
  simp

/-- The descent of `FindLeafNode` reaches a sorted leaf that carries exactly
the key-`k` values of the whole tree. -/
theorem findLeaf_route (k : Nat) (lo hi : Option Nat) (rt : Bool) (t : Node)
    (h : wfB lo hi rt t = true) :
    listValuesAt k (flat t) = listValuesAt k (findLeafNode k t) ∧
      sortedP (findLeafNode k t) ∧
      ∀ p ∈ findLeafNode k t, p.2 ≠ [] ∧ p.2.Nodup := by
  match t with
  | .leaf es =>
    rw [findLeafNode, flat_leaf]
    obtain ⟨hs, ha, _, _⟩ := (wfB_leaf_iff lo hi rt es).mp h
    exact ⟨rfl, hs, fun p hp => ⟨(ha p hp).2.1, (ha p hp).2.2⟩⟩
  | .inner prev es =>
    match es with
    | [] => rw [wfB_inner_nil] at h; exact absurd h (by simp)
    | (k0, c0) :: rest =>
      obtain ⟨hp, hlb, hc, _, _⟩ := (wfB_inner_cons_iff lo hi rt prev k0 c0 rest).mp h
      rw [findLeafNode]
      by_cases hk : k < k0
      · rw [routeSlot, if_pos hk]
        have hchain : listValuesAt k (flatList ((k0, c0) :: rest)) = [] := by
          apply listValuesAt_eq_nil
          intro q hq
          have hq2 : q ∈ flat c0 ++ flatList rest := by
            rw [flatList_cons] at hq; exact hq
          have := ((okB_split _ _ _).mp ((wfChain_flat_facts _ _ _ _ hc).2 q hq2).1).1
          simp only [lbOk, decide_eq_true_eq] at this
          omega
        have heq : listValuesAt k (flat (Node.inner prev ((k0, c0) :: rest))) =
            listValuesAt k (flat prev) := by
          rw [flat_inner, listValuesAt_append, hchain, List.append_nil]
        rw [heq]
        exact findLeaf_route k lo (some k0) false prev hp
      · have hk0 : k0 ≤ k := by omega
        obtain ⟨p, hpv, ⟨hi2, hw⟩, hlv⟩ := chain_route k hi k0 c0 rest hc hk0
        rw [routeSlot, if_neg hk, keyNodePtrPairIdx_cons_le k k0 c0 rest hk0]
        have hchild : childAt prev ((k0, c0) :: rest) (some (upperBoundPos k rest)) = p.2 := by
          rw [childAt, hpv]
        rw [hchild]
        have hsz : sizeOf p.2 < sizeOf (Node.inner prev ((k0, c0) :: rest)) := by
          have hm : p ∈ (k0, c0) :: rest := List.getElem?_mem hpv
          have h1 : sizeOf p < sizeOf ((k0, c0) :: rest) := List.sizeOf_lt_of_mem hm
          have h2 : sizeOf p.2 < sizeOf p := by
            obtain ⟨a, b⟩ := p; simp only [Prod.mk.sizeOf_spec]; omega
          simp only [Node.inner.sizeOf_spec]
          omega
        have hrec := findLeaf_route k (some p.1) hi2 false p.2 hw
        refine ⟨?_, hrec.2.1, hrec.2.2⟩
        have hprev : listValuesAt k (flat prev) = [] := by
          apply listValuesAt_eq_nil
          intro q hq
          have := ((okB_split _ _ _).mp ((wfB_flat_facts _ _ _ _ hp).2 q hq).1).2
          simp only [ubOk, decide_eq_true_eq] at this
          omega
        rw [flat_inner, flatList_cons, listValuesAt_append, hprev, List.nil_append, hlv]
        exact hrec.1
termination_by sizeOf t
decreasing_by
  all_goals first
    | assumption
    | (simp only [Node.inner.sizeOf_spec]; omega)

end BPT

namespace BPT

/-! ## Claim theorems (part 1) -/

theorem heightLoop_eq_leftSpineLen (t : Node) : heightLoop t = leftSpineLen t := by
  match t with
  | .leaf es => rfl
  | .inner prev es =>
    have ih := heightLoop_eq_leftSpineLen prev
    simp [heightLoop, leftSpineLen, ih]
    omega

/-- C7: `GetHeightOfTree()` returns 0 for the empty tree (a root leaf with
no entries); for every tree whose root has at least one entry it equals the
number of nodes on the left spine from the root down to a leaf; a tree whose
root is a non-empty leaf has height 1. -/
theorem claim_C7_height (t : Node) (h : getSize t ≠ 0) :
    getHeightOfTree (Node.leaf []) = 0 ∧
      getHeightOfTree t = leftSpineLen t ∧
      (∀ es : LeafEntries, es ≠ [] → getHeightOfTree (Node.leaf es) = 1) := by
  refine ⟨rfl, ?_, ?_⟩
  · rw [getHeightOfTree, if_neg h, heightLoop_eq_leftSpineLen]
  · intro es hes
    rw [getHeightOfTree, if_neg (by simpa [getSize] using hes)]
    rfl

theorem claim_C7_height_witness :
    getSize (Node.inner (Node.leaf [(1, [1])]) [(2, Node.leaf [(2, [2])])]) ≠ 0 ∧
      getHeightOfTree (Node.inner (Node.leaf [(1, [1])]) [(2, Node.leaf [(2, [2])])]) =
        leftSpineLen (Node.inner (Node.leaf [(1, [1])]) [(2, Node.leaf [(2, [2])])]) :=
  ⟨by decide, (claim_C7_height _ (by decide)).2.1⟩

/-- C9: `LeafNode::WillUnderflow` computes `(size - 1) < MIN_KEYS_LEAF_NODE`
on the unsigned 64-bit entry count, so a leaf of size 0 wraps to
`2^64 - 1` and `WillUnderflow` returns `false`; consequently `IsSafe`
classifies the empty leaf as safe for a delete descent. -/
theorem claim_C9_willUnderflow_wrap :
    leafWillUnderflow ([] : LeafEntries) = false ∧
      nodeWillUnderflow (Node.leaf []) = false ∧
      isSafe (Node.leaf []) true = true ∧
      (0 + (U64 - 1)) % U64 = 2 ^ 64 - 1 := by
  refine ⟨?_, ?_, ?_, ?_⟩ <;>
    simp [leafWillUnderflow, nodeWillUnderflow, isSafe, U64, MIN_KEYS_LEAF_NODE,
      Nat.mod_eq_of_lt]

/-- C10: on the empty tree (the root is a leaf with zero entries) `Begin()`
does not return the `End()` sentinel: it returns an iterator whose current
leaf is the empty root leaf with both offsets 0, and the `IndexIterator`
constructor reads entry 0 of the empty entries vector (out of bounds, so no
cached pair exists in the model). -/
theorem claim_C10_begin_empty :
    beginIter (Node.leaf []) ≠ endIter ∧
      (beginIter (Node.leaf [])).current = some [] ∧
      (beginIter (Node.leaf [])).keyOff = 0 ∧
      (beginIter (Node.leaf [])).valOff = 0 ∧
      (beginIter (Node.leaf [])).cached = none ∧
      ([] : LeafEntries)[0]? = none := by
  refine ⟨?_, rfl, rfl, rfl, rfl, rfl⟩
  intro hcontra
  have : (beginIter (Node.leaf [])).current = endIter.current := by rw [hcontra]
  simp [beginIter, endIter, mkIndexIter, leftmostLeaf] at this

unseal routedWithLeft in
/-- C8 (code bug): on the tree whose root leaf holds entries
`(1, {10}), (3, {30, 31})`, `End(2)` must position on the last value of the
greatest key `≤ 2`, i.e. on `(1, 10)` with value offset 0 — but the source
computes `val_off` from the *last* entry of the leaf
(`(GetEntriesEnd() - 1)->second.size() - 1 = 1`), so the returned iterator
carries value offset 1 into the single-element value set of key 1 (an
out-of-bounds read when the constructor caches `(first_, second_)`). -/
theorem claim_C8_endKey_bug :
    (endKeyIter 2 (Node.leaf [(1, [10]), (3, [30, 31])])).keyOff = 0 ∧
      (endKeyIter 2 (Node.leaf [(1, [10]), (3, [30, 31])])).valOff = 1 ∧
      (endKeyIter 2 (Node.leaf [(1, [10]), (3, [30, 31])])).cached = none ∧
      ([(1, [10]), (3, [30, 31])] : LeafEntries)[0]? = some (1, [10]) ∧
      (([10] : ValueSet).length - 1 = 0) ∧
      endKeyIter 2 (Node.leaf [(1, [10]), (3, [30, 31])]) ≠
        mkIndexIter (some [(1, [10]), (3, [30, 31])]) 0 0 := by
  refine ⟨by decide, by decide, by decide, rfl, rfl, by decide⟩

end BPT

namespace BPT

/-! ### Chain splitting and slot write-back lemmas -/

theorem flatList_append (A B : InnerEntries) :
    flatList (A ++ B) = flatList A ++ flatList B := by
  induction A with
  | nil => simp [flatList_nil]
  | cons q rest ih =>
    obtain ⟨qk, qc⟩ := q
    simp [flatList_cons, ih]

theorem leavesList_append (A B : InnerEntries) :
    leavesList (A ++ B) = leavesList A ++ leavesList B := by
  induction A with
  | nil => simp [leavesList_nil]
  | cons q rest ih =>
    obtain ⟨qk, qc⟩ := q
    simp [leavesList_cons, ih]

theorem setSlot_some (prev : Node) (es : InnerEntries) (i : Nat) (p : Nat × Node) (c : Node)
    (h : es[i]? = some p) :
    setSlot prev es (some i) c = (prev, es.set i (p.1, c)) := by
  rw [setSlot, h]

theorem childAt_some (prev : Node) (es : InnerEntries) (i : Nat) (p : Nat × Node)
    (h : es[i]? = some p) : childAt prev es (some i) = p.2 := by
  rw [childAt, h]

theorem wfChain_append_elim (hi : Option Nat) (k0 : Nat) (c0 : Node) (A : InnerEntries)
    (kb : Nat) (cb : Node) (B : InnerEntries)
    (h : wfChain hi k0 c0 (A ++ (kb, cb) :: B) = true) :
    wfChain (some kb) k0 c0 A = true ∧ wfChain hi kb cb B = true := by
  induction A generalizing k0 c0 with
  | nil =>
    obtain ⟨h1, h2, h3⟩ := (wfChain_cons_iff hi k0 c0 kb cb B).mp h
    exact ⟨(wfChain_nil_iff _ _ _).mpr ⟨by simpa [ubOk] using h1, h2⟩, h3⟩
  | cons q A2 ih =>
    obtain ⟨qk, qc⟩ := q
    rw [List.cons_append] at h
    obtain ⟨h1, h2, h3⟩ := (wfChain_cons_iff hi k0 c0 qk qc _).mp h
    obtain ⟨ha, hb⟩ := ih qk qc h3
    exact ⟨(wfChain_cons_iff _ _ _ _ _ _).mpr ⟨h1, h2, ha⟩, hb⟩

theorem wfChain_append_intro (hi : Option Nat) (k0 : Nat) (c0 : Node) (A : InnerEntries)
    (kb : Nat) (cb : Node) (B : InnerEntries)
    (hA : wfChain (some kb) k0 c0 A = true) (hB : wfChain hi kb cb B = true) :
    wfChain hi k0 c0 (A ++ (kb, cb) :: B) = true := by
  induction A generalizing k0 c0 with
  | nil =>
    obtain ⟨h1, h2⟩ := (wfChain_nil_iff _ _ _).mp hA
    exact (wfChain_cons_iff _ _ _ _ _ _).mpr ⟨by simpa [ubOk] using h1, h2, hB⟩
  | cons q A2 ih =>
    obtain ⟨qk, qc⟩ := q
    obtain ⟨h1, h2, h3⟩ := (wfChain_cons_iff _ _ _ _ _ _).mp hA
    rw [List.cons_append]
    exact (wfChain_cons_iff _ _ _ _ _ _).mpr ⟨h1, h2, ih qk qc h3⟩

/-- Every separator in the tail of a chain lies strictly above the head
separator and below the chain's upper bound. -/
theorem wfChain_sep_mem (hi : Option Nat) (k0 : Nat) (c0 : Node) (rest : InnerEntries)
    (h : wfChain hi k0 c0 rest = true) :
    ∀ q ∈ rest, k0 < q.1 ∧ ubOk hi q.1 = true := by
  induction rest generalizing k0 c0 with
  | nil => simp
  | cons q2 rest2 ih =>
    obtain ⟨qk, qc⟩ := q2
    obtain ⟨h1, h2, h3⟩ := (wfChain_cons_iff _ _ _ _ _ _).mp h
    intro q hq
    rcases List.mem_cons.mp hq with rfl | hq
    · exact ⟨h1, wfChain_ubOk _ _ _ _ h3⟩
    · obtain ⟨ha, hb⟩ := ih qk qc h3 q hq
      exact ⟨by omega, hb⟩

end BPT

namespace BPT

/-- Rebuilding an inner node's entry chain after the routed child was
replaced (and possibly split) by the insert path.  `F` stands for the
recursive insert frame; the hypothesis `hF` is discharged with the
induction hypothesis of `insertRec_main`. -/
theorem chain_insert_rebuild (k v : Nat) (hi : Option Nat) (k0 : Nat) (c0 : Node)
    (rest : InnerEntries) (F : Node → Node × Option (Nat × Node))
    (hch : wfChain hi k0 c0 rest = true) (hk0 : k0 ≤ k) (hubk : ubOk hi k = true)
    (hF : ∀ lo2 hi2 c, (c = c0 ∨ ∃ q ∈ rest, c = q.2) →
      wfB lo2 hi2 false c = true → lbOk lo2 k = true → ubOk hi2 k = true →
      match F c with
      | (n, none) => wfB lo2 hi2 false n = true ∧ flat n = leafInsert k v (flat c)
      | (n, some sn) =>
          wfB lo2 (some sn.1) false n = true ∧ wfB (some sn.1) hi2 false sn.2 = true ∧
          (∀ a, lo2 = some a → a < sn.1) ∧ ubOk hi2 sn.1 = true ∧
          flat n ++ flat sn.2 = leafInsert k v (flat c)) :
    ∃ p : Nat × Node, ((k0, c0) :: rest)[upperBoundPos k rest]? = some p ∧
      (match F p.2 with
       | (n, none) =>
         ∃ c0b restb,
           ((k0, c0) :: rest).set (upperBoundPos k rest) (p.1, n) = (k0, c0b) :: restb ∧
           wfChain hi k0 c0b restb = true ∧ restb.length = rest.length ∧
           flat c0b ++ flatList restb = leafInsert k v (flat c0 ++ flatList rest)
       | (n, some sn) =>
         ∃ c0b restb,
           insertAt (lowerBoundPos sn.1 (((k0, c0) :: rest).set (upperBoundPos k rest) (p.1, n)))
               (sn.1, sn.2) (((k0, c0) :: rest).set (upperBoundPos k rest) (p.1, n)) =
             (k0, c0b) :: restb ∧
           k0 < sn.1 ∧
           wfChain hi k0 c0b restb = true ∧ restb.length = rest.length + 1 ∧
           flat c0b ++ flatList restb = leafInsert k v (flat c0 ++ flatList rest)) := by
  induction rest generalizing k0 c0 with
  | nil =>
    obtain ⟨hub0, hw0⟩ := (wfChain_nil_iff hi k0 c0).mp hch
    refine ⟨(k0, c0), by simp [upperBoundPos_nil], ?_⟩
    have hFc := hF (some k0) hi c0 (Or.inl rfl) hw0 (by simpa [lbOk] using hk0) hubk
    cases hFr : F c0 with
    | mk n o =>
      cases o with
      | none =>
        rw [hFr] at hFc
        obtain ⟨hwn, hfl⟩ := hFc
        refine ⟨n, [], by simp [upperBoundPos_nil], ?_, rfl, ?_⟩
        · exact (wfChain_nil_iff _ _ _).mpr ⟨hub0, hwn⟩
        · simp only [flatList_nil, List.append_nil]
          exact hfl
      | some sn =>
        rw [hFr] at hFc
        obtain ⟨hwn, hwnd, hstrict, hubsep, hfl⟩ := hFc
        have hk0sep : k0 < sn.1 := hstrict k0 rfl
        refine ⟨n, [(sn.1, sn.2)], ?_, hk0sep, ?_, rfl, ?_⟩
        · rw [upperBoundPos_nil]
          simp only [List.set_cons_zero]
          rw [show lowerBoundPos sn.1 [(k0, n)] = 1 by
            simp [lowerBoundPos_cons, lowerBoundPos_nil, hk0sep]]
          rfl
        · exact (wfChain_cons_iff _ _ _ _ _ _).mpr
            ⟨hk0sep, hwn, (wfChain_nil_iff _ _ _).mpr ⟨hubsep, hwnd⟩⟩
        · simp only [flatList_cons, flatList_nil, List.append_nil]
          exact hfl
  | cons q rest2 ih =>
    obtain ⟨k1, c1⟩ := q
    obtain ⟨hk01, hw0, hch2⟩ := (wfChain_cons_iff hi k0 c0 k1 c1 rest2).mp hch
    have hrestkeys : ∀ q2 ∈ flat c1 ++ flatList rest2, k1 ≤ q2.1 := by
      intro q2 hq2
      have := ((okB_split _ _ _).mp ((wfChain_flat_facts _ _ _ _ hch2).2 q2 hq2).1).1
      simpa [lbOk] using this
    by_cases hk1 : k1 ≤ k
    · -- recurse into the tail chain
      obtain ⟨p, hp, hrest⟩ := ih k1 c1 hch2 hk1
        (fun lo2 hi2 c hm hw hl hu => hF lo2 hi2 c
          (by
            rcases hm with rfl | ⟨q2, hq2, rfl⟩
            · exact Or.inr ⟨(k1, c), by simp, rfl⟩
            · exact Or.inr ⟨q2, by simp [hq2], rfl⟩) hw hl hu)
      rw [upperBoundPos_cons, if_pos (by simpa using hk1)]
      refine ⟨p, by simpa using hp, ?_⟩
      have hc0keys : ∀ q2 ∈ flat c0, q2.1 < k := by
        intro q2 hq2
        have := ((okB_split _ _ _).mp ((wfB_flat_facts _ _ _ _ hw0).2 q2 hq2).1).2
        simp only [ubOk, decide_eq_true_eq] at this
        omega
      cases hFr : F p.2 with
      | mk n o =>
        cases o with
        | none =>
          rw [hFr] at hrest
          obtain ⟨c1b, rest2b, hset, hwch, hlen, hfl⟩ := hrest
          refine ⟨c0, (k1, c1b) :: rest2b, ?_, ?_, by simp [hlen], ?_⟩
          · rw [List.set_cons_succ, hset]
          · exact (wfChain_cons_iff _ _ _ _ _ _).mpr ⟨hk01, hw0, hwch⟩
          · rw [flatList_cons, flatList_cons, leafInsert_append_left k v (flat c0) _ hc0keys,
              ← hfl]
        | some sn =>
          rw [hFr] at hrest
          obtain ⟨c1b, rest2b, hset, hk1sep, hwch, hlen, hfl⟩ := hrest
          refine ⟨c0, (k1, c1b) :: rest2b, ?_, by omega, ?_, by simp [hlen], ?_⟩
          · rw [List.set_cons_succ]
            have hpos : lowerBoundPos sn.1
                ((k0, c0) :: ((k1, c1) :: rest2).set (upperBoundPos k rest2) (p.1, n)) =
                lowerBoundPos sn.1 (((k1, c1) :: rest2).set (upperBoundPos k rest2) (p.1, n)) + 1 := by
              rw [lowerBoundPos_cons, if_pos (by simp; omega)]
            rw [hpos, insertAt_succ_cons, hset]
          · exact (wfChain_cons_iff _ _ _ _ _ _).mpr ⟨hk01, hw0, hwch⟩
          · rw [flatList_cons, flatList_cons, leafInsert_append_left k v (flat c0) _ hc0keys,
              ← hfl]
    · -- the head child is the routed one
      rw [upperBoundPos_cons, if_neg (by simpa using hk1)]
      refine ⟨(k0, c0), by simp, ?_⟩
      have hFc := hF (some k0) (some k1) c0 (Or.inl rfl) hw0 (by simpa [lbOk] using hk0)
        (by simp [ubOk]; omega)
      have hrestgt : ∀ q2 ∈ flatList ((k1, c1) :: rest2), k < q2.1 := by
        intro q2 hq2
        rw [flatList_cons] at hq2
        have := hrestkeys q2 hq2
        omega
      cases hFr : F c0 with
      | mk n o =>
        cases o with
        | none =>
          rw [hFr] at hFc
          obtain ⟨hwn, hfl⟩ := hFc
          refine ⟨n, (k1, c1) :: rest2, by simp, ?_, rfl, ?_⟩
          · exact (wfChain_cons_iff _ _ _ _ _ _).mpr ⟨hk01, hwn, hch2⟩
          · rw [leafInsert_append_right k v (flat c0) _ hrestgt, ← hfl]
        | some sn =>
          rw [hFr] at hFc
          obtain ⟨hwn, hwnd, hstrict, hubsep, hfl⟩ := hFc
          have hk0sep : k0 < sn.1 := hstrict k0 rfl
          have hsepk1 : sn.1 < k1 := by simpa [ubOk] using hubsep
          refine ⟨n, (sn.1, sn.2) :: (k1, c1) :: rest2, ?_, hk0sep, ?_, by simp, ?_⟩
          · simp only [List.set_cons_zero]
            rw [show lowerBoundPos sn.1 ((k0, n) :: (k1, c1) :: rest2) = 1 by
              rw [lowerBoundPos_cons, if_pos (by simpa using hk0sep), lowerBoundPos_cons,
                if_neg (by simp; omega)]]
            rw [insertAt_succ_cons, insertAt_zero]
          · exact (wfChain_cons_iff _ _ _ _ _ _).mpr ⟨hk0sep, hwn,
              (wfChain_cons_iff _ _ _ _ _ _).mpr ⟨hsepk1, hwnd, hch2⟩⟩
          · rw [flatList_cons, leafInsert_append_right k v (flat c0) _ hrestgt, ← hfl,
              List.append_assoc]

end BPT

namespace BPT

/-- `LeafNode::Split` on a full leaf of `FAN_OUT` entries: both halves are
well-formed around the separator (the new right node's first key). -/
theorem leaf_split (lo hi : Option Nat) (es2 : LeafEntries)
    (hs : sortedP es2) (hok : ∀ p ∈ es2, okB lo hi p.1 = true ∧ p.2 ≠ [] ∧ p.2.Nodup)
    (hlen : es2.length = FAN_OUT) :
    ∃ e5 dtail, es2.drop MIN_KEYS_LEAF_NODE = e5 :: dtail ∧
      wfB lo (some e5.1) false (.leaf (es2.take MIN_KEYS_LEAF_NODE)) = true ∧
      wfB (some e5.1) hi false (.leaf (es2.drop MIN_KEYS_LEAF_NODE)) = true ∧
      (∀ a, lo = some a → a < e5.1) ∧ ubOk hi e5.1 = true := by
  have hdl : (es2.drop MIN_KEYS_LEAF_NODE).length = 5 := by
    simp [List.length_drop, hlen, FAN_OUT, MIN_KEYS_LEAF_NODE]
  obtain ⟨e5, dtail, hd⟩ : ∃ e5 dtail, es2.drop MIN_KEYS_LEAF_NODE = e5 :: dtail := by
    cases hdd : es2.drop MIN_KEYS_LEAF_NODE with
    | nil => rw [hdd] at hdl; simp at hdl
    | cons a b => exact ⟨a, b, rfl⟩
  have htl : (es2.take MIN_KEYS_LEAF_NODE).length = 5 := by
    simp [List.length_take, hlen, FAN_OUT, MIN_KEYS_LEAF_NODE]
  have hsplit := List.take_append_drop MIN_KEYS_LEAF_NODE es2
  have hs2 : sortedP (es2.take MIN_KEYS_LEAF_NODE ++ es2.drop MIN_KEYS_LEAF_NODE) := by
    rw [hsplit]; exact hs
  rw [sortedP, List.pairwise_append] at hs2
  obtain ⟨hstake, hsdrop, hcross⟩ := hs2
  have hokt : ∀ p ∈ es2.take MIN_KEYS_LEAF_NODE, okB lo hi p.1 = true ∧ p.2 ≠ [] ∧ p.2.Nodup :=
    fun p hp => hok p (List.mem_of_mem_take hp)
  have hokd : ∀ p ∈ es2.drop MIN_KEYS_LEAF_NODE, okB lo hi p.1 = true ∧ p.2 ≠ [] ∧ p.2.Nodup :=
    fun p hp => hok p (List.mem_of_mem_drop hp)
  have he5 : e5 ∈ es2.drop MIN_KEYS_LEAF_NODE := by rw [hd]; simp
  refine ⟨e5, dtail, hd, ?_, ?_, ?_, ?_⟩
  · rw [wfB_leaf_iff]
    refine ⟨hstake, ?_, Or.inr (by rw [htl]; decide), by rw [htl]; decide⟩
    intro p hp
    obtain ⟨ho, hne, hnd⟩ := hokt p hp
    refine ⟨(okB_split _ _ _).mpr ⟨((okB_split _ _ _).mp ho).1, ?_⟩, hne, hnd⟩
    simp only [ubOk, decide_eq_true_eq]
    exact hcross p hp e5 he5
  · rw [wfB_leaf_iff]
    refine ⟨hsdrop, ?_, Or.inr (by rw [hdl]; decide), by rw [hdl]; decide⟩
    intro p hp
    obtain ⟨ho, hne, hnd⟩ := hokd p hp
    refine ⟨(okB_split _ _ _).mpr ⟨?_, ((okB_split _ _ _).mp ho).2⟩, hne, hnd⟩
    simp only [lbOk, decide_eq_true_eq]
    rw [hd] at hp
    rcases List.mem_cons.mp hp with rfl | hp2
    · omega
    · rw [hd] at hsdrop
      have := (List.pairwise_cons.mp hsdrop).1 p hp2
      omega
  · intro a ha
    have h0 : es2.take MIN_KEYS_LEAF_NODE ≠ [] := by
      intro hc; rw [hc] at htl; simp at htl
    obtain ⟨p0, ptail, hp0⟩ := List.exists_cons_of_ne_nil h0
    have hp0m : p0 ∈ es2.take MIN_KEYS_LEAF_NODE := by rw [hp0]; simp
    have hlb0 := ((okB_split _ _ _).mp (hokt p0 hp0m).1).1
    rw [ha] at hlb0
    simp only [lbOk, decide_eq_true_eq] at hlb0
    have := hcross p0 hp0m e5 he5
    omega
  · exact ((okB_split _ _ _).mp (hokd e5 he5).1).2

/-- `InnerNode::Split` + `RemoveFirstKey` on a full inner node (10 entries
once the propagated pair is inserted): the left keeps 4 entries, the lifted
separator is the 5th entry's key, the right node owns the remaining tail
with the 5th entry's child as its `prev_ptr_`. -/
theorem inner_split (lo hi : Option Nat) (prevN : Node) (kh : Nat) (ch : Node)
    (restx : InnerEntries)
    (hprev : wfB lo (some kh) false prevN = true) (hlb : lbOk lo kh = true)
    (hchain : wfChain hi kh ch restx = true) (hlen : restx.length = 9) :
    ∃ mk mc rtail, ((kh, ch) :: restx).drop MIN_KEYS_INNER_NODE = (mk, mc) :: rtail ∧
      wfB lo (some mk) false (.inner prevN (((kh, ch) :: restx).take MIN_KEYS_INNER_NODE)) = true ∧
      wfB (some mk) hi false (.inner mc rtail) = true ∧
      (∀ a, lo = some a → a < mk) ∧ ubOk hi mk = true ∧
      flat prevN ++ flatList ((kh, ch) :: restx) =
        flat (.inner prevN (((kh, ch) :: restx).take MIN_KEYS_INNER_NODE)) ++
          flat (.inner mc rtail) := by
  have hd3 : restx.take 3 ++ restx.drop 3 = restx := List.take_append_drop 3 restx
  have hdl : (restx.drop 3).length = 6 := by simp [List.length_drop, hlen]
  obtain ⟨m, rtail, hm⟩ : ∃ m rtail, restx.drop 3 = m :: rtail := by
    cases hdd : restx.drop 3 with
    | nil => rw [hdd] at hdl; simp at hdl
    | cons a b => exact ⟨a, b, rfl⟩
  obtain ⟨mk, mc⟩ := m
  have hchain2 : wfChain hi kh ch (restx.take 3 ++ (mk, mc) :: rtail) = true := by
    rw [← hm, hd3]; exact hchain
  obtain ⟨hcA, hcB⟩ := wfChain_append_elim hi kh ch (restx.take 3) mk mc rtail hchain2
  have hmem : ∀ q ∈ restx, kh < q.1 ∧ ubOk hi q.1 = true := wfChain_sep_mem hi kh ch restx hchain
  have hmkmem : (mk, mc) ∈ restx := by
    rw [← hd3, hm]; simp
  have htake4 : ((kh, ch) :: restx).take MIN_KEYS_INNER_NODE = (kh, ch) :: restx.take 3 := by
    simp [MIN_KEYS_INNER_NODE, List.take_cons]
  have hdrop4 : ((kh, ch) :: restx).drop MIN_KEYS_INNER_NODE = (mk, mc) :: rtail := by
    simp only [MIN_KEYS_INNER_NODE]
    rw [List.drop_succ_cons, hm]
  have hrtl : rtail.length = 5 := by
    have := congrArg List.length hm
    simp at this
    omega
  obtain ⟨mb, rb, hrb⟩ : ∃ mb rb, rtail = mb :: rb := by
    cases hdd : rtail with
    | nil => rw [hdd] at hrtl; simp at hrtl
    | cons a b => exact ⟨a, b, rfl⟩
  obtain ⟨kb, cb⟩ := mb
  refine ⟨mk, mc, rtail, hdrop4, ?_, ?_, ?_, ?_, ?_⟩
  · rw [htake4, wfB_inner_cons_iff]
    have hkt3 : (restx.take 3).length = 3 := by simp [List.length_take, hlen]
    exact ⟨hprev, hlb, hcA, Or.inr (by simp [hkt3, MIN_KEYS_INNER_NODE]),
      by simp [hkt3, FAN_OUT]⟩
  · rw [hrb, wfB_inner_cons_iff]
    rw [hrb] at hcB
    obtain ⟨h1, h2, h3⟩ := (wfChain_cons_iff _ _ _ _ _ _).mp hcB
    have hrbl : rb.length = 4 := by rw [hrb] at hrtl; simp at hrtl; omega
    exact ⟨h2, by simp [lbOk]; omega, h3, Or.inr (by simp [hrbl, MIN_KEYS_INNER_NODE]),
      by simp [hrbl, FAN_OUT]⟩
  · intro a ha
    have := (hmem (mk, mc) hmkmem).1
    rw [ha] at hlb
    simp only [lbOk, decide_eq_true_eq] at hlb
    omega
  · exact (hmem (mk, mc) hmkmem).2
  · rw [flat_inner, flat_inner, htake4]
    rw [show ((kh, ch) :: restx) = (kh, ch) :: restx.take 3 ++ (mk, mc) :: rtail by
      rw [List.cons_append, ← hm, hd3]]
    rw [flatList_cons, flatList_append, flatList_cons, flatList_cons]
    simp [List.append_assoc]

end BPT

namespace BPT

theorem insertRec_leaf (k v : Nat) (es : LeafEntries) :
    insertRec k v (.leaf es) =
      (if leafIsOverflow (leafInsert k v es) then
        ((.leaf ((leafInsert k v es).take MIN_KEYS_LEAF_NODE)),
          some (leafFirstKey ((leafInsert k v es).drop MIN_KEYS_LEAF_NODE),
            .leaf ((leafInsert k v es).drop MIN_KEYS_LEAF_NODE)))
      else (.leaf (leafInsert k v es), none)) := by
  rw [insertRec]

theorem insertRec_inner (k v : Nat) (prev : Node) (es : InnerEntries) :
    insertRec k v (.inner prev es) =
      (let slot := routeSlot k es
       let res := insertRec k v (childAt prev es slot)
       let ps := setSlot prev es slot res.1
       match res.2 with
       | none => (.inner ps.1 ps.2, none)
       | some (sep, child) =>
         let es2 := insertAt (lowerBoundPos sep ps.2) (sep, child) ps.2
         if innerIsOverflow es2 then
           match es2.drop MIN_KEYS_INNER_NODE with
           | [] => (.inner ps.1 (es2.take MIN_KEYS_INNER_NODE), none)
           | (mk, mc) :: rtail =>
             (.inner ps.1 (es2.take MIN_KEYS_INNER_NODE), some (mk, .inner mc rtail))
         else (.inner ps.1 es2, none)) := by
  rw [insertRec]

/-- Entry facts of `LeafNode::Insert` within bounds. -/
theorem leafInsert_entry_facts (k v : Nat) (lo hi : Option Nat) (es : LeafEntries)
    (hok : ∀ p ∈ es, okB lo hi p.1 = true ∧ p.2 ≠ [] ∧ p.2.Nodup)
    (hlb : lbOk lo k = true) (hub : ubOk hi k = true) :
    ∀ p ∈ leafInsert k v es, okB lo hi p.1 = true ∧ p.2 ≠ [] ∧ p.2.Nodup := by
  intro p hp
  rcases mem_leafInsert k v es p hp with hm | rfl | ⟨r, hr, hrk, rfl⟩
  · exact hok p hm
  · exact ⟨(okB_split _ _ _).mpr ⟨hlb, hub⟩, by simp, by simp⟩
  · obtain ⟨ho, hne, hnd⟩ := hok r hr
    exact ⟨ho, vsInsert_ne_nil v r.2, vsInsert_nodup v r.2 hnd⟩

/-- The induction core of `BPlusTree::Insert`: each frame of
`InsertAndPropagate` / `InsertNodePtr` preserves well-formedness (with the
two split halves well-formed around the lifted separator) and refines
`LeafNode::Insert` on the flattened entries. -/
theorem insertRec_main (k v : Nat) (lo hi : Option Nat) (rt : Bool) (t : Node)
    (h : wfB lo hi rt t = true) (hlb : lbOk lo k = true) (hub : ubOk hi k = true) :
    match insertRec k v t with
    | (n, none) => wfB lo hi rt n = true ∧ flat n = leafInsert k v (flat t)
    | (n, some sn) =>
        wfB lo (some sn.1) false n = true ∧ wfB (some sn.1) hi false sn.2 = true ∧
        (∀ a, lo = some a → a < sn.1) ∧ ubOk hi sn.1 = true ∧
        flat n ++ flat sn.2 = leafInsert k v (flat t) := by
  match t with
  | .leaf es =>
    rw [insertRec_leaf]
    obtain ⟨hs, hok, hocc, hlen⟩ := (wfB_leaf_iff lo hi rt es).mp h
    have hs2 := sorted_leafInsert k v es hs
    have hok2 := leafInsert_entry_facts k v lo hi es hok hlb hub
    have hlen2 := leafInsert_length k v es
    by_cases hov : leafIsOverflow (leafInsert k v es)
    · rw [if_pos hov]
      simp only [leafIsOverflow, decide_eq_true_eq] at hov
      have hlen10 : (leafInsert k v es).length = FAN_OUT := by
        simp only [FAN_OUT] at *; omega
      obtain ⟨e5, dtail, hd, hwl, hwr, hstrict, hubsep⟩ :=
        leaf_split lo hi (leafInsert k v es) hs2 hok2 hlen10
      have hfk : leafFirstKey ((leafInsert k v es).drop MIN_KEYS_LEAF_NODE) = e5.1 := by
        rw [hd]; rfl
      rw [hfk]
      refine ⟨hwl, hwr, hstrict, hubsep, ?_⟩
      rw [flat_leaf, flat_leaf, flat_leaf, List.take_append_drop]
    · rw [if_neg hov]
      simp only [leafIsOverflow, decide_eq_true_eq] at hov
      refine ⟨?_, by rw [flat_leaf, flat_leaf]⟩
      rw [wfB_leaf_iff]
      refine ⟨hs2, hok2, ?_, by omega⟩
      rcases hocc with hrt | hocc
      · exact Or.inl hrt
      · exact Or.inr (by omega)
  | .inner prev es =>
    match es with
    | [] => rw [wfB_inner_nil] at h; exact absurd h (by simp)
    | (k0, c0) :: rest =>
      obtain ⟨hp, hlb0, hc, hocc, hlen⟩ := (wfB_inner_cons_iff lo hi rt prev k0 c0 rest).mp h
      rw [insertRec_inner]
      by_cases hk : k < k0
      · -- route to prev_ptr_
        rw [routeSlot, if_pos hk]
        simp only [childAt, setSlot]
        have hub0 : ubOk (some k0) k = true := by simp [ubOk]; omega
        have hrec := insertRec_main k v lo (some k0) false prev hp hlb hub0
        have hchainkeys : ∀ q2 ∈ flatList ((k0, c0) :: rest), k < q2.1 := by
          intro q2 hq2
          rw [flatList_cons] at hq2
          have := ((okB_split _ _ _).mp ((wfChain_flat_facts _ _ _ _ hc).2 q2 hq2).1).1
          simp only [lbOk, decide_eq_true_eq] at this
          omega
      
        cases hres : insertRec k v prev with
        | mk n o =>
          rw [hres] at hrec
          cases o with
          | none =>
            obtain ⟨hwn, hfl⟩ := hrec
            dsimp only
            refine ⟨?_, ?_⟩
            · rw [wfB_inner_cons_iff]
              exact ⟨hwn, hlb0, hc, hocc, hlen⟩
            · rw [flat_inner, flat_inner, hfl,
                leafInsert_append_right k v (flat prev) _ hchainkeys]
          | some sn =>
            obtain ⟨hwn, hwnd, hstrict, hubsep, hfl⟩ := hrec
            have hsepk0 : sn.1 < k0 := by simpa [ubOk] using hubsep
            have hpos : lowerBoundPos sn.1 ((k0, c0) :: rest) = 0 := by
              rw [lowerBoundPos_cons, if_neg (by simp; omega)]
            dsimp only
            rw [hpos, insertAt_zero]
            have hchain2 : wfChain hi sn.1 sn.2 ((k0, c0) :: rest) = true :=
              (wfChain_cons_iff _ _ _ _ _ _).mpr ⟨hsepk0, hwnd, hc⟩
            have hflat2 : flat n ++ flatList ((sn.1, sn.2) :: (k0, c0) :: rest) =
                leafInsert k v (flat (Node.inner prev ((k0, c0) :: rest))) := by
              rw [flatList_cons, flat_inner,
                leafInsert_append_right k v (flat prev) _ hchainkeys, ← hfl]
              simp [List.append_assoc]
            by_cases hov : innerIsOverflow ((sn.1, sn.2) :: (k0, c0) :: rest)
            · rw [if_pos hov]
              simp only [innerIsOverflow, decide_eq_true_eq, List.length_cons] at hov
              have hlen9 : ((k0, c0) :: rest).length = 9 := by
                have hF : FAN_OUT = 10 := rfl
                simp only [List.length_cons] at hov hlen ⊢
                omega
              obtain ⟨mk, mc, rtail, hdr, hwl, hwr, hstr2, hub2, hfl2⟩ :=
                inner_split lo hi n sn.1 sn.2 ((k0, c0) :: rest) hwn
                  (by
                    cases lo with
                    | none => rfl
                    | some a => simp [lbOk]; exact Nat.le_of_lt (hstrict a rfl))
                  hchain2 (by simpa using hlen9)
              rw [hdr]
              refine ⟨hwl, hwr, hstr2, hub2, ?_⟩
              rw [← hflat2, flat_inner] at *
              rw [← hfl2]
            · rw [if_neg hov]
              simp only [innerIsOverflow, decide_eq_true_eq, List.length_cons] at hov
              refine ⟨?_, ?_⟩
              · rw [wfB_inner_cons_iff]
                refine ⟨hwn, ?_, hchain2, ?_, ?_⟩
                · cases lo with
                  | none => rfl
                  | some a => simp [lbOk]; exact Nat.le_of_lt (hstrict a rfl)
                · rcases hocc with hrt | hocc
                  · exact Or.inl hrt
                  · exact Or.inr (by simp only [List.length_cons]; omega)
                · have hF : FAN_OUT = 10 := rfl
                  simp only [List.length_cons]
                  omega
              · rw [flat_inner, ← hflat2]
      · -- route into the separator chain
        have hk0 : k0 ≤ k := by omega
        rw [routeSlot, if_neg hk, keyNodePtrPairIdx_cons_le k k0 c0 rest hk0]
        obtain ⟨p, hpv, hmatch⟩ := chain_insert_rebuild k v hi k0 c0 rest
          (fun c => insertRec k v c) hc hk0 hub
          (fun lo2 hi2 c hm hw hl hu => insertRec_main k v lo2 hi2 false c hw hl hu)
        dsimp only
        rw [childAt_some prev _ _ p hpv,
          setSlot_some prev _ (upperBoundPos k rest) p _ hpv]
        have hprevkeys : ∀ q2 ∈ flat prev, q2.1 < k := by
          intro q2 hq2
          have := ((okB_split _ _ _).mp ((wfB_flat_facts _ _ _ _ hp).2 q2 hq2).1).2
          simp only [ubOk, decide_eq_true_eq] at this
          omega
        cases hres : insertRec k v p.2 with
        | mk n o =>
          rw [hres] at hmatch
          cases o with
          | none =>
            obtain ⟨c0b, restb, hset, hwch, hlenb, hflb⟩ := hmatch
            dsimp only
            rw [hset]
            refine ⟨?_, ?_⟩
            · rw [wfB_inner_cons_iff]
              refine ⟨hp, hlb0, hwch, ?_, ?_⟩
              · rcases hocc with hrt | hocc
                · exact Or.inl hrt
                · exact Or.inr (by omega)
              · simp only [List.length_cons] at *; omega
            · rw [flat_inner, flat_inner, flatList_cons, flatList_cons,
                leafInsert_append_left k v (flat prev) _ hprevkeys, hflb]
          | some sn =>
            obtain ⟨c0b, restb, hset, hk0sep, hwch, hlenb, hflb⟩ := hmatch
            dsimp only
            rw [hset]
            have hflat2 : flat prev ++ flatList ((k0, c0b) :: restb) =
                leafInsert k v (flat (Node.inner prev ((k0, c0) :: rest))) := by
              rw [flat_inner, flatList_cons, flatList_cons,
                leafInsert_append_left k v (flat prev) _ hprevkeys, hflb]
            by_cases hov : innerIsOverflow ((k0, c0b) :: restb)
            · rw [if_pos hov]
              simp only [innerIsOverflow, decide_eq_true_eq, List.length_cons] at hov
              have hlen9 : restb.length = 9 := by
                have hF : FAN_OUT = 10 := rfl
                omega
              obtain ⟨mk, mc, rtail, hdr, hwl, hwr, hstr2, hub2, hfl2⟩ :=
                inner_split lo hi prev k0 c0b restb hp hlb0 hwch hlen9
              rw [hdr]
              refine ⟨hwl, hwr, hstr2, hub2, ?_⟩
              rw [← hflat2, ← hfl2]
            · rw [if_neg hov]
              simp only [innerIsOverflow, decide_eq_true_eq, List.length_cons] at hov
              refine ⟨?_, ?_⟩
              · rw [wfB_inner_cons_iff]
                refine ⟨hp, hlb0, hwch, ?_, ?_⟩
                · rcases hocc with hrt | hocc
                  · exact Or.inl hrt
                  · exact Or.inr (by omega)
                · have hF : FAN_OUT = 10 := rfl
                  omega
              · rw [flat_inner, ← hflat2]
termination_by sizeOf t
decreasing_by
  · simp only [Node.inner.sizeOf_spec]; omega
  · rcases hm with rfl | ⟨q, hq, rfl⟩
    · simp only [Node.inner.sizeOf_spec, List.cons.sizeOf_spec, Prod.mk.sizeOf_spec]; omega
    · have h1 : sizeOf q < sizeOf rest := List.sizeOf_lt_of_mem hq
      have h2 : sizeOf q.2 < sizeOf q := by
        obtain ⟨a, b⟩ := q; simp only [Prod.mk.sizeOf_spec]; omega
      simp only [Node.inner.sizeOf_spec, List.cons.sizeOf_spec, Prod.mk.sizeOf_spec]
      omega

end BPT

namespace BPT

/-! ## Top-level insert refinement -/

/-- A complete `InsertAndPropagate` (with root split) preserves the tree
invariant and acts on the flattening exactly as `LeafNode::Insert`. -/
theorem insertProp_main (k v : Nat) (t : Node) (h : wfTree t = true) :
    wfTree (insertProp k v t) = true ∧
      flat (insertProp k v t) = leafInsert k v (flat t) := by
  have hm := insertRec_main k v none none true t h rfl rfl
  rw [insertProp]
  cases hres : insertRec k v t with
  | mk n o =>
    rw [hres] at hm
    cases o with
    | none => exact hm
    | some sn =>
      obtain ⟨sep, r⟩ := sn
      obtain ⟨hwl, hwr, _, _, hfl⟩ := hm
      constructor
      · rw [wfTree, wfB_inner_cons_iff]
        exact ⟨hwl, rfl, (wfChain_nil_iff _ _ _).mpr ⟨rfl, hwr⟩, Or.inl rfl, by decide⟩
      · rw [flat_inner, flatList_cons, flatList_nil, List.append_nil]
        exact hfl

/-- A key occurs among the entries iff it carries at least one value
(value sets are non-empty in well-formed entry lists). -/
theorem listValuesAt_ne_nil_iff (k : Nat) (es : LeafEntries)
    (hne : ∀ p ∈ es, p.2 ≠ []) :
    listValuesAt k es ≠ [] ↔ ∃ p ∈ es, p.1 = k := by
  constructor
  · intro hnn
    obtain ⟨w, hw⟩ := List.exists_mem_of_ne_nil _ hnn
    obtain ⟨p, hp, hpk, _⟩ := (mem_listValuesAt k w es).mp hw
    exact ⟨p, hp, hpk⟩
  · rintro ⟨p, hp, hpk⟩
    obtain ⟨w, hw⟩ := List.exists_mem_of_ne_nil _ (hne p hp)
    exact List.ne_nil_of_mem ((mem_listValuesAt k w es).mpr ⟨p, hp, hpk, hw⟩)

/-- The routed leaf's collision checks read exactly the tree-level
membership predicates. -/
theorem routed_checks (k v : Nat) (t : Node) (h : wfTree t = true) :
    listValuesAt k (findLeafNode k t) = valuesAt k t ∧
      (hasKeyValue k v (findLeafNode k t) = true ↔ containsKV t k v) ∧
      (hasKey k (findLeafNode k t) = true ↔ containsKey t k) ∧
      (∀ pr : Nat → Bool, satisfiesPredicate k pr (findLeafNode k t) = true ↔
        ∃ w ∈ valuesAt k t, pr w = true) := by
  obtain ⟨hlv, hsort, hents⟩ := findLeaf_route k none none true t h
  have hval : listValuesAt k (findLeafNode k t) = valuesAt k t := hlv.symm
  refine ⟨hval, ?_, ?_, ?_⟩
  · rw [hasKeyValue_iff k v _ hsort, hval, containsKV, valuesAt, ← mem_listValuesAt]
  · rw [hasKey_iff k _ hsort, containsKey]
    constructor
    · intro he
      have : listValuesAt k (findLeafNode k t) ≠ [] :=
        (listValuesAt_ne_nil_iff k _ fun p hp => (hents p hp).1).mpr he
      rw [hval, valuesAt] at this
      exact (listValuesAt_ne_nil_iff k _
        fun p hp => ((wfB_flat_facts none none true t h).2 p hp).2.1).mp this
    · intro he
      have : listValuesAt k (flat t) ≠ [] :=
        (listValuesAt_ne_nil_iff k _
          fun p hp => ((wfB_flat_facts none none true t h).2 p hp).2.1).mpr he
      rw [← valuesAt, ← hval] at this
      exact (listValuesAt_ne_nil_iff k _ fun p hp => (hents p hp).1).mp this
  · intro pr
    rw [satisfiesPredicate_iff k pr _ hsort, hval]

/-- The values at each key after a full insert: the inserted key gains `v`
(set-insert), every other key is untouched. -/
theorem insertProp_values (k v : Nat) (t : Node) (h : wfTree t = true) :
    valuesAt k (insertProp k v t) = vsInsert v (valuesAt k t) ∧
      ∀ k1, k1 ≠ k → valuesAt k1 (insertProp k v t) = valuesAt k1 t := by
  have hfl := (insertProp_main k v t h).2
  have hsflat := (wfB_flat_facts none none true t h).1
  constructor
  · rw [valuesAt, hfl, listValuesAt_leafInsert k k v (flat t) hsflat, if_pos rfl]
    rfl
  · intro k1 hk1
    rw [valuesAt, hfl, listValuesAt_leafInsert k1 k v (flat t) hsflat, if_neg hk1]
    rfl

end BPT

namespace BPT

/-! ## Claim theorems (part 2: the modifying operations) -/

/-- C1: `Insert(k, v, unique_key)` returns false iff `(k, v)` is already
present, or `unique_key` is true and some entry with key `k` exists; on a
false return the tree is unchanged; otherwise it returns true and adds `v`
to the value set of `k` (creating the entry when the key was absent),
leaving every other key's values untouched, and the result is again a
well-formed tree. -/
theorem claim_C1_insert (k v : Nat) (u : Bool) (t : Node) (h : wfTree t = true) :
    ((insertOp k v u t).2 = false ↔
      containsKV t k v ∨ (u = true ∧ containsKey t k)) ∧
    ((insertOp k v u t).2 = false → (insertOp k v u t).1 = t) ∧
    ((insertOp k v u t).2 = true →
      valuesAt k (insertOp k v u t).1 = valuesAt k t ++ [v] ∧
      (∀ k1, k1 ≠ k → valuesAt k1 (insertOp k v u t).1 = valuesAt k1 t) ∧
      wfTree (insertOp k v u t).1 = true) := by
  obtain ⟨hval, hkv, hk, _⟩ := routed_checks k v t h
  by_cases hC : (hasKeyValue k v (findLeafNode k t) ||
      (u && hasKey k (findLeafNode k t))) = true
  · have hred : insertOp k v u t = (t, false) := by
      simp only [insertOp, if_pos hC]
    rw [hred]
    refine ⟨?_, fun _ => rfl, fun hcontra => absurd hcontra (by simp)⟩
    simp only [true_iff]
    rcases Bool.or_eq_true_iff.mp hC with h1 | h1
    · exact Or.inl (hkv.mp h1)
    · obtain ⟨hu, h2⟩ := Bool.and_eq_true_iff.mp h1
      exact Or.inr ⟨hu, hk.mp h2⟩
  · have hred : insertOp k v u t = (insertProp k v t, true) := by
      simp only [insertOp, if_neg hC]
    rw [hred]
    simp only [Bool.or_eq_true, Bool.and_eq_true, not_or, not_and] at hC
    refine ⟨?_, by simp, fun _ => ?_⟩
    · simp only [Bool.true_eq_false, false_iff, not_or, not_and]
      constructor
      · intro hc; exact hC.1 (hkv.mpr hc)
      · intro hu hc
        exact (by simpa [hu] using hC.2 : ¬hasKey k (findLeafNode k t) = true) (hk.mpr hc)
    · obtain ⟨hv1, hv2⟩ := insertProp_values k v t h
      have hnot : v ∉ valuesAt k t := by
        intro hmem
        exact hC.1 (hkv.mpr ((mem_listValuesAt k v (flat t)).mp hmem))
      refine ⟨?_, hv2, (insertProp_main k v t h).1⟩
      rw [hv1, vsInsert, if_neg hnot]

unseal wfB wfChain findLeafNode insertRec in
theorem claim_C1_insert_witness :
    wfTree (Node.leaf [(1, [10])]) = true ∧
      ((insertOp 1 10 false (Node.leaf [(1, [10])])).2 = false ↔
        containsKV (Node.leaf [(1, [10])]) 1 10 ∨
          (false = true ∧ containsKey (Node.leaf [(1, [10])]) 1)) :=
  ⟨by decide, (claim_C1_insert 1 10 false (Node.leaf [(1, [10])]) (by decide)).1⟩

/-- C3: `GetValue(k, results)` appends exactly the values stored at `k` to
`results` (so `results` is unchanged when no entry with key `k` exists), and
after a successful `Insert(k, v)` the pair's value is among the values that
`GetValue(k)` reports. -/
theorem claim_C3_getValue (k v : Nat) (u : Bool) (t : Node) (results : List Nat)
    (h : wfTree t = true) :
    getValueOp k t results = results ++ valuesAt k t ∧
    (¬ containsKey t k → getValueOp k t results = results) ∧
    ((insertOp k v u t).2 = true → v ∈ getValueOp k (insertOp k v u t).1 []) := by
  obtain ⟨hlv, hsort, hents⟩ := findLeaf_route k none none true t h
  have hscan : getValueOp k t results = results ++ valuesAt k t := by
    rw [getValueOp, scanAndPopulateResults_eq k _ results hsort, ← hlv]
    rfl
  refine ⟨hscan, ?_, ?_⟩
  · intro hno
    have hnil : valuesAt k t = [] := by
      rw [valuesAt]
      exact listValuesAt_eq_nil k (flat t) fun p hp hpk => hno ⟨p, hp, hpk⟩
    rw [hscan, hnil, List.append_nil]
  · intro hsucc
    by_cases hC : (hasKeyValue k v (findLeafNode k t) ||
        (u && hasKey k (findLeafNode k t))) = true
    · have : (insertOp k v u t).2 = false := by simp only [insertOp, if_pos hC]
      rw [this] at hsucc; exact absurd hsucc (by simp)
    · have hred : insertOp k v u t = (insertProp k v t, true) := by
        simp only [insertOp, if_neg hC]
      rw [hred]
      have hwf2 := (insertProp_main k v t h).1
      obtain ⟨hlv2, hsort2, _⟩ := findLeaf_route k none none true (insertProp k v t) hwf2
      rw [getValueOp, scanAndPopulateResults_eq k _ [] hsort2, List.nil_append, ← hlv2]
      have := (insertProp_values k v t h).1
      rw [valuesAt] at this
      rw [this, vsInsert]
      by_cases hm : v ∈ valuesAt k t
      · rw [if_pos hm]; exact hm
      · rw [if_neg hm]; simp

unseal wfB wfChain findLeafNode insertRec in
theorem claim_C3_getValue_witness :
    wfTree (Node.leaf [(1, [10])]) = true ∧
      getValueOp 1 (Node.leaf [(1, [10])]) [7] = [7] ++ valuesAt 1 (Node.leaf [(1, [10])]) :=
  ⟨by decide, (claim_C3_getValue 1 99 false (Node.leaf [(1, [10])]) [7] (by decide)).1⟩

/-- C4: `ConditionalInsert(k, v, p, out predicate_satisfied)` returns false
with `predicate_satisfied = true` iff some value already stored at `k`
satisfies `p`, and then the tree is unchanged; otherwise it sets
`predicate_satisfied = false`, inserts `(k, v)` and returns true. -/
theorem claim_C4_conditionalInsert (k v : Nat) (p : Nat → Bool) (t : Node)
    (h : wfTree t = true) :
    ((conditionalInsertOp k v p t).2.1 = false ∧ (conditionalInsertOp k v p t).2.2 = true ↔
      ∃ w ∈ valuesAt k t, p w = true) ∧
    ((∃ w ∈ valuesAt k t, p w = true) → conditionalInsertOp k v p t = (t, false, true)) ∧
    (¬ (∃ w ∈ valuesAt k t, p w = true) →
      (conditionalInsertOp k v p t).2.1 = true ∧
      (conditionalInsertOp k v p t).2.2 = false ∧
      valuesAt k (conditionalInsertOp k v p t).1 = vsInsert v (valuesAt k t) ∧
      wfTree (conditionalInsertOp k v p t).1 = true) := by
  obtain ⟨_, _, _, hsp⟩ := routed_checks k v t h
  by_cases hP : satisfiesPredicate k p (findLeafNode k t) = true
  · have hred : conditionalInsertOp k v p t = (t, false, true) := by
      simp only [conditionalInsertOp, if_pos hP]
    rw [hred]
    exact ⟨iff_of_true ⟨rfl, rfl⟩ ((hsp p).mp hP), fun _ => rfl,
      fun hcontra => absurd ((hsp p).mp hP) hcontra⟩
  · have hred : conditionalInsertOp k v p t = (insertProp k v t, true, false) := by
      simp only [conditionalInsertOp, if_neg hP]
    rw [hred]
    refine ⟨?_, fun hc => absurd ((hsp p).mpr hc) hP, fun _ =>
      ⟨rfl, rfl, (insertProp_values k v t h).1, (insertProp_main k v t h).1⟩⟩
    simp only [Bool.true_eq_false, false_and, false_iff]
    intro hc
    exact hP ((hsp p).mpr hc)

unseal wfB wfChain findLeafNode insertRec in
theorem claim_C4_conditionalInsert_witness :
    wfTree (Node.leaf [(1, [10])]) = true ∧
      ((∃ w ∈ valuesAt 1 (Node.leaf [(1, [10])]), (fun x => decide (x = 10)) w = true) →
        conditionalInsertOp 1 99 (fun x => decide (x = 10)) (Node.leaf [(1, [10])]) =
          (Node.leaf [(1, [10])], false, true)) :=
  ⟨by decide,
    (claim_C4_conditionalInsert 1 99 (fun x => decide (x = 10))
      (Node.leaf [(1, [10])]) (by decide)).2.1⟩

/-- C6: once `(k, v)` is stored, a repeated `Insert(k, v)` returns false and
leaves the tree — hence `GetHeapUsage()` — unchanged; a successful insert
does store the pair, so this applies to every later repetition. -/
theorem claim_C6_insert_idempotent (k v : Nat) (u : Bool) (t0 t : Node)
    (h0 : wfTree t0 = true) (h : wfTree t = true) (hkv : containsKV t k v) :
    ((insertOp k v u t0).2 = true → containsKV (insertOp k v u t0).1 k v) ∧
    insertOp k v u t = (t, false) ∧
    getHeapUsage (insertOp k v u t).1 = getHeapUsage t := by
  obtain ⟨hval, hkviff, _, _⟩ := routed_checks k v t h
  have hC : (hasKeyValue k v (findLeafNode k t) ||
      (u && hasKey k (findLeafNode k t))) = true := by
    rw [Bool.or_eq_true]
    exact Or.inl (hkviff.mpr hkv)
  have hred : insertOp k v u t = (t, false) := by
    simp only [insertOp, if_pos hC]
  refine ⟨?_, hred, by rw [hred]⟩
  intro hsucc
  by_cases hC0 : (hasKeyValue k v (findLeafNode k t0) ||
      (u && hasKey k (findLeafNode k t0))) = true
  · have : (insertOp k v u t0).2 = false := by simp only [insertOp, if_pos hC0]
    rw [this] at hsucc; exact absurd hsucc (by simp)
  · have hred0 : insertOp k v u t0 = (insertProp k v t0, true) := by
      simp only [insertOp, if_neg hC0]
    rw [hred0]
    have hv1 := (insertProp_values k v t0 h0).1
    have : v ∈ valuesAt k (insertProp k v t0) := by
      rw [hv1, vsInsert]
      by_cases hm : v ∈ valuesAt k t0
      · rw [if_pos hm]; exact hm
      · rw [if_neg hm]; simp
    exact (mem_listValuesAt k v (flat (insertProp k v t0))).mp this

unseal wfB wfChain findLeafNode insertRec in
theorem claim_C6_insert_idempotent_witness :
    wfTree (Node.leaf []) = true ∧ wfTree (Node.leaf [(1, [10])]) = true ∧
      containsKV (Node.leaf [(1, [10])]) 1 10 ∧
      insertOp 1 10 false (Node.leaf [(1, [10])]) = (Node.leaf [(1, [10])], false) :=
  ⟨by decide, by decide, ⟨(1, [10]), by decide, rfl, by decide⟩,
    (claim_C6_insert_idempotent 1 10 false (Node.leaf []) (Node.leaf [(1, [10])])
      (by decide) (by decide) ⟨(1, [10]), by decide, rfl, by decide⟩).2.1⟩

end BPT

namespace BPT

/-! ## Delete-path toolkit: search resolution and list surgery -/

theorem upperBoundPos_append_le (key : Nat) (A B : List (Nat × α))
    (hA : ∀ p ∈ A, p.1 ≤ key) (hB : ∀ p, B.head? = some p → key < p.1) :
    upperBoundPos key (A ++ B) = A.length := by
  induction A with
  | nil =>
    cases B with
    | nil => simp [upperBoundPos_nil]
    | cons q B2 =>
      have := hB q rfl
      rw [List.nil_append, upperBoundPos_cons, if_neg (by omega)]
      rfl
  | cons p A2 ih =>
    rw [List.cons_append, upperBoundPos_cons, if_pos (hA p (by simp)),
      ih (fun q hq => hA q (by simp [hq]))]
    simp

theorem getElem?_middle (A : List α) (p : α) (B : List α) :
    (A ++ p :: B)[A.length]? = some p := by
  induction A with
  | nil => simp
  | cons a A2 ih => simpa using ih

theorem set_middle (A : List α) (p q : α) (B : List α) :
    (A ++ p :: B).set A.length q = A ++ q :: B := by
  induction A with
  | nil => rfl
  | cons a A2 ih => simpa using ih

theorem eraseIdx_middle (A : List α) (p : α) (B : List α) :
    (A ++ p :: B).eraseIdx A.length = A ++ B := by
  induction A with
  | nil => rfl
  | cons a A2 ih => simpa using ih

theorem ltePos_resolve (key : Nat) (A : List (Nat × α)) (s : Nat) (c : α)
    (B : List (Nat × α)) (hA : ∀ p ∈ A, p.1 ≤ key) (hs : s ≤ key)
    (hB : ∀ p, B.head? = some p → key < p.1) :
    ltePos key (A ++ (s, c) :: B) = (A.length : Int) := by
  have h1 : upperBoundPos key (A ++ (s, c) :: B) = A.length + 1 := by
    have := upperBoundPos_append_le key (A ++ [(s, c)]) B
      (by
        intro p hp
        rcases List.mem_append.mp hp with h | h
        · exact hA p h
        · simp at h; simp [h, hs]) hB
    simpa using this
  rw [ltePos, h1]
  push_cast
  ring

theorem keyNodePtrPairIdx_resolve (key : Nat) (A : InnerEntries) (s : Nat) (c : Node)
    (B : InnerEntries) (hA : ∀ p ∈ A, p.1 ≤ key) (hs : s ≤ key)
    (hB : ∀ p, B.head? = some p → key < p.1) :
    keyNodePtrPairIdx key (A ++ (s, c) :: B) = A.length := by
  rw [keyNodePtrPairIdx, ltePos_resolve key A s c B hA hs hB]
  rw [if_neg (by omega)]
  simp

theorem replaceKeyRet_resolve (old nk : Nat) (A : InnerEntries) (s : Nat) (c : Node)
    (B : InnerEntries) (hA : ∀ p ∈ A, p.1 ≤ old) (hs : s ≤ old)
    (hB : ∀ p, B.head? = some p → old < p.1) :
    replaceKeyRet old nk (A ++ (s, c) :: B) = (s, A ++ (nk, c) :: B) := by
  rw [replaceKeyRet, ltePos_resolve old A s c B hA hs hB]
  rw [if_neg (by omega)]
  have ht : ((A.length : Int)).toNat = A.length := by simp
  rw [ht, getElem?_middle]
  dsimp only
  rw [set_middle]

theorem innerDeleteEntry_resolve (key : Nat) (A : InnerEntries) (s : Nat) (c : Node)
    (B : InnerEntries) (hA : ∀ p ∈ A, p.1 ≤ key) (hs : s ≤ key)
    (hB : ∀ p, B.head? = some p → key < p.1) :
    innerDeleteEntry key (A ++ (s, c) :: B) = (s, A ++ B) := by
  rw [innerDeleteEntry, keyNodePtrPairIdx_resolve key A s c B hA hs hB,
    getElem?_middle]
  dsimp only
  rw [eraseIdx_middle]

/-- `ltePos` is `-1` exactly when the head key is above the search key. -/
theorem ltePos_head_gt (key : Nat) (p : Nat × α) (tl : List (Nat × α))
    (h : key < p.1) : ltePos key (p :: tl) = -1 := by
  rw [ltePos, upperBoundPos_cons, if_neg (by omega)]
  rfl

end BPT

namespace BPT

/-! ## Well-formedness utilities for the delete path -/

/-- Occupancy one below the floor (the most an underflowed node can lose). -/
def minusOneBound : Node → Prop
  | .leaf es => MIN_KEYS_LEAF_NODE - 1 ≤ es.length
  | .inner _ es => MIN_KEYS_INNER_NODE - 1 ≤ es.length

/-- A root-exempt well-formed node whose occupancy floor holds is
well-formed as a non-root. -/
theorem wfB_of_floor (lo hi : Option Nat) (t : Node)
    (h : wfB lo hi true t = true) (hcu : childUnderflow t = false) :
    wfB lo hi false t = true := by
  match t with
  | .leaf es =>
    obtain ⟨h1, h2, _, h4⟩ := (wfB_leaf_iff lo hi true es).mp h
    simp only [childUnderflow, leafIsUnderflow, decide_eq_false_iff_not, not_lt] at hcu
    exact (wfB_leaf_iff lo hi false es).mpr ⟨h1, h2, Or.inr hcu, h4⟩
  | .inner prev es =>
    match es with
    | [] => rw [wfB_inner_nil] at h; exact absurd h (by simp)
    | (k0, c0) :: rest =>
      obtain ⟨h1, h2, h3, _, h5⟩ := (wfB_inner_cons_iff lo hi true prev k0 c0 rest).mp h
      simp only [childUnderflow, innerIsUnderflow, decide_eq_false_iff_not, not_lt,
        List.length_cons, MIN_PTR_INNER_NODE] at hcu
      refine (wfB_inner_cons_iff lo hi false prev k0 c0 rest).mpr ⟨h1, h2, h3, ?_, h5⟩
      simp only [MIN_KEYS_INNER_NODE]
      omega

/-- A non-root well-formed subtree stores at least one leaf entry. -/
theorem flat_ne_nil (lo hi : Option Nat) (t : Node)
    (h : wfB lo hi false t = true) : flat t ≠ [] := by
  match t with
  | .leaf es =>
    obtain ⟨_, _, hocc, _⟩ := (wfB_leaf_iff lo hi false es).mp h
    rw [flat_leaf]
    rcases hocc with hc | hc
    · exact absurd hc (by simp)
    · intro hnil
      rw [hnil] at hc
      simp [MIN_KEYS_LEAF_NODE] at hc
  | .inner prev es =>
    match es with
    | [] => rw [wfB_inner_nil] at h; exact absurd h (by simp)
    | (k0, c0) :: rest =>
      obtain ⟨h1, _, _, _, _⟩ := (wfB_inner_cons_iff lo hi false prev k0 c0 rest).mp h
      rw [flat_inner]
      have := flat_ne_nil lo (some k0) prev h1
      intro hnil
      exact this (List.append_eq_nil.mp hnil).1
termination_by sizeOf t
decreasing_by
  simp only [Node.inner.sizeOf_spec]; omega

/-- The first separator of a non-root inner node strictly exceeds the
node's lower bound. -/
theorem sep_strict (a : Nat) (hi : Option Nat) (p : Node) (x0 : Nat) (xc : Node)
    (xr : InnerEntries)
    (h : wfB (some a) hi false (.inner p ((x0, xc) :: xr)) = true) : a < x0 := by
  obtain ⟨h1, _, _, _, _⟩ := (wfB_inner_cons_iff (some a) hi false p x0 xc xr).mp h
  obtain ⟨q, hq⟩ := List.exists_mem_of_ne_nil _ (flat_ne_nil (some a) (some x0) p h1)
  have := (okB_split _ _ _).mp ((wfB_flat_facts (some a) (some x0) false p h1).2 q hq).1
  simp only [lbOk, ubOk, decide_eq_true_eq] at this
  omega

/-- Keys of all but the last entry are below the last entry's key. -/
theorem sortedP_dropLast_lt (es : List (Nat × α)) (d : Nat × α) (hs : sortedP es)
    (hne : es ≠ []) : ∀ q ∈ es.dropLast, q.1 < (es.getLastD d).1 := by
  intro q hq
  have hlast : es.getLastD d = es.getLast hne := List.getLastD_eq_getLast? _ _ ▸ (by
    rw [List.getLast?_eq_getLast _ hne]; rfl)
  rw [hlast]
  have hsplit : es = es.dropLast ++ [es.getLast hne] := (List.dropLast_append_getLast hne).symm
  rw [sortedP] at hs
  rw [hsplit] at hs
  have := (List.pairwise_append.mp hs).2.2
  exact this q hq _ (by simp)

/-- All-but-last of a chain is a chain bounded by the last separator. -/
theorem wfChain_dropLast (hi : Option Nat) (k0 : Nat) (c0 : Node) (l : InnerEntries)
    (lk : Nat) (lc : Node) (hl : l.getLast? = some (lk, lc))
    (h : wfChain hi k0 c0 l = true) :
    wfChain (some lk) k0 c0 l.dropLast = true ∧ wfB (some lk) hi false lc = true ∧
      ubOk hi lk = true := by
  have hne : l ≠ [] := by intro hnil; rw [hnil] at hl; simp at hl
  have hsplit : l = l.dropLast ++ [(lk, lc)] := by
    have := List.dropLast_append_getLast hne
    rw [List.getLast?_eq_getLast _ hne] at hl
    have hlast : l.getLast hne = (lk, lc) := by injection hl
    rw [← hlast]
    exact this.symm
  rw [hsplit] at h
  obtain ⟨hA, hB⟩ := wfChain_append_elim hi k0 c0 l.dropLast lk lc [] h
  obtain ⟨hub, hw⟩ := (wfChain_nil_iff _ _ _).mp hB
  exact ⟨hA, hw, hub⟩

end BPT

namespace BPT

/-! ## Balancedness (uniform leaf depth)

Reachable trees are balanced: the rebalancing of `Delete` relies on it
through the `dynamic_cast` sibling checks, and `Insert` grows the tree
only at the root.  `leftSpineLen` measures a node's depth along
`GetPrevPtr`; balancedness says every child of an inner node has the same
depth as the `prev_ptr_` child. -/

mutual

def unifB : Node → Bool
  | .leaf _ => true
  | .inner prev es => unifB prev && unifList (leftSpineLen prev) es

def unifList (h : Nat) : InnerEntries → Bool
  | [] => true
  | (_, c) :: rest => unifB c && (leftSpineLen c == h) && unifList h rest

end

theorem unifList_eq_all (h : Nat) (es : InnerEntries) :
    unifList h es = es.all (fun p => unifB p.2 && (leftSpineLen p.2 == h)) := by
  induction es with
  | nil => simp [unifList]
  | cons q rest ih =>
    obtain ⟨qk, qc⟩ := q
    simp [unifList, ih, Bool.and_assoc]

theorem unifB_leaf (es : LeafEntries) : unifB (.leaf es) = true := by
  rw [unifB]

theorem unifB_inner_iff (prev : Node) (es : InnerEntries) :
    unifB (.inner prev es) = true ↔
      unifB prev = true ∧
        ∀ p ∈ es, unifB p.2 = true ∧ leftSpineLen p.2 = leftSpineLen prev := by
  rw [unifB, unifList_eq_all]
  simp [List.all_eq_true, and_assoc]

theorem leftSpineLen_pos (t : Node) : 1 ≤ leftSpineLen t := by
  match t with
  | .leaf _ => rw [leftSpineLen]
  | .inner prev _ => rw [leftSpineLen]; omega

theorem leftSpineLen_inner (prev : Node) (es : InnerEntries) :
    leftSpineLen (.inner prev es) = leftSpineLen prev + 1 := by
  rw [leftSpineLen]

/-- Nodes of equal depth have the same dynamic type. -/
theorem spine_eq_type (a b : Node) (h : leftSpineLen a = leftSpineLen b) :
    isLeafNode a = isLeafNode b := by
  match a, b with
  | .leaf _, .leaf _ => rfl
  | .inner p _, .inner q _ => rfl
  | .leaf _, .inner q _ =>
    rw [leftSpineLen, leftSpineLen_inner] at h
    have := leftSpineLen_pos q
    omega
  | .inner p _, .leaf _ =>
    rw [leftSpineLen, leftSpineLen_inner] at h
    have := leftSpineLen_pos p
    omega

/-- Each frame of the insert path preserves balancedness and depth, and a
lifted split node has the same depth as the node it split from. -/
theorem insertRec_unif (k v : Nat) (t : Node) (hu : unifB t = true) :
    unifB (insertRec k v t).1 = true ∧
      leftSpineLen (insertRec k v t).1 = leftSpineLen t ∧
      ∀ sn, (insertRec k v t).2 = some sn →
        unifB sn.2 = true ∧ leftSpineLen sn.2 = leftSpineLen t := by
  match t with
  | .leaf es =>
    rw [insertRec_leaf]
    by_cases hov : leafIsOverflow (leafInsert k v es)
    · rw [if_pos hov]
      refine ⟨unifB_leaf _, rfl, ?_⟩
      intro sn hsn
      injection hsn with hsn
      rw [← hsn]
      exact ⟨unifB_leaf _, rfl⟩
    · rw [if_neg hov]
      exact ⟨unifB_leaf _, rfl, by intro sn hsn; simp at hsn⟩
  | .inner prev es =>
    obtain ⟨hup, hues⟩ := (unifB_inner_iff prev es).mp hu
    have hchild : unifB (childAt prev es (routeSlot k es)) = true ∧
        leftSpineLen (childAt prev es (routeSlot k es)) = leftSpineLen prev := by
      cases hslot : routeSlot k es with
      | none => exact ⟨hup, rfl⟩
      | some i =>
        rw [childAt]
        cases hv : es[i]? with
        | none => exact ⟨hup, rfl⟩
        | some p => exact hues p (List.getElem?_mem hv)
    have hrec := insertRec_unif k v (childAt prev es (routeSlot k es)) hchild.1
    cases hres : insertRec k v (childAt prev es (routeSlot k es)) with
    | mk n o =>
    rw [insertRec_inner]
    dsimp only
    rw [hres]
    rw [hres] at hrec
    obtain ⟨hun, hln, hsp⟩ := hrec
    have hln2 : leftSpineLen n = leftSpineLen prev := by rw [hln, hchild.2]
    have hps : unifB (setSlot prev es (routeSlot k es) n).1 = true ∧
        leftSpineLen (setSlot prev es (routeSlot k es) n).1 = leftSpineLen prev ∧
        ∀ p ∈ (setSlot prev es (routeSlot k es) n).2,
          unifB p.2 = true ∧ leftSpineLen p.2 = leftSpineLen prev := by
      cases hslot : routeSlot k es with
      | none =>
        simp only [setSlot]
        exact ⟨hun, hln2, hues⟩
      | some i =>
        rw [setSlot]
        cases hv : es[i]? with
        | none => exact ⟨hup, rfl, hues⟩
        | some p =>
          refine ⟨hup, rfl, ?_⟩
          intro q hq
          rcases List.mem_or_eq_of_mem_set hq with hq2 | rfl
          · exact hues q hq2
          · exact ⟨hun, hln2⟩
    obtain ⟨hq1, hq2, hq3⟩ := hps
    cases o with
    | none =>
      dsimp only
      refine ⟨?_, by rw [leftSpineLen_inner, leftSpineLen_inner, hq2], by simp⟩
      rw [unifB_inner_iff]
      refine ⟨hq1, ?_⟩
      intro p hp
      rw [hq2]
      exact hq3 p hp
    | some sn =>
      obtain ⟨sep, child⟩ := sn
      obtain ⟨husp, hlsp⟩ := hsp (sep, child) rfl
      dsimp only
      have hall2 : ∀ p ∈ insertAt (lowerBoundPos sep (setSlot prev es (routeSlot k es) n).2)
          (sep, child) (setSlot prev es (routeSlot k es) n).2,
          unifB p.2 = true ∧ leftSpineLen p.2 = leftSpineLen prev := by
        intro p hp
        rcases (mem_insertAt _ _ _ _).mp hp with rfl | hp2
        · exact ⟨husp, by rw [hlsp, hchild.2]⟩
        · exact hq3 p hp2
      by_cases hov : innerIsOverflow (insertAt
          (lowerBoundPos sep (setSlot prev es (routeSlot k es) n).2) (sep, child)
          (setSlot prev es (routeSlot k es) n).2)
      · rw [if_pos hov]
        cases hdr : (insertAt (lowerBoundPos sep (setSlot prev es (routeSlot k es) n).2)
            (sep, child) (setSlot prev es (routeSlot k es) n).2).drop MIN_KEYS_INNER_NODE with
        | nil =>
          dsimp only
          refine ⟨?_, by rw [leftSpineLen_inner, leftSpineLen_inner, hq2], by simp⟩
          rw [unifB_inner_iff]
          refine ⟨hq1, ?_⟩
          intro p hp
          rw [hq2]
          exact hall2 p (List.mem_of_mem_take hp)
        | cons mp rtail =>
          obtain ⟨mk, mc⟩ := mp
          dsimp only
          have hmem : ∀ p ∈ (mk, mc) :: rtail,
              unifB p.2 = true ∧ leftSpineLen p.2 = leftSpineLen prev := by
            intro p hp
            exact hall2 p (List.mem_of_mem_drop (hdr ▸ hp))
          refine ⟨?_, by rw [leftSpineLen_inner, leftSpineLen_inner, hq2], ?_⟩
          · rw [unifB_inner_iff]
            refine ⟨hq1, ?_⟩
            intro p hp
            rw [hq2]
            exact hall2 p (List.mem_of_mem_take hp)
          · intro sn2 hsn2
            injection hsn2 with hsn2
            rw [← hsn2]
            have hmc := hmem (mk, mc) (by simp)
            refine ⟨?_, ?_⟩
            · rw [unifB_inner_iff]
              refine ⟨hmc.1, ?_⟩
              intro p hp
              rw [hmc.2]
              exact hmem p (by simp [hp])
            · rw [leftSpineLen_inner, leftSpineLen_inner, hmc.2]
      · rw [if_neg hov]
        dsimp only
        refine ⟨?_, by rw [leftSpineLen_inner, leftSpineLen_inner, hq2], by simp⟩
        rw [unifB_inner_iff]
        refine ⟨hq1, ?_⟩
        intro p hp
        rw [hq2]
        exact hall2 p hp
termination_by sizeOf t
decreasing_by
  exact sizeOf_childAt_lt _ _ _

/-- The full insert (with a possible new root) preserves balancedness. -/
theorem insertProp_unif (k v : Nat) (t : Node) (hu : unifB t = true) :
    unifB (insertProp k v t) = true := by
  have hrec := insertRec_unif k v t hu
  rw [insertProp]
  cases hres : insertRec k v t with
  | mk n o =>
    rw [hres] at hrec
    obtain ⟨hun, hln, hsp⟩ := hrec
    cases o with
    | none => exact hun
    | some sn =>
      obtain ⟨sep, r⟩ := sn
      obtain ⟨hur, hlr⟩ := hsp (sep, r) rfl
      rw [unifB_inner_iff]
      refine ⟨hun, ?_⟩
      intro p hp
      simp only [List.mem_singleton] at hp
      rw [hp]
      exact ⟨hur, by rw [hlr, hln]⟩

end BPT

namespace BPT

/-! ## Parent-frame contexts for the rebalance analysis -/

/-- Upper bound seen by the entry at a slot: the next separator, or the
parent's own upper bound for the last entry. -/
def nextBound (hi : Option Nat) : InnerEntries → Option Nat
  | [] => hi
  | q :: _ => some q.1

/-- `lo ≤ mid` compatibility of interval endpoints. -/
def midOk (lo mid : Option Nat) : Bool :=
  match lo, mid with
  | some a, some m => decide (a ≤ m)
  | _, _ => true

/-- The part of an inner node strictly left of a slot: the `prev_ptr_`
child and the entries before the slot, all below `mid`. -/
def wfCtx (lo mid : Option Nat) (prev : Node) : InnerEntries → Bool
  | [] => wfB lo mid false prev && midOk lo mid
  | (k0, c0) :: A2 => wfB lo (some k0) false prev && lbOk lo k0 && wfChain mid k0 c0 A2

theorem wfB_rt_mono (lo hi : Option Nat) (t : Node) (h : wfB lo hi false t = true) :
    wfB lo hi true t = true := by
  match t with
  | .leaf es =>
    obtain ⟨h1, h2, _, h4⟩ := (wfB_leaf_iff lo hi false es).mp h
    exact (wfB_leaf_iff lo hi true es).mpr ⟨h1, h2, Or.inl rfl, h4⟩
  | .inner prev es =>
    match es with
    | [] => rw [wfB_inner_nil] at h; exact absurd h (by simp)
    | (k0, c0) :: rest =>
      obtain ⟨h1, h2, h3, _, h5⟩ := (wfB_inner_cons_iff lo hi false prev k0 c0 rest).mp h
      exact (wfB_inner_cons_iff lo hi true prev k0 c0 rest).mpr ⟨h1, h2, h3, Or.inl rfl, h5⟩

theorem wfCtx_nil_iff (lo mid : Option Nat) (prev : Node) :
    wfCtx lo mid prev [] = true ↔ wfB lo mid false prev = true ∧ midOk lo mid = true := by
  rw [wfCtx]; simp

theorem wfCtx_cons_iff (lo mid : Option Nat) (prev : Node) (k0 : Nat) (c0 : Node)
    (A2 : InnerEntries) :
    wfCtx lo mid prev ((k0, c0) :: A2) = true ↔
      wfB lo (some k0) false prev = true ∧ lbOk lo k0 = true ∧
        wfChain mid k0 c0 A2 = true := by
  rw [wfCtx]; simp [and_assoc]

/-- Splitting a well-formed inner node at a chosen entry. -/
theorem wfB_inner_decomp (lo hi : Option Nat) (rt : Bool) (prev : Node)
    (A : InnerEntries) (kb : Nat) (cb : Node) (B : InnerEntries)
    (h : wfB lo hi rt (.inner prev (A ++ (kb, cb) :: B)) = true) :
    wfCtx lo (some kb) prev A = true ∧ wfChain hi kb cb B = true ∧
      (rt = true ∨ MIN_KEYS_INNER_NODE ≤ A.length + B.length + 1) ∧
      A.length + B.length + 1 ≤ FAN_OUT - 1 := by
  cases A with
  | nil =>
    obtain ⟨h1, h2, h3, h4, h5⟩ := (wfB_inner_cons_iff lo hi rt prev kb cb B).mp h
    refine ⟨(wfCtx_nil_iff _ _ _).mpr ⟨h1, ?_⟩, h3, by simpa using h4, by simpa using h5⟩
    cases lo with
    | none => rfl
    | some a => simpa [midOk, lbOk] using h2
  | cons q A2 =>
    obtain ⟨qk, qc⟩ := q
    rw [List.cons_append] at h
    obtain ⟨h1, h2, h3, h4, h5⟩ := (wfB_inner_cons_iff lo hi rt prev qk qc _).mp h
    obtain ⟨hA, hB⟩ := wfChain_append_elim hi qk qc A2 kb cb B h3
    simp only [List.length_append, List.length_cons] at h4 h5
    refine ⟨(wfCtx_cons_iff _ _ _ _ _ _).mpr ⟨h1, h2, hA⟩, hB, ?_, ?_⟩
    · rcases h4 with h4 | h4
      · exact Or.inl h4
      · exact Or.inr (by simp only [List.length_cons]; omega)
    · simp only [List.length_cons]; omega

/-- Rebuilding a well-formed inner node from a context and a chain. -/
theorem wfB_inner_recomp (lo hi : Option Nat) (rt : Bool) (prev : Node)
    (A : InnerEntries) (kb : Nat) (cb : Node) (B : InnerEntries)
    (hc : wfCtx lo (some kb) prev A = true) (hB : wfChain hi kb cb B = true)
    (hocc : rt = true ∨ MIN_KEYS_INNER_NODE ≤ A.length + B.length + 1)
    (hlen : A.length + B.length + 1 ≤ FAN_OUT - 1) :
    wfB lo hi rt (.inner prev (A ++ (kb, cb) :: B)) = true := by
  cases A with
  | nil =>
    obtain ⟨h1, h2⟩ := (wfCtx_nil_iff _ _ _).mp hc
    refine (wfB_inner_cons_iff lo hi rt prev kb cb B).mpr ⟨h1, ?_, hB, by simpa using hocc,
      by simpa using hlen⟩
    cases lo with
    | none => rfl
    | some a => simpa [midOk, lbOk] using h2
  | cons q A2 =>
    obtain ⟨qk, qc⟩ := q
    obtain ⟨h1, h2, h3⟩ := (wfCtx_cons_iff _ _ _ _ _ _).mp hc
    rw [List.cons_append]
    simp only [List.length_cons] at hocc hlen
    refine (wfB_inner_cons_iff lo hi rt prev qk qc _).mpr
      ⟨h1, h2, wfChain_append_intro hi qk qc A2 kb cb B h3 hB, ?_, ?_⟩
    · rcases hocc with h | h
      · exact Or.inl h
      · exact Or.inr (by simp only [List.length_append, List.length_cons]; omega)
    · simp only [List.length_append, List.length_cons]; omega

/-- Dropping the last entry of a context. -/
theorem wfCtx_unsnoc (lo mid : Option Nat) (prev : Node) (A0 : InnerEntries)
    (sL : Nat) (cL : Node)
    (h : wfCtx lo mid prev (A0 ++ [(sL, cL)]) = true) :
    wfCtx lo (some sL) prev A0 = true ∧ wfB (some sL) mid false cL = true ∧
      ubOk mid sL = true := by
  cases A0 with
  | nil =>
    obtain ⟨h1, h2, h3⟩ := (wfCtx_cons_iff _ _ _ _ _ _).mp h
    obtain ⟨h4, h5⟩ := (wfChain_nil_iff _ _ _).mp h3
    refine ⟨(wfCtx_nil_iff _ _ _).mpr ⟨h1, ?_⟩, h5, h4⟩
    cases lo with
    | none => rfl
    | some a => simpa [midOk, lbOk] using h2
  | cons q A2 =>
    obtain ⟨qk, qc⟩ := q
    rw [List.cons_append] at h
    obtain ⟨h1, h2, h3⟩ := (wfCtx_cons_iff _ _ _ _ _ _).mp h
    obtain ⟨hA, hB⟩ := wfChain_append_elim mid qk qc A2 sL cL [] h3
    obtain ⟨h4, h5⟩ := (wfChain_nil_iff _ _ _).mp hB
    exact ⟨(wfCtx_cons_iff _ _ _ _ _ _).mpr ⟨h1, h2, hA⟩, h5, h4⟩

/-- Extending a context by one entry. -/
theorem wfCtx_snoc (lo mid : Option Nat) (prev : Node) (A0 : InnerEntries)
    (sL : Nat) (cL : Node)
    (hc : wfCtx lo (some sL) prev A0 = true) (hw : wfB (some sL) mid false cL = true)
    (hub : ubOk mid sL = true) :
    wfCtx lo mid prev (A0 ++ [(sL, cL)]) = true := by
  cases A0 with
  | nil =>
    obtain ⟨h1, h2⟩ := (wfCtx_nil_iff _ _ _).mp hc
    refine (wfCtx_cons_iff _ _ _ _ _ _).mpr ⟨h1, ?_, (wfChain_nil_iff _ _ _).mpr ⟨hub, hw⟩⟩
    cases lo with
    | none => rfl
    | some a => simpa [midOk, lbOk] using h2
  | cons q A2 =>
    obtain ⟨qk, qc⟩ := q
    obtain ⟨h1, h2, h3⟩ := (wfCtx_cons_iff _ _ _ _ _ _).mp hc
    rw [List.cons_append]
    exact (wfCtx_cons_iff _ _ _ _ _ _).mpr
      ⟨h1, h2, wfChain_append_intro mid qk qc A2 sL cL [] h3
        ((wfChain_nil_iff _ _ _).mpr ⟨hub, hw⟩)⟩

/-- Every separator of a context is below its bound. -/
theorem wfCtx_sep_lt (lo : Option Nat) (m : Nat) (prev : Node) (A : InnerEntries)
    (h : wfCtx lo (some m) prev A = true) : ∀ p ∈ A, p.1 < m := by
  cases A with
  | nil => simp
  | cons q A2 =>
    obtain ⟨qk, qc⟩ := q
    obtain ⟨_, _, h3⟩ := (wfCtx_cons_iff _ _ _ _ _ _).mp h
    intro p hp
    rcases List.mem_cons.mp hp with rfl | hp
    · have := wfChain_ubOk (some m) qk qc A2 h3
      simpa [ubOk] using this
    · have := (wfChain_sep_mem (some m) qk qc A2 h3 p hp).2
      simpa [ubOk] using this

end BPT

namespace BPT

/-! ## Occupancy and search facts used by `Balance` -/

theorem leaf_underflow_len (es : LeafEntries) (hcu : childUnderflow (.leaf es) = true)
    (hb : minusOneBound (.leaf es)) : es.length = MIN_KEYS_LEAF_NODE - 1 := by
  simp only [childUnderflow, leafIsUnderflow, decide_eq_true_eq] at hcu
  simp only [minusOneBound] at hb
  omega

theorem inner_underflow_len (p : Node) (es : InnerEntries)
    (hcu : childUnderflow (.inner p es) = true)
    (hb : minusOneBound (.inner p es)) : es.length = MIN_KEYS_INNER_NODE - 1 := by
  simp only [childUnderflow, innerIsUnderflow, decide_eq_true_eq, MIN_PTR_INNER_NODE] at hcu
  simp only [minusOneBound, MIN_KEYS_INNER_NODE] at hb ⊢
  omega

/-- On the non-empty (bounded) vectors of this tree, `LeafNode::WillUnderflow`
is the exact borrow test. -/
theorem leafWillUnderflow_false_iff (es : LeafEntries) (h1 : 1 ≤ es.length)
    (h2 : es.length ≤ FAN_OUT - 1) :
    leafWillUnderflow es = false ↔ MIN_KEYS_LEAF_NODE + 1 ≤ es.length := by
  simp only [leafWillUnderflow, decide_eq_false_iff_not, not_lt, U64, FAN_OUT,
    MIN_KEYS_LEAF_NODE] at h2 ⊢
  omega

theorem innerWillUnderflow_false_iff (es : InnerEntries) :
    innerWillUnderflow es = false ↔ MIN_PTR_INNER_NODE ≤ es.length := by
  simp only [innerWillUnderflow, decide_eq_false_iff_not, not_lt, MIN_PTR_INNER_NODE]
  omega

/-- The `GetFirstKey` of a non-empty well-formed node lies in its interval. -/
theorem nodeFirstKey_bounds (lo hi : Option Nat) (t : Node)
    (h : wfB lo hi true t = true)
    (hne : ∀ es, t = Node.leaf es → es ≠ []) :
    lbOk lo (nodeFirstKey t) = true ∧ ubOk hi (nodeFirstKey t) = true := by
  match t with
  | .leaf es =>
    obtain ⟨_, hok, _, _⟩ := (wfB_leaf_iff lo hi true es).mp h
    cases es with
    | nil => exact absurd rfl (hne [] rfl)
    | cons p tl =>
      have := (okB_split _ _ _).mp (hok p (by simp)).1
      simpa [nodeFirstKey, leafFirstKey] using this
  | .inner prev es =>
    match es with
    | [] => rw [wfB_inner_nil] at h; exact absurd h (by simp)
    | (k0, c0) :: rest =>
      obtain ⟨_, hlb, hc, _, _⟩ := (wfB_inner_cons_iff lo hi true prev k0 c0 rest).mp h
      exact ⟨hlb, wfChain_ubOk hi k0 c0 rest hc⟩

theorem predecessorSlot_neg1 : predecessorSlot (-1) = none := rfl

theorem predecessorSlot_zero : predecessorSlot 0 = some none := rfl

theorem predecessorSlot_succ (j : Nat) :
    predecessorSlot ((j + 1 : Nat) : Int) = some (some j) := by
  rw [predecessorSlot, if_neg (by omega), if_neg (by omega)]
  simp

theorem successorSlot_none (idx : Int) (len : Nat) (h : (idx + 1).toNat = len) :
    successorSlot idx len = none := by
  rw [successorSlot, if_pos h]

theorem successorSlot_some (idx : Int) (len : Nat) (h : (idx + 1).toNat ≠ len) :
    successorSlot idx len = some (idx + 1).toNat := by
  rw [successorSlot, if_neg h]

/-- Two adjacent well-formed leaves concatenate to a well-formed leaf. -/
theorem leaf_merge_wf (lo hi : Option Nat) (m : Nat) (A B : LeafEntries)
    (hA : wfB lo (some m) true (.leaf A) = true)
    (hB : wfB (some m) hi true (.leaf B) = true)
    (hubm : ubOk hi m = true) (hlom : midOk lo (some m) = true)
    (hlen : MIN_KEYS_LEAF_NODE ≤ A.length + B.length)
    (hlen2 : A.length + B.length ≤ FAN_OUT - 1) :
    wfB lo hi false (.leaf (A ++ B)) = true := by
  obtain ⟨hsA, hokA, _, _⟩ := (wfB_leaf_iff lo (some m) true A).mp hA
  obtain ⟨hsB, hokB, _, _⟩ := (wfB_leaf_iff (some m) hi true B).mp hB
  refine (wfB_leaf_iff lo hi false (A ++ B)).mpr ⟨?_, ?_, Or.inr (by simpa using hlen),
    by simpa using hlen2⟩
  · rw [sortedP, List.pairwise_append]
    refine ⟨hsA, hsB, ?_⟩
    intro a ha b hb
    have h1 := ((okB_split _ _ _).mp (hokA a ha).1).2
    have h2 := ((okB_split _ _ _).mp (hokB b hb).1).1
    simp only [ubOk, lbOk, decide_eq_true_eq] at h1 h2
    omega
  · intro p hp
    rcases List.mem_append.mp hp with hm | hm
    · obtain ⟨ho, hn, hd⟩ := hokA p hm
      obtain ⟨h1, h2⟩ := (okB_split _ _ _).mp ho
      refine ⟨(okB_split _ _ _).mpr ⟨h1, ?_⟩, hn, hd⟩
      simp only [ubOk, decide_eq_true_eq] at h2
      exact ubOk_trans hi m p.1 hubm (by omega)
    · obtain ⟨ho, hn, hd⟩ := hokB p hm
      obtain ⟨h1, h2⟩ := (okB_split _ _ _).mp ho
      refine ⟨(okB_split _ _ _).mpr ⟨?_, h2⟩, hn, hd⟩
      simp only [lbOk, decide_eq_true_eq] at h1 ⊢
      cases lo with
      | none => rfl
      | some a =>
        simp only [midOk, decide_eq_true_eq] at hlom
        simp only [decide_eq_true_eq]
        omega

end BPT

namespace BPT

theorem insertAt_end (x : α) (xs : List α) : insertAt xs.length x xs = xs ++ [x] := by
  simp [insertAt]

theorem getLast?_of_getLastD (l : List α) (d : α) (h : l ≠ []) :
    l.getLast? = some (l.getLastD d) := by
  rw [List.getLast?_eq_getLast _ h, List.getLastD_eq_getLast?, List.getLast?_eq_getLast _ h]
  rfl

theorem dropLast_append_getLastD (es : List α) (d : α) (hne : es ≠ []) :
    es.dropLast ++ [es.getLastD d] = es := by
  have h1 := getLast?_of_getLastD es d hne
  rw [List.getLast?_eq_getLast _ hne] at h1
  have h2 : es.getLastD d = es.getLast hne := by injection h1 with h1; exact h1.symm
  rw [h2]
  exact List.dropLast_append_getLast hne

theorem getLastD_mem (es : List α) (d : α) (hne : es ≠ []) : es.getLastD d ∈ es := by
  have h1 := getLast?_of_getLastD es d hne
  rw [List.getLast?_eq_getLast _ hne] at h1
  have h2 : es.getLastD d = es.getLast hne := by injection h1 with h1; exact h1.symm
  rw [h2]
  exact List.getLast_mem hne

/-- The first separator of an inner node strictly exceeds its lower bound
(any root flag). -/
theorem sep_strict2 (a : Nat) (hi : Option Nat) (rt : Bool) (p : Node) (x0 : Nat)
    (xc : Node) (xr : InnerEntries)
    (h : wfB (some a) hi rt (.inner p ((x0, xc) :: xr)) = true) : a < x0 := by
  obtain ⟨h1, _, _, _, _⟩ := (wfB_inner_cons_iff (some a) hi rt p x0 xc xr).mp h
  obtain ⟨q, hq⟩ := List.exists_mem_of_ne_nil _ (flat_ne_nil (some a) (some x0) p h1)
  have := (okB_split _ _ _).mp ((wfB_flat_facts (some a) (some x0) false p h1).2 q hq).1
  simp only [lbOk, ubOk, decide_eq_true_eq] at this
  omega

/-- Two adjacent well-formed inner nodes coalesce (with the separator pulled
down) to a well-formed inner node. -/
theorem inner_merge_wf (lo hi : Option Nat) (m : Nat) (lprev : Node) (les : InnerEntries)
    (cprev : Node) (ces : InnerEntries)
    (hL : wfB lo (some m) true (.inner lprev les) = true)
    (hC : wfB (some m) hi true (.inner cprev ces) = true)
    (hubm : ubOk hi m = true)
    (hlen : MIN_KEYS_INNER_NODE ≤ les.length + ces.length + 1)
    (hlen2 : les.length + ces.length + 1 ≤ FAN_OUT - 1) :
    wfB lo hi false (.inner lprev (les ++ (m, cprev) :: ces)) = true := by
  match les with
  | [] => rw [wfB_inner_nil] at hL; exact absurd hL (by simp)
  | (l0, lc0) :: les2 =>
    obtain ⟨hp, hlb, hcl, _, _⟩ := (wfB_inner_cons_iff lo (some m) true lprev l0 lc0 les2).mp hL
    match ces with
    | [] => rw [wfB_inner_nil] at hC; exact absurd hC (by simp)
    | (x0, xc0) :: ces2 =>
      obtain ⟨hcp, _, hcc, _, _⟩ :=
        (wfB_inner_cons_iff (some m) hi true cprev x0 xc0 ces2).mp hC
      have hmx : m < x0 := sep_strict2 m hi true cprev x0 xc0 ces2 hC
      have hchain2 : wfChain hi m cprev ((x0, xc0) :: ces2) = true :=
        (wfChain_cons_iff _ _ _ _ _ _).mpr ⟨hmx, hcp, hcc⟩
      rw [List.cons_append]
      refine (wfB_inner_cons_iff lo hi false lprev l0 lc0 _).mpr
        ⟨hp, hlb, wfChain_append_intro hi l0 lc0 les2 m cprev _ hcl hchain2, ?_, ?_⟩
      · simp only [List.length_cons, List.length_append] at hlen ⊢
        exact Or.inr (by omega)
      · simp only [List.length_cons, List.length_append] at hlen2 ⊢
        omega

end BPT

namespace BPT

/-! ## The four borrow operations, node-level facts -/

/-- `BorrowFromLeftLeaf`: moving the left sibling's last entry to the
underflowed leaf restores both nodes around the moved key. -/
theorem borrowLeftLeaf_parts (llo chi : Option Nat) (si : Nat) (les ces : LeafEntries)
    (lp : Nat × ValueSet) (hlp : les.getLastD (0, []) = lp)
    (hles : wfB llo (some si) true (.leaf les) = true)
    (hlen6 : MIN_KEYS_LEAF_NODE + 1 ≤ les.length)
    (hces : wfB (some si) chi true (.leaf ces) = true)
    (hclen : ces.length = MIN_KEYS_LEAF_NODE - 1)
    (hubchi : ubOk chi si = true) :
    leafInsertSet lp.1 lp.2 ces = lp :: ces ∧
    wfB llo (some lp.1) false (.leaf les.dropLast) = true ∧
    wfB (some lp.1) chi false (.leaf (lp :: ces)) = true ∧
    lbOk llo lp.1 = true ∧ lp.1 < si ∧
    (∀ a, llo = some a → a < lp.1) ∧
    les.dropLast ++ lp :: ces = les ++ ces := by
  have hne : les ≠ [] := by
    intro h; rw [h] at hlen6; simp [MIN_KEYS_LEAF_NODE] at hlen6
  have hsplit : les.dropLast ++ [lp] = les := by
    rw [← hlp]; exact dropLast_append_getLastD les (0, []) hne
  obtain ⟨hsL, hokL, _, hcl9⟩ := (wfB_leaf_iff llo (some si) true les).mp hles
  have hlpm : lp ∈ les := by rw [← hlp]; exact getLastD_mem les (0, []) hne
  obtain ⟨hlpo, hlpn, hlpd⟩ := hokL lp hlpm
  obtain ⟨hlplb, hlpub⟩ := (okB_split _ _ _).mp hlpo
  have hlpsi : lp.1 < si := by simpa [ubOk] using hlpub
  have hdl : ∀ q ∈ les.dropLast, q.1 < lp.1 := by
    have := sortedP_dropLast_lt les (0, []) hsL hne
    rw [hlp] at this
    exact this
  obtain ⟨hsC, hokC, _, hcc9⟩ := (wfB_leaf_iff (some si) chi true ces).mp hces
  have hcgt : ∀ q ∈ ces, lp.1 < q.1 := by
    intro q hq
    have := ((okB_split _ _ _).mp (hokC q hq).1).1
    simp only [lbOk, decide_eq_true_eq] at this
    omega
  have hins : leafInsertSet lp.1 lp.2 ces = lp :: ces := by
    cases ces with
    | nil => simp [MIN_KEYS_LEAF_NODE] at hclen
    | cons q tl =>
      have hq := hcgt q (by simp)
      rw [leafInsertSet, lowerBoundPos_head_ge lp.1 q tl (by omega)]
      simp only [List.getElem?_cons_zero]
      rw [if_neg (by omega), insertAt_zero]
  refine ⟨hins, ?_, ?_, hlplb, hlpsi, ?_, ?_⟩
  · refine (wfB_leaf_iff llo (some lp.1) false les.dropLast).mpr ⟨?_, ?_, ?_, ?_⟩
    · rw [← hsplit] at hsL
      exact (List.pairwise_append.mp hsL).1
    · intro q hq
      obtain ⟨ho, hn, hd⟩ := hokL q ((List.dropLast_sublist les).subset hq)
      have hub := hdl q hq
      exact ⟨(okB_split _ _ _).mpr ⟨((okB_split _ _ _).mp ho).1, by simp [ubOk]; omega⟩, hn, hd⟩
    · refine Or.inr ?_
      rw [List.length_dropLast]
      omega
    · rw [List.length_dropLast]
      omega
  · refine (wfB_leaf_iff (some lp.1) chi false (lp :: ces)).mpr ⟨?_, ?_, ?_, ?_⟩
    · rw [sortedP, List.pairwise_cons]
      exact ⟨hcgt, hsC⟩
    · intro q hq
      rcases List.mem_cons.mp hq with hql | hq
      · rw [hql]
        exact ⟨(okB_split _ _ _).mpr ⟨by simp [lbOk], ubOk_trans chi si lp.1 hubchi
          (by omega)⟩, hlpn, hlpd⟩
      · obtain ⟨ho, hn, hd⟩ := hokC q hq
        have := hcgt q hq
        exact ⟨(okB_split _ _ _).mpr ⟨by simp [lbOk]; omega,
          ((okB_split _ _ _).mp ho).2⟩, hn, hd⟩
    · exact Or.inr (by simp only [List.length_cons, hclen]; decide)
    · simp only [List.length_cons, hclen]
      decide
  · intro a ha
    cases les with
    | nil => exact absurd rfl hne
    | cons f tl =>
      cases tl with
      | nil => rw [List.length_cons] at hlen6; simp [MIN_KEYS_LEAF_NODE] at hlen6
      | cons g tl2 =>
        have hf : f ∈ (f :: g :: tl2).dropLast := by
          rw [List.dropLast_cons₂]
          simp
        have h1 := hdl f hf
        have h2 := ((okB_split _ _ _).mp (hokL f (by simp)).1).1
        rw [ha] at h2
        simp only [lbOk, decide_eq_true_eq] at h2
        omega
  · rw [show lp :: ces = [lp] ++ ces from rfl, ← List.append_assoc, hsplit]

/-- `BorrowFromRightLeaf`: moving the right sibling's first entry to the
underflowed leaf restores both nodes around the sibling's new first key. -/
theorem borrowRightLeaf_parts (clo nxt : Option Nat) (sR : Nat) (ces res : LeafEntries)
    (rp : Nat × ValueSet) (res2 : LeafEntries) (hres : res = rp :: res2)
    (hces : wfB clo (some sR) true (.leaf ces) = true)
    (hclen : ces.length = MIN_KEYS_LEAF_NODE - 1)
    (hresw : wfB (some sR) nxt true (.leaf res) = true)
    (hlen6 : MIN_KEYS_LEAF_NODE + 1 ≤ res.length)
    (hclo : midOk clo (some sR) = true) :
    leafInsertSet rp.1 rp.2 ces = ces ++ [rp] ∧
    wfB clo (some (leafFirstKey res2)) false (.leaf (ces ++ [rp])) = true ∧
    wfB (some (leafFirstKey res2)) nxt false (.leaf res2) = true ∧
    sR ≤ rp.1 ∧ rp.1 < leafFirstKey res2 ∧ ubOk nxt (leafFirstKey res2) = true ∧
    (ces ++ [rp]) ++ res2 = ces ++ res := by
  obtain ⟨hsR, hokR, _, hcr9⟩ := (wfB_leaf_iff (some sR) nxt true res).mp hresw
  obtain ⟨hsC, hokC, _, hcc9⟩ := (wfB_leaf_iff clo (some sR) true ces).mp hces
  cases res2 with
  | nil =>
    rw [hres] at hlen6
    simp [MIN_KEYS_LEAF_NODE] at hlen6
  | cons q2 rr =>
    have hq2m : q2 ∈ res := by rw [hres]; simp
    have hrpm : rp ∈ res := by rw [hres]; simp
    obtain ⟨hrpo, hrpn, hrpd⟩ := hokR rp hrpm
    obtain ⟨hrplb, hrpub⟩ := (okB_split _ _ _).mp hrpo
    have hsRrp : sR ≤ rp.1 := by simpa [lbOk] using hrplb
    have hfk : leafFirstKey (q2 :: rr) = q2.1 := rfl
    have hrpq2 : rp.1 < q2.1 := by
      rw [hres] at hsR
      exact (List.pairwise_cons.mp hsR).1 q2 (by simp)
    have hceslt : ∀ q ∈ ces, q.1 < rp.1 := by
      intro q hq
      have := ((okB_split _ _ _).mp (hokC q hq).1).2
      simp only [ubOk, decide_eq_true_eq] at this
      omega
    have hins : leafInsertSet rp.1 rp.2 ces = ces ++ [rp] := by
      rw [leafInsertSet, lowerBoundPos_all_lt rp.1 ces hceslt,
        List.getElem?_eq_none (Nat.le_refl _)]
      rw [insertAt_end]
    refine ⟨hins, ?_, ?_, hsRrp, by rw [hfk]; exact hrpq2, ?_, ?_⟩
    · refine (wfB_leaf_iff clo (some (leafFirstKey (q2 :: rr))) false (ces ++ [rp])).mpr
        ⟨?_, ?_, ?_, ?_⟩
      · rw [sortedP, List.pairwise_append]
        refine ⟨hsC, by simp [sortedP], ?_⟩
        intro a ha b hb
        simp only [List.mem_singleton] at hb
        rw [hb]
        exact hceslt a ha
      · intro q hq
        rcases List.mem_append.mp hq with hm | hm
        · obtain ⟨ho, hn, hd⟩ := hokC q hm
          have := hceslt q hm
          refine ⟨(okB_split _ _ _).mpr ⟨((okB_split _ _ _).mp ho).1, ?_⟩, hn, hd⟩
          rw [hfk]
          simp only [ubOk, decide_eq_true_eq]
          omega
        · simp only [List.mem_singleton] at hm
          rw [hm, hfk]
          refine ⟨(okB_split _ _ _).mpr ⟨?_, by simp [ubOk]; omega⟩, hrpn, hrpd⟩
          cases clo with
          | none => rfl
          | some a =>
            simp only [midOk, decide_eq_true_eq] at hclo
            simp only [lbOk, decide_eq_true_eq]
            omega
      · refine Or.inr ?_
        rw [List.length_append, hclen]
        simp [MIN_KEYS_LEAF_NODE]
      · simp only [List.length_append, List.length_cons, List.length_nil, hclen]
        decide
    · refine (wfB_leaf_iff (some (leafFirstKey (q2 :: rr))) nxt false (q2 :: rr)).mpr
        ⟨?_, ?_, ?_, ?_⟩
      · rw [hres] at hsR
        exact sortedP_tail rp (q2 :: rr) hsR
      · intro q hq
        obtain ⟨ho, hn, hd⟩ := hokR q (by rw [hres]; simp [hq])
        refine ⟨(okB_split _ _ _).mpr ⟨?_, ((okB_split _ _ _).mp ho).2⟩, hn, hd⟩
        rw [hfk]
        rcases List.mem_cons.mp hq with rfl | hq2
        · simp [lbOk]
        · have hs2 : sortedP (q2 :: rr) := by
            rw [hres] at hsR
            exact sortedP_tail rp (q2 :: rr) hsR
          have := sorted_tail_gt q2 rr hs2 q hq2
          simp only [lbOk, decide_eq_true_eq]
          omega
      · refine Or.inr ?_
        have : res.length = rr.length + 2 := by rw [hres]; simp
        simp only [List.length_cons]
        omega
      · have : res.length = rr.length + 2 := by rw [hres]; simp
        simp only [List.length_cons]
        omega
    · rw [hfk]
      exact ((okB_split _ _ _).mp (hokR q2 hq2m).1).2
    · rw [hres, List.append_assoc]
      rfl

end BPT

namespace BPT

/-- `BorrowFromLeftInner`: the left sibling's last `(key, child)` moves up,
the parent's separator moves down in front of the underflowed node. -/
theorem borrowLeftInner_parts (llo chi : Option Nat) (si : Nat)
    (lprev : Node) (les : InnerEntries) (cprev : Node) (ces : InnerEntries)
    (lp : Nat × Node) (hlp : les.getLastD (0, .leaf []) = lp)
    (hles : wfB llo (some si) true (.inner lprev les) = true)
    (hlen5 : MIN_PTR_INNER_NODE ≤ les.length)
    (hces : wfB (some si) chi true (.inner cprev ces) = true)
    (hclen : ces.length = MIN_KEYS_INNER_NODE - 1)
    (hubchi : ubOk chi si = true) :
    lowerBoundPos si ces = 0 ∧
    wfB llo (some lp.1) false (.inner lprev les.dropLast) = true ∧
    wfB (some lp.1) chi false (.inner lp.2 ((si, cprev) :: ces)) = true ∧
    lbOk llo lp.1 = true ∧ lp.1 < si ∧
    (∀ a, llo = some a → a < lp.1) ∧
    flat (.inner lprev les.dropLast) ++ flat (.inner lp.2 ((si, cprev) :: ces)) =
      flat (.inner lprev les) ++ flat (.inner cprev ces) := by
  match les with
  | [] => rw [wfB_inner_nil] at hles; exact absurd hles (by simp)
  | (l0, lc0) :: les2 =>
    have hles2ne : les2 ≠ [] := by
      intro h
      rw [h] at hlen5
      simp [MIN_PTR_INNER_NODE] at hlen5
    obtain ⟨hp, hlb, hcl, _, hl9⟩ :=
      (wfB_inner_cons_iff llo (some si) true lprev l0 lc0 les2).mp hles
    have hlp2 : les2.getLast? = some lp := by
      have h1 : ((l0, lc0) :: les2).getLastD (0, .leaf []) = les2.getLastD (l0, lc0) := by
        cases les2 with
        | nil => exact absurd rfl hles2ne
        | cons b l2 => rfl
      have h2 := getLast?_of_getLastD les2 (l0, lc0) hles2ne
      rw [h1] at hlp
      rw [h2, hlp]
    obtain ⟨hcldrop, hlpw, hlpub⟩ :=
      wfChain_dropLast (some si) l0 lc0 les2 lp.1 lp.2 (by rw [hlp2]) hcl
    have hlpsi : lp.1 < si := by simpa [ubOk] using hlpub
    have hl0lp : l0 < lp.1 := by
      have hlpm : lp ∈ les2 := by
        have h1 := getLast?_of_getLastD les2 (l0, lc0) hles2ne
        rw [hlp2] at h1
        have : les2.getLastD (l0, lc0) = lp := by injection h1 with h; exact h.symm
        rw [← this]
        exact getLastD_mem les2 (l0, lc0) hles2ne
      exact (wfChain_sep_mem (some si) l0 lc0 les2 hcl lp hlpm).1
    have hllolp : lbOk llo lp.1 = true := by
      have := lbOk_trans llo l0 lp.1 hlb (by omega)
      exact this
    have hdropcons : ((l0, lc0) :: les2).dropLast = (l0, lc0) :: les2.dropLast := by
      cases les2 with
      | nil => exact absurd rfl hles2ne
      | cons a b => rw [List.dropLast_cons₂]
    match ces with
    | [] => rw [wfB_inner_nil] at hces; exact absurd hces (by simp)
    | (x0, xc0) :: ces2 =>
      obtain ⟨hcp, _, hcc, _, hc9⟩ :=
        (wfB_inner_cons_iff (some si) chi true cprev x0 xc0 ces2).mp hces
      have hsix0 : si < x0 := sep_strict2 si chi true cprev x0 xc0 ces2 hces
      have hsplit2 : les2.dropLast ++ [lp] = les2 := by
        have h1 := getLast?_of_getLastD les2 (l0, lc0) hles2ne
        rw [hlp2] at h1
        have h2 : les2.getLastD (l0, lc0) = lp := by injection h1 with h; exact h.symm
        rw [← h2]
        exact dropLast_append_getLastD les2 (l0, lc0) hles2ne
      refine ⟨?_, ?_, ?_, hllolp, hlpsi, ?_, ?_⟩
      · exact lowerBoundPos_head_ge si (x0, xc0) ces2 (by simp; omega)
      · rw [hdropcons]
        refine (wfB_inner_cons_iff llo (some lp.1) false lprev l0 lc0 les2.dropLast).mpr
          ⟨hp, hlb, hcldrop, ?_, ?_⟩
        · refine Or.inr ?_
          rw [List.length_dropLast]
          simp only [List.length_cons, MIN_PTR_INNER_NODE] at hlen5
          simp only [MIN_KEYS_INNER_NODE]
          omega
        · rw [List.length_dropLast]
          omega
      · refine (wfB_inner_cons_iff (some lp.1) chi false lp.2 si cprev _).mpr
          ⟨hlpw, by simp [lbOk]; omega, (wfChain_cons_iff _ _ _ _ _ _).mpr ⟨hsix0, hcp, hcc⟩,
            ?_, ?_⟩
        · exact Or.inr (by simp only [List.length_cons, hclen]; decide)
        · simp only [List.length_cons, hclen]
          decide
      · intro a ha
        rw [ha] at hlb
        simp only [lbOk, decide_eq_true_eq] at hlb
        omega
      · rw [hdropcons]
        have hfl2 : flatList les2 = flatList les2.dropLast ++ flat lp.2 := by
          conv => lhs; rw [← hsplit2]
          rw [flatList_append, flatList_cons, flatList_nil, List.append_nil]
        simp only [flat_inner, flatList_cons, hfl2]
        simp [List.append_assoc]

/-- `BorrowFromRightInner`: the right sibling's first `(key, child)` moves
up, the parent's separator moves down at the end of the underflowed node. -/
theorem borrowRightInner_parts (clo nxt : Option Nat) (sR : Nat)
    (cprev : Node) (ces : InnerEntries) (rprev : Node) (res : InnerEntries)
    (rp : Nat × Node) (res2 : InnerEntries) (hres : res = rp :: res2)
    (hces : wfB clo (some sR) true (.inner cprev ces) = true)
    (hclen : ces.length = MIN_KEYS_INNER_NODE - 1)
    (hresw : wfB (some sR) nxt true (.inner rprev res) = true)
    (hlen5 : MIN_PTR_INNER_NODE ≤ res.length) :
    lowerBoundPos sR ces = ces.length ∧
    insertAt ces.length (sR, rprev) ces = ces ++ [(sR, rprev)] ∧
    wfB clo (some rp.1) false (.inner cprev (ces ++ [(sR, rprev)])) = true ∧
    wfB (some rp.1) nxt false (.inner rp.2 res2) = true ∧
    sR < rp.1 ∧ ubOk nxt rp.1 = true ∧
    flat (.inner cprev (ces ++ [(sR, rprev)])) ++ flat (.inner rp.2 res2) =
      flat (.inner cprev ces) ++ flat (.inner rprev res) := by
  obtain ⟨rp1, rp2⟩ := rp
  match ces with
  | [] => rw [wfB_inner_nil] at hces; exact absurd hces (by simp)
  | (y0, yc0) :: ces2 =>
    obtain ⟨hyp, hylb, hyc, _, hy9⟩ :=
      (wfB_inner_cons_iff clo (some sR) true cprev y0 yc0 ces2).mp hces
    rw [hres] at hresw
    obtain ⟨hrp, hrlb, hrc, _, hr9⟩ :=
      (wfB_inner_cons_iff (some sR) nxt true rprev rp1 rp2 res2).mp hresw
    have hsRrp : sR < rp1 := sep_strict2 sR nxt true rprev rp1 rp2 res2 hresw
    have hceslt : ∀ p ∈ (y0, yc0) :: ces2, p.1 < sR := by
      intro p hp
      rcases List.mem_cons.mp hp with hpy | hp
      · rw [hpy]
        have := wfChain_ubOk (some sR) y0 yc0 ces2 hyc
        simpa [ubOk] using this
      · have := (wfChain_sep_mem (some sR) y0 yc0 ces2 hyc p hp).2
        simpa [ubOk] using this
    have hubrp : ubOk nxt rp1 = true := wfChain_ubOk nxt rp1 rp2 res2 hrc
    refine ⟨lowerBoundPos_all_lt sR _ hceslt, insertAt_end _ _, ?_, ?_, hsRrp, hubrp, ?_⟩
    · rw [List.cons_append]
      refine (wfB_inner_cons_iff clo (some rp1) false cprev y0 yc0 _).mpr
        ⟨hyp, hylb, ?_, ?_, ?_⟩
      · refine wfChain_append_intro (some rp1) y0 yc0 ces2 sR rprev [] hyc
          ((wfChain_nil_iff _ _ _).mpr ⟨by simp [ubOk]; omega, hrp⟩)
      · refine Or.inr ?_
        simp only [List.length_cons, List.length_append, List.length_nil] at hclen ⊢
        simp only [MIN_KEYS_INNER_NODE] at hclen ⊢
        omega
      · simp only [List.length_cons, List.length_append, List.length_nil] at hclen ⊢
        simp only [MIN_KEYS_INNER_NODE] at hclen
        simp only [FAN_OUT]
        omega
    · match res2 with
      | [] =>
        rw [hres] at hlen5
        simp [MIN_PTR_INNER_NODE] at hlen5
      | (z0, zc0) :: res3 =>
        obtain ⟨hzlt, hzw, hzc⟩ := (wfChain_cons_iff nxt rp1 rp2 z0 zc0 res3).mp hrc
        refine (wfB_inner_cons_iff (some rp1) nxt false rp2 z0 zc0 res3).mpr
          ⟨hzw, by simp [lbOk]; omega, hzc, ?_, ?_⟩
        · refine Or.inr ?_
          rw [hres] at hlen5
          simp only [List.length_cons, MIN_PTR_INNER_NODE] at hlen5
          simp only [List.length_cons, MIN_KEYS_INNER_NODE]
          omega
        · simp only [List.length_cons] at hr9 ⊢
          omega
    · rw [hres]
      simp only [flat_inner, flatList_append, flatList_cons, flatList_nil]
      simp [List.append_assoc]

end BPT

namespace BPT

theorem midOk_of_lbOk (lo : Option Nat) (k : Nat) (h : lbOk lo k = true) :
    midOk lo (some k) = true := by
  cases lo with
  | none => rfl
  | some a => simpa [midOk, lbOk] using h

theorem lbOk_of_midOk (lo : Option Nat) (k : Nat) (h : midOk lo (some k) = true) :
    lbOk lo k = true := by
  cases lo with
  | none => rfl
  | some a => simpa [midOk, lbOk] using h

/-- Head child of a chain against its own slot interval. -/
theorem wfChain_head_parts (hi : Option Nat) (k0 : Nat) (c : Node) (rest : InnerEntries)
    (h : wfChain hi k0 c rest = true) :
    wfB (some k0) (nextBound hi rest) false c = true ∧
      ubOk (nextBound hi rest) k0 = true ∧
      (∀ s1 c1 rest2, rest = (s1, c1) :: rest2 → wfChain hi s1 c1 rest2 = true) := by
  cases rest with
  | nil =>
    obtain ⟨h1, h2⟩ := (wfChain_nil_iff hi k0 c).mp h
    exact ⟨h2, h1, by intro s1 c1 rest2 hcontra; simp at hcontra⟩
  | cons q rest2 =>
    obtain ⟨qk, qc⟩ := q
    obtain ⟨h1, h2, h3⟩ := (wfChain_cons_iff hi k0 c qk qc rest2).mp h
    refine ⟨h2, by simp [nextBound, ubOk]; omega, ?_⟩
    intro s1 c1 rest3 heq
    injection heq with heq1 heq2
    obtain ⟨hq1, hq2⟩ := Prod.mk.injEq .. ▸ heq1
    exact hq1 ▸ hq2 ▸ heq2 ▸ h3

end BPT

namespace BPT

/-- Rebalancing an underflowed leaf at the `prev_ptr_` slot of its parent. -/
theorem balance_prevslot_leaf (lo hi : Option Nat) (ces : LeafEntries) (k0 : Nat)
    (cR : Node) (rest : InnerEntries)
    (hchild : wfB lo (some k0) true (.leaf ces) = true)
    (hclen : ces.length = MIN_KEYS_LEAF_NODE - 1)
    (hlb0 : lbOk lo k0 = true)
    (hch : wfChain hi k0 cR rest = true)
    (hlen : rest.length + 1 ≤ FAN_OUT - 1)
    (hsR : leftSpineLen cR = 1)
    (hurest : ∀ p ∈ rest, unifB p.2 = true ∧ leftSpineLen p.2 = 1) :
    ∃ q1 q2, balanceAt (.leaf ces) ((k0, cR) :: rest) none (.leaf ces) = .inner q1 q2 ∧
      flat q1 ++ flatList q2 = ces ++ flatList ((k0, cR) :: rest) ∧
      rest.length ≤ q2.length ∧ q2.length ≤ rest.length + 1 ∧
      unifB q1 = true ∧ (∀ p ∈ q2, unifB p.2 = true ∧ leftSpineLen p.2 = leftSpineLen q1) ∧
      leftSpineLen q1 = 1 ∧
      ((q2 ≠ [] ∧ wfB lo hi true (.inner q1 q2) = true) ∨
       (q2 = [] ∧ wfB lo hi true q1 = true)) := by
  -- the right sibling is a leaf of the same depth
  obtain ⟨res, rfl⟩ : ∃ res, cR = Node.leaf res := by
    cases cR with
    | leaf res => exact ⟨res, rfl⟩
    | inner p e =>
      rw [leftSpineLen_inner] at hsR
      have := leftSpineLen_pos p
      omega
  have hcne : ces ≠ [] := by
    intro h; rw [h] at hclen; simp [MIN_KEYS_LEAF_NODE] at hclen
  obtain ⟨hfklb, hfkub⟩ := nodeFirstKey_bounds lo (some k0) (.leaf ces) hchild
    (by intro es he; injection he with he; rw [← he]; exact hcne)
  have hfkk0 : nodeFirstKey (.leaf ces) < k0 := by simpa [ubOk] using hfkub
  have hidx : ltePos (nodeFirstKey (.leaf ces)) ((k0, Node.leaf res) :: rest) = -1 :=
    ltePos_head_gt _ _ _ hfkk0
  obtain ⟨hresw, hubnx, htail⟩ := wfChain_head_parts hi k0 (.leaf res) rest hch
  obtain ⟨hsres, hokres, hfres, hcres9⟩ :=
    (wfB_leaf_iff (some k0) (nextBound hi rest) false res).mp hresw
  have hres5 : MIN_KEYS_LEAF_NODE ≤ res.length := by
    rcases hfres with h | h
    · exact absurd h (by simp)
    · exact h
  have hreskeys : ∀ p ∈ res, k0 ≤ p.1 ∧ ubOk (nextBound hi rest) p.1 = true := by
    intro p hp
    obtain ⟨h1, h2⟩ := (okB_split _ _ _).mp (hokres p hp).1
    exact ⟨by simpa [lbOk] using h1, h2⟩
  -- evaluate the dispatch down to the borrow/coalesce decision
  rw [balanceAt]
  try dsimp only
  rw [hidx, balanceLeafAt]
  try dsimp only
  rw [predecessorSlot_neg1]
  try dsimp only
  rw [successorSlot_some (-1) ((k0, Node.leaf res) :: rest).length
    (by simp only [List.length_cons]; omega)]
  try dsimp only [childAt]
  try rw [show ((-1 : Int) + 1).toNat = 0 from rfl]
  try simp only [List.getElem?_cons_zero]
  try dsimp only
  by_cases hbw : leafWillUnderflow res = false
  · -- BorrowFromRightLeaf
    rw [if_pos hbw]
    have hres6 : MIN_KEYS_LEAF_NODE + 1 ≤ res.length := by
      rw [leafWillUnderflow_false_iff res
        (by have h5 : MIN_KEYS_LEAF_NODE = 5 := rfl; omega) hcres9] at hbw
      exact hbw
    obtain ⟨rp, res2, hres⟩ : ∃ rp res2, res = rp :: res2 := by
      cases res with
      | nil => simp [MIN_KEYS_LEAF_NODE] at hres5
      | cons a b => exact ⟨a, b, rfl⟩
    obtain ⟨hins, hwm, hwr2, hsRrp, hrpnew, hubnew, hflm⟩ :=
      borrowRightLeaf_parts lo (nextBound hi rest) k0 ces res rp res2 hres
        (by exact hchild) hclen (wfB_rt_mono _ _ _ hresw) hres6 (midOk_of_lbOk lo k0 hlb0)
    have hhd : res.headD (0, []) = rp := by rw [hres]; rfl
    have htl : res.tail = res2 := by rw [hres]; rfl
    rw [hhd, htl]
    have hrkr : replaceKeyRet rp.1 (leafFirstKey res2) ((k0, Node.leaf res) :: rest) =
        (k0, (leafFirstKey res2, Node.leaf res) :: rest) := by
      have := replaceKeyRet_resolve rp.1 (leafFirstKey res2) [] k0 (Node.leaf res) rest
        (by simp) (by omega)
        (by
          intro p hp
          cases rest with
          | nil => simp at hp
          | cons q r =>
            have hpq : p = q := by simpa using hp.symm
            rw [hpq]
            have h2 := (hreskeys rp (by rw [hres]; simp)).2
            simpa [nextBound, ubOk] using h2)
      simpa using this
    rw [hrkr]
    try dsimp only [setSlot]
    try simp only [List.getElem?_cons_zero]
    try dsimp only
    try rw [List.set_cons_zero]
    rw [hins]
    refine ⟨.leaf (ces ++ [rp]), (leafFirstKey res2, Node.leaf res2) :: rest, rfl, ?_, ?_, ?_,
      unifB_leaf _, ?_, rfl, Or.inl ⟨by simp, ?_⟩⟩
    · simp only [flatList_cons, flat_leaf]
      rw [← List.append_assoc, hflm, hres]
      simp [List.append_assoc]
    · simp
    · simp
    · intro p hp
      rcases List.mem_cons.mp hp with hp1 | hp2
      · rw [hp1]
        exact ⟨unifB_leaf _, rfl⟩
      · have := hurest p hp2
        exact ⟨this.1, by rw [this.2]; rfl⟩
    · refine (wfB_inner_cons_iff lo hi true _ _ _ _).mpr ⟨hwm, ?_, ?_, Or.inl rfl,
        by simpa using hlen⟩
      · have h2 := (hreskeys rp (by rw [hres]; simp)).1
        exact lbOk_trans lo k0 (leafFirstKey res2) hlb0 (by omega)
      · cases rest with
        | nil =>
          exact (wfChain_nil_iff _ _ _).mpr ⟨by simpa [nextBound] using hubnew, hwr2⟩
        | cons q rest2 =>
          obtain ⟨qk, qc⟩ := q
          refine (wfChain_cons_iff _ _ _ _ _ _).mpr ⟨?_, hwr2, htail qk qc rest2 rfl⟩
          simpa [nextBound, ubOk] using hubnew
  · -- CoalesceLeaf (right sibling into the node)
    rw [if_neg hbw]
    have hres_le : res.length ≤ MIN_KEYS_LEAF_NODE := by
      simp only [Bool.not_eq_false] at hbw
      simp only [leafWillUnderflow, decide_eq_true_eq, U64, MIN_KEYS_LEAF_NODE] at hbw
      simp only [MIN_KEYS_LEAF_NODE]
      simp only [FAN_OUT] at hcres9
      omega
    have hrpm : res ≠ [] := by
      intro h; rw [h] at hres5; simp [MIN_KEYS_LEAF_NODE] at hres5
    dsimp only [setSlot]
    have hide : innerDeleteEntry (leafFirstKey res) ((k0, Node.leaf res) :: rest) =
        (k0, rest) := by
      obtain ⟨rp, res2, hres⟩ : ∃ rp res2, res = rp :: res2 := by
        cases res with
        | nil => exact absurd rfl hrpm
        | cons a b => exact ⟨a, b, rfl⟩
      have hfk : leafFirstKey res = rp.1 := by rw [hres]; rfl
      have := innerDeleteEntry_resolve (leafFirstKey res) [] k0 (Node.leaf res) rest
        (by simp) (by rw [hfk]; exact (hreskeys rp (by rw [hres]; simp)).1)
        (by
          intro p hp
          cases rest with
          | nil => simp at hp
          | cons q r =>
            have hpq : p = q := by simpa using hp.symm
            rw [hpq, hfk]
            have h2 := (hreskeys rp (by rw [hres]; simp)).2
            simpa [nextBound, ubOk] using h2)
      simpa using this
    rw [hide]
    have hwm : wfB lo (nextBound hi rest) false (.leaf (ces ++ res)) = true := by
      refine leaf_merge_wf lo (nextBound hi rest) k0 ces res hchild
        (wfB_rt_mono _ _ _ hresw) hubnx (midOk_of_lbOk lo k0 hlb0) ?_ ?_
      · simp only [MIN_KEYS_LEAF_NODE] at *; omega
      · simp only [MIN_KEYS_LEAF_NODE, FAN_OUT] at *; omega
    refine ⟨.leaf (ces ++ res), rest, rfl, ?_, by omega, by omega, unifB_leaf _, ?_, rfl, ?_⟩
    · simp only [flatList_cons, flat_leaf]
      simp [List.append_assoc]
    · intro p hp
      have := hurest p hp
      exact ⟨this.1, by rw [this.2]; rfl⟩
    · cases rest with
      | nil =>
        refine Or.inr ⟨rfl, wfB_rt_mono _ _ _ ?_⟩
        simpa [nextBound] using hwm
      | cons q rest2 =>
        obtain ⟨qk, qc⟩ := q
        refine Or.inl ⟨by simp, ?_⟩
        refine (wfB_inner_cons_iff lo hi true _ _ _ _).mpr
          ⟨by simpa [nextBound] using hwm, ?_, htail qk qc rest2 rfl, Or.inl rfl, ?_⟩
        · have := wfChain_ubOk hi k0 (Node.leaf res) ((qk, qc) :: rest2) hch
          have h2 : k0 < qk := by
            have := (wfChain_cons_iff hi k0 (Node.leaf res) qk qc rest2).mp hch
            exact this.1
          exact lbOk_trans lo k0 qk hlb0 (by omega)
        · simp only [List.length_cons] at hlen ⊢
          omega
end BPT

namespace BPT

/-- Rebalancing an underflowed inner node at the `prev_ptr_` slot of its
parent. -/
theorem balance_prevslot_inner (lo hi : Option Nat) (cprev : Node) (ces : InnerEntries)
    (k0 : Nat) (cR : Node) (rest : InnerEntries)
    (hchild : wfB lo (some k0) true (.inner cprev ces) = true)
    (hclen : ces.length = MIN_KEYS_INNER_NODE - 1)
    (hlb0 : lbOk lo k0 = true)
    (hch : wfChain hi k0 cR rest = true)
    (hlen : rest.length + 1 ≤ FAN_OUT - 1)
    (hu2 : unifB (.inner cprev ces) = true)
    (huR : unifB cR = true)
    (hsR : leftSpineLen cR = leftSpineLen (.inner cprev ces))
    (hurest : ∀ p ∈ rest, unifB p.2 = true ∧
      leftSpineLen p.2 = leftSpineLen (.inner cprev ces)) :
    ∃ q1 q2, balanceAt (.inner cprev ces) ((k0, cR) :: rest) none (.inner cprev ces) =
        .inner q1 q2 ∧
      flat q1 ++ flatList q2 = flat (.inner cprev ces) ++ flatList ((k0, cR) :: rest) ∧
      rest.length ≤ q2.length ∧ q2.length ≤ rest.length + 1 ∧
      unifB q1 = true ∧ (∀ p ∈ q2, unifB p.2 = true ∧ leftSpineLen p.2 = leftSpineLen q1) ∧
      leftSpineLen q1 = leftSpineLen (.inner cprev ces) ∧
      ((q2 ≠ [] ∧ wfB lo hi true (.inner q1 q2) = true) ∨
       (q2 = [] ∧ wfB lo hi true q1 = true)) := by
  obtain ⟨rprev, res, rfl⟩ : ∃ rprev res, cR = Node.inner rprev res := by
    cases cR with
    | leaf r =>
      rw [leftSpineLen, leftSpineLen_inner] at hsR
      have := leftSpineLen_pos cprev
      omega
    | inner p e => exact ⟨p, e, rfl⟩
  obtain ⟨hfklb, hfkub⟩ := nodeFirstKey_bounds lo (some k0) (.inner cprev ces) hchild
    (by intro es he; simp at he)
  have hfkk0 : nodeFirstKey (.inner cprev ces) < k0 := by simpa [ubOk] using hfkub
  have hidx : ltePos (nodeFirstKey (.inner cprev ces))
      ((k0, Node.inner rprev res) :: rest) = -1 := ltePos_head_gt _ _ _ hfkk0
  obtain ⟨hresw, hubnx, htail⟩ := wfChain_head_parts hi k0 (.inner rprev res) rest hch
  obtain ⟨hup, huces⟩ := (unifB_inner_iff cprev ces).mp hu2
  obtain ⟨hurp, hures⟩ := (unifB_inner_iff rprev res).mp huR
  have hsprev : leftSpineLen rprev = leftSpineLen cprev := by
    rw [leftSpineLen_inner, leftSpineLen_inner] at hsR
    omega
  -- the chain facts of the right sibling
  match res with
  | [] => rw [wfB_inner_nil] at hresw; exact absurd hresw (by simp)
  | (rp1, rp2) :: res2 =>
  obtain ⟨hrp, hrlb, hrc, hrfl, hr9⟩ :=
    (wfB_inner_cons_iff (some k0) (nextBound hi rest) false rprev rp1 rp2 res2).mp hresw
  have hk0rp1 : k0 < rp1 := sep_strict2 k0 (nextBound hi rest) false rprev rp1 rp2 res2 hresw
  have hubrp1 : ubOk (nextBound hi rest) rp1 = true := wfChain_ubOk _ rp1 rp2 res2 hrc
  have hres5' : MIN_KEYS_INNER_NODE ≤ res2.length + 1 := by
    rcases hrfl with h | h
    · exact absurd h (by simp)
    · simpa using h
  have hBhead : ∀ p : Nat × Node, rest.head? = some p → rp1 < p.1 := by
    intro p hp
    cases rest with
    | nil => simp at hp
    | cons q r =>
      have hpq : p = q := by simpa using hp.symm
      rw [hpq]
      simpa [nextBound, ubOk] using hubrp1
  -- evaluate the dispatch
  rw [balanceAt]
  try dsimp only
  rw [hidx, balanceInnerAt]
  try dsimp only
  rw [predecessorSlot_neg1]
  try dsimp only
  rw [successorSlot_some (-1) ((k0, Node.inner rprev ((rp1, rp2) :: res2)) :: rest).length
    (by simp only [List.length_cons]; omega)]
  try dsimp only [childAt]
  try rw [show ((-1 : Int) + 1).toNat = 0 from rfl]
  try simp only [List.getElem?_cons_zero]
  try dsimp only
  by_cases hbw : innerWillUnderflow ((rp1, rp2) :: res2) = false
  · -- BorrowFromRightInner
    rw [if_pos hbw]
    have hres5 : MIN_PTR_INNER_NODE ≤ ((rp1, rp2) :: res2).length :=
      (innerWillUnderflow_false_iff _).mp hbw
    obtain ⟨hlbp, hinsq, hwn2, hwr2, hsRrp, hubrp, hflm⟩ :=
      borrowRightInner_parts lo (nextBound hi rest) k0 cprev ces rprev
        ((rp1, rp2) :: res2) (rp1, rp2) res2 rfl hchild hclen
        (wfB_rt_mono _ _ _ hresw) hres5
    have hrkr : replaceKeyRet rp1 rp1 ((k0, Node.inner rprev ((rp1, rp2) :: res2)) :: rest) =
        (k0, (rp1, Node.inner rprev ((rp1, rp2) :: res2)) :: rest) := by
      have := replaceKeyRet_resolve rp1 rp1 [] k0 (Node.inner rprev ((rp1, rp2) :: res2))
        rest (by simp) (by omega) hBhead
      simpa using this
    try dsimp only
    try simp only [List.headD_cons, List.tail_cons]
    try dsimp only
    rw [hrkr]
    try dsimp only
    rw [hlbp, hinsq]
    try dsimp only [setSlot]
    try simp only [List.getElem?_cons_zero]
    try dsimp only
    try rw [List.set_cons_zero]
    refine ⟨.inner cprev (ces ++ [(k0, rprev)]), (rp1, .inner rp2 res2) :: rest, rfl, ?_, ?_,
      ?_, ?_, ?_, ?_, Or.inl ⟨by simp, ?_⟩⟩
    · simp only [flatList_cons]
      rw [← List.append_assoc, hflm]
      simp [List.append_assoc]
    · simp
    · simp
    · rw [unifB_inner_iff]
      refine ⟨hup, ?_⟩
      intro p hp
      rcases List.mem_append.mp hp with hm | hm
      · exact huces p hm
      · simp only [List.mem_singleton] at hm
        rw [hm]
        exact ⟨hurp, hsprev⟩
    · intro p hp
      rcases List.mem_cons.mp hp with hm | hm
      · rw [hm]
        have h2 := (hures (rp1, rp2) (by simp)).2
        simp only at h2
        constructor
        · rw [unifB_inner_iff]
          refine ⟨(hures (rp1, rp2) (by simp)).1, ?_⟩
          intro q hq
          have h1 := hures q (by simp [hq])
          exact ⟨h1.1, by rw [h1.2, h2]⟩
        · rw [leftSpineLen_inner, leftSpineLen_inner, h2, hsprev]
      · have := hurest p hm
        rw [this.2]
        exact ⟨this.1, by rw [leftSpineLen_inner, leftSpineLen_inner]⟩
    · rw [leftSpineLen_inner, leftSpineLen_inner]
    · refine (wfB_inner_cons_iff lo hi true _ _ _ _).mpr ⟨hwn2, ?_, ?_, Or.inl rfl,
        by simpa using hlen⟩
      · exact lbOk_trans lo k0 rp1 hlb0 (by omega)
      · cases rest with
        | nil =>
          exact (wfChain_nil_iff _ _ _).mpr ⟨by simpa [nextBound] using hubrp, hwr2⟩
        | cons q rest2 =>
          obtain ⟨qk, qc⟩ := q
          refine (wfChain_cons_iff _ _ _ _ _ _).mpr ⟨?_, hwr2, htail qk qc rest2 rfl⟩
          simpa [nextBound, ubOk] using hubrp
  · -- CoalesceInner (right sibling into the node)
    rw [if_neg hbw]
    have hres4 : res2.length + 1 ≤ MIN_KEYS_INNER_NODE := by
      simp only [Bool.not_eq_false] at hbw
      simp only [innerWillUnderflow, decide_eq_true_eq, List.length_cons,
        MIN_PTR_INNER_NODE] at hbw
      simp only [MIN_KEYS_INNER_NODE]
      omega
    have hceslt : ∀ p ∈ ces, p.1 < k0 := by
      intro p hp
      match ces, hchild with
      | (y0, yc0) :: ces2, hchild =>
        obtain ⟨_, _, hyc, _, _⟩ :=
          (wfB_inner_cons_iff lo (some k0) true cprev y0 yc0 ces2).mp hchild
        rcases List.mem_cons.mp hp with hm | hm
        · rw [hm]
          have := wfChain_ubOk (some k0) y0 yc0 ces2 hyc
          simpa [ubOk] using this
        · have := (wfChain_sep_mem (some k0) y0 yc0 ces2 hyc p hm).2
          simpa [ubOk] using this
    have hfkr : innerFirstKey ((rp1, rp2) :: res2) = rp1 := rfl
    have hide : innerDeleteEntry rp1 ((k0, Node.inner rprev ((rp1, rp2) :: res2)) :: rest) =
        (k0, rest) := by
      have := innerDeleteEntry_resolve rp1 [] k0 (Node.inner rprev ((rp1, rp2) :: res2))
        rest (by simp) (by omega) hBhead
      simpa using this
    try dsimp only
    rw [hfkr, hide]
    try dsimp only
    rw [lowerBoundPos_all_lt k0 ces hceslt, insertAt_end]
    try dsimp only [setSlot]
    try dsimp only
    try rw [hide]
    have hwm : wfB lo (nextBound hi rest) false
        (.inner cprev (ces ++ (k0, rprev) :: ((rp1, rp2) :: res2))) = true := by
      refine inner_merge_wf lo (nextBound hi rest) k0 cprev ces rprev ((rp1, rp2) :: res2)
        hchild (wfB_rt_mono _ _ _ hresw) hubnx ?_ ?_
      · simp only [List.length_cons, hclen, MIN_KEYS_INNER_NODE]
        omega
      · simp only [List.length_cons, hclen, MIN_KEYS_INNER_NODE, FAN_OUT] at hres4 ⊢
        omega
    have hunm : unifB (.inner cprev (ces ++ (k0, rprev) :: ((rp1, rp2) :: res2))) = true := by
      rw [unifB_inner_iff]
      refine ⟨hup, ?_⟩
      intro p hp
      rcases List.mem_append.mp hp with hm | hm
      · exact huces p hm
      · rcases List.mem_cons.mp hm with hm2 | hm2
        · rw [hm2]
          exact ⟨hurp, hsprev⟩
        · have h1 := hures p hm2
          exact ⟨h1.1, by rw [h1.2, hsprev]⟩
    rw [show (ces ++ [(k0, rprev)]) ++ (rp1, rp2) :: res2 =
      ces ++ (k0, rprev) :: ((rp1, rp2) :: res2) by simp]
    refine ⟨.inner cprev (ces ++ (k0, rprev) :: ((rp1, rp2) :: res2)), rest, rfl, ?_,
      by omega, by omega, hunm, ?_, by rw [leftSpineLen_inner, leftSpineLen_inner], ?_⟩
    · simp only [flat_inner, flatList_cons, flatList_append, flatList_nil]
      simp [List.append_assoc]
    · intro p hp
      have := hurest p hp
      rw [this.2]
      exact ⟨this.1, by rw [leftSpineLen_inner, leftSpineLen_inner]⟩
    · cases rest with
      | nil =>
        refine Or.inr ⟨rfl, wfB_rt_mono _ _ _ ?_⟩
        simpa [nextBound] using hwm
      | cons q rest2 =>
        obtain ⟨qk, qc⟩ := q
        refine Or.inl ⟨by simp, ?_⟩
        refine (wfB_inner_cons_iff lo hi true _ _ _ _).mpr
          ⟨by simpa [nextBound] using hwm, ?_, htail qk qc rest2 rfl, Or.inl rfl, ?_⟩
        · have h2 : k0 < qk :=
            ((wfChain_cons_iff hi k0 (Node.inner rprev ((rp1, rp2) :: res2)) qk qc
              rest2).mp hch).1
          exact lbOk_trans lo k0 qk hlb0 (by omega)
        · simp only [List.length_cons] at hlen ⊢
          omega

end BPT

namespace BPT

/-- Replacing the head child (and its separator) of a chain tail. -/
theorem wfChain_replace_head (hi : Option Nat) (s0 m : Nat) (c c' : Node)
    (B : InnerEntries)
    (hchB : wfChain hi s0 c B = true)
    (hm : ubOk (nextBound hi B) m = true)
    (hw : wfB (some m) (nextBound hi B) false c' = true) :
    wfChain hi m c' B = true := by
  cases B with
  | nil =>
    exact (wfChain_nil_iff _ _ _).mpr ⟨by simpa [nextBound] using hm,
      by simpa [nextBound] using hw⟩
  | cons q B2 =>
    obtain ⟨qk, qc⟩ := q
    obtain ⟨_, _, h3⟩ := (wfChain_cons_iff hi s0 c qk qc B2).mp hchB
    refine (wfChain_cons_iff _ _ _ _ _ _).mpr ⟨?_, by simpa [nextBound] using hw, h3⟩
    simpa [nextBound, ubOk] using hm

end BPT

namespace BPT

/-- Rebalancing an underflowed leaf at the first entry slot of its parent
(the left sibling is the `prev_ptr_` child). -/
theorem balance_chain0_leaf (lo hi : Option Nat) (prev : Node) (si : Nat)
    (ces : LeafEntries) (B : InnerEntries) (ci : Node)
    (hprev : wfB lo (some si) false prev = true)
    (hmid : midOk lo (some si) = true)
    (hchild : wfB (some si) (nextBound hi B) true (.leaf ces) = true)
    (hclen : ces.length = MIN_KEYS_LEAF_NODE - 1)
    (hchB : wfChain hi si ci B = true)
    (hlen : B.length + 1 ≤ FAN_OUT - 1)
    (hsprev : leftSpineLen prev = 1)
    (huB : ∀ p ∈ B, unifB p.2 = true ∧ leftSpineLen p.2 = 1) :
    ∃ q1 q2, balanceAt prev ((si, .leaf ces) :: B) (some 0) (.leaf ces) = .inner q1 q2 ∧
      flat q1 ++ flatList q2 = flat prev ++ flatList ((si, Node.leaf ces) :: B) ∧
      B.length ≤ q2.length ∧ q2.length ≤ B.length + 1 ∧
      unifB q1 = true ∧ (∀ p ∈ q2, unifB p.2 = true ∧ leftSpineLen p.2 = 1) ∧
      leftSpineLen q1 = 1 ∧
      ((q2 ≠ [] ∧ wfB lo hi true (.inner q1 q2) = true) ∨
       (q2 = [] ∧ wfB lo hi true q1 = true)) := by
  obtain ⟨les, rfl⟩ : ∃ les, prev = Node.leaf les := by
    cases prev with
    | leaf les => exact ⟨les, rfl⟩
    | inner p e =>
      rw [leftSpineLen_inner] at hsprev
      have := leftSpineLen_pos p
      omega
  have hcne : ces ≠ [] := by
    intro h; rw [h] at hclen; simp [MIN_KEYS_LEAF_NODE] at hclen
  obtain ⟨hfklb, hfkub⟩ := nodeFirstKey_bounds (some si) (nextBound hi B) (.leaf ces) hchild
    (by intro es he; injection he with he; rw [← he]; exact hcne)
  have hsifk : si ≤ nodeFirstKey (.leaf ces) := by simpa [lbOk] using hfklb
  have hubsi : ubOk (nextBound hi B) si = true := by
    cases B with
    | nil => simpa [nextBound] using wfChain_ubOk hi si ci [] hchB
    | cons q B2 =>
      have := ((wfChain_cons_iff hi si ci q.1 q.2 B2).mp (by
        obtain ⟨qk, qc⟩ := q; exact hchB)).1
      simpa [nextBound, ubOk] using this
  have hBhead : ∀ p : Nat × Node, B.head? = some p → nodeFirstKey (.leaf ces) < p.1 := by
    intro p hp
    cases B with
    | nil => simp at hp
    | cons q B2 =>
      have hpq : p = q := by simpa using hp.symm
      rw [hpq]
      simpa [nextBound, ubOk] using hfkub
  have hidx : ltePos (nodeFirstKey (.leaf ces)) ((si, Node.leaf ces) :: B) = (0 : Int) := by
    have := ltePos_resolve (nodeFirstKey (.leaf ces)) [] si (Node.leaf ces) B
      (by simp) hsifk hBhead
    simpa using this
  obtain ⟨hsL, hokL, hfL, hl9⟩ := (wfB_leaf_iff lo (some si) false les).mp hprev
  have hles5 : MIN_KEYS_LEAF_NODE ≤ les.length := by
    rcases hfL with h | h
    · exact absurd h (by simp)
    · exact h
  -- evaluate down to the branch decision
  rw [balanceAt]
  try dsimp only
  rw [hidx, balanceLeafAt]
  try dsimp only
  rw [predecessorSlot_zero]
  try dsimp only [childAt]
  try dsimp only
  by_cases hbw : leafWillUnderflow les = false
  · -- BorrowFromLeftLeaf
    rw [if_pos hbw]
    have hles6 : MIN_KEYS_LEAF_NODE + 1 ≤ les.length := by
      rw [leafWillUnderflow_false_iff les
        (by have h5 : MIN_KEYS_LEAF_NODE = 5 := rfl; omega) hl9] at hbw
      exact hbw
    obtain ⟨hins, hwdl, hwm, hlblp, hlpsi, hstrict, hflm⟩ :=
      borrowLeftLeaf_parts lo (nextBound hi B) si les ces (les.getLastD (0, [])) rfl
        (wfB_rt_mono _ _ _ hprev) hles6 hchild hclen hubsi
    have hrkr : replaceKeyRet (nodeFirstKey (.leaf ces)) (les.getLastD (0, [])).1
        ((si, Node.leaf ces) :: B) =
        (si, ((les.getLastD (0, [])).1, Node.leaf ces) :: B) := by
      have := replaceKeyRet_resolve (nodeFirstKey (.leaf ces)) (les.getLastD (0, [])).1
        [] si (Node.leaf ces) B (by simp) hsifk hBhead
      simpa using this
    rw [hrkr]
    try dsimp only [setSlot]
    try simp only [List.getElem?_cons_zero]
    try dsimp only
    try rw [List.set_cons_zero]
    rw [hins]
    refine ⟨.leaf les.dropLast,
      ((les.getLastD (0, [])).1, .leaf (les.getLastD (0, []) :: ces)) :: B, rfl, ?_,
      by simp, by simp, unifB_leaf _, ?_, rfl, Or.inl ⟨by simp, ?_⟩⟩
    · simp only [flatList_cons, flat_leaf]
      rw [← List.append_assoc, hflm]
      simp [List.append_assoc]
    · intro p hp
      rcases List.mem_cons.mp hp with hm | hm
      · rw [hm]
        exact ⟨unifB_leaf _, rfl⟩
      · exact huB p hm
    · refine (wfB_inner_cons_iff lo hi true _ _ _ _).mpr ⟨hwdl, hlblp, ?_, Or.inl rfl,
        by simpa using hlen⟩
      refine wfChain_replace_head hi si (les.getLastD (0, [])).1 ci
        (.leaf (les.getLastD (0, []) :: ces)) B hchB ?_ hwm
      exact ubOk_trans _ si _ hubsi (by omega)
  · -- the left sibling cannot lend: coalesce, or borrow from the right
    rw [if_neg hbw]
    have hles_eq : les.length = MIN_KEYS_LEAF_NODE := by
      simp only [Bool.not_eq_false] at hbw
      simp only [leafWillUnderflow, decide_eq_true_eq, U64, MIN_KEYS_LEAF_NODE] at hbw hles5 ⊢
      simp only [FAN_OUT] at hl9
      omega
    have hwm : wfB lo (nextBound hi B) false (.leaf (les ++ ces)) = true := by
      refine leaf_merge_wf lo (nextBound hi B) si les ces (wfB_rt_mono _ _ _ hprev)
        hchild hubsi hmid ?_ ?_
      · simp only [MIN_KEYS_LEAF_NODE] at *; omega
      · simp only [MIN_KEYS_LEAF_NODE, FAN_OUT] at *; omega
    have hide : innerDeleteEntry (nodeFirstKey (.leaf ces)) ((si, Node.leaf ces) :: B) =
        (si, B) := by
      have := innerDeleteEntry_resolve (nodeFirstKey (.leaf ces)) [] si (Node.leaf ces) B
        (by simp) hsifk hBhead
      simpa using this
    cases B with
    | nil =>
      -- no right sibling: coalesce into the prev child, the parent empties
      rw [successorSlot_none 0 ((si, Node.leaf ces) :: []).length (by simp)]
      try dsimp only [setSlot]
      try dsimp only
      rw [hide]
      refine ⟨.leaf (les ++ ces), [], rfl, ?_, by simp, by simp, unifB_leaf _, by simp,
        rfl, Or.inr ⟨rfl, wfB_rt_mono _ _ _ (by simpa [nextBound] using hwm)⟩⟩
      simp [flatList_cons, flatList_nil, flat_leaf]
    | cons q B2 =>
      obtain ⟨sR, cR⟩ := q
      obtain ⟨hsisR, hciw, hcw⟩ := (wfChain_cons_iff hi si ci sR cR B2).mp hchB
      obtain ⟨res, rfl⟩ : ∃ res, cR = Node.leaf res := by
        cases cR with
        | leaf res => exact ⟨res, rfl⟩
        | inner p e =>
          have := (huB (sR, .inner p e) (by simp)).2
          rw [leftSpineLen_inner] at this
          have h2 := leftSpineLen_pos p
          simp at this
          omega
      rw [successorSlot_some 0 ((si, Node.leaf ces) :: (sR, Node.leaf res) :: B2).length
        (by simp only [List.length_cons]; omega)]
      try dsimp only [childAt]
      try rw [show ((0 : Int) + 1).toNat = 1 from rfl]
      try simp only [List.getElem?_cons_succ, List.getElem?_cons_zero]
      try dsimp only
      obtain ⟨hresw, hubnx2, htail2⟩ := wfChain_head_parts hi sR (.leaf res) B2 hcw
      obtain ⟨hsres, hokres, hfres, hcres9⟩ :=
        (wfB_leaf_iff (some sR) (nextBound hi B2) false res).mp hresw
      have hres5 : MIN_KEYS_LEAF_NODE ≤ res.length := by
        rcases hfres with h | h
        · exact absurd h (by simp)
        · exact h
      by_cases hbwr : leafWillUnderflow res = false
      · -- BorrowFromRightLeaf
        rw [if_pos hbwr]
        have hres6 : MIN_KEYS_LEAF_NODE + 1 ≤ res.length := by
          rw [leafWillUnderflow_false_iff res
            (by have h5 : MIN_KEYS_LEAF_NODE = 5 := rfl; omega) hcres9] at hbwr
          exact hbwr
        obtain ⟨rp, res2, hres⟩ : ∃ rp res2, res = rp :: res2 := by
          cases res with
          | nil => simp [MIN_KEYS_LEAF_NODE] at hres5
          | cons a b => exact ⟨a, b, rfl⟩
        obtain ⟨hins, hwm2, hwr2, hsRrp, hrpnew, hubnew, hflm⟩ :=
          borrowRightLeaf_parts (some si) (nextBound hi B2) sR ces res rp res2 hres
            (by simpa [nextBound] using hchild) hclen (wfB_rt_mono _ _ _ hresw) hres6
            (by simp [midOk]; omega)
        have hhd : res.headD (0, []) = rp := by rw [hres]; rfl
        have htl : res.tail = res2 := by rw [hres]; rfl
        rw [hhd, htl]
        have hreskeys : sR ≤ rp.1 := hsRrp
        have hrkr : replaceKeyRet rp.1 (leafFirstKey res2)
            ((si, Node.leaf ces) :: (sR, Node.leaf res) :: B2) =
            (sR, (si, Node.leaf ces) :: (leafFirstKey res2, Node.leaf res) :: B2) := by
          have := replaceKeyRet_resolve rp.1 (leafFirstKey res2) [(si, Node.leaf ces)]
            sR (Node.leaf res) B2
            (by
              intro p hp
              simp only [List.mem_singleton] at hp
              rw [hp]
              omega)
            hreskeys
            (by
              intro p hp
              cases B2 with
              | nil => simp at hp
              | cons w B3 =>
                have hpw : p = w := by simpa using hp.symm
                rw [hpw]
                have h2 := (hokres rp (by rw [hres]; simp)).1
                have h3 := ((okB_split _ _ _).mp h2).2
                simpa [nextBound, ubOk] using h3)
          simpa using this
        rw [hrkr]
        try dsimp only [setSlot]
        try simp only [List.getElem?_cons_succ, List.getElem?_cons_zero]
        try dsimp only
        try rw [List.set_cons_succ, List.set_cons_zero]
        try simp only [List.getElem?_cons_zero]
        try dsimp only
        try rw [List.set_cons_zero]
        rw [hins]
        refine ⟨.leaf les,
          (si, .leaf (ces ++ [rp])) :: (leafFirstKey res2, .leaf res2) :: B2, rfl, ?_,
          by simp, by simp, unifB_leaf _, ?_, rfl, Or.inl ⟨by simp, ?_⟩⟩
        · simp only [flatList_cons, flat_leaf]
          have hstep : (ces ++ [rp]) ++ (res2 ++ flatList B2) =
              ces ++ (res ++ flatList B2) := by
            rw [← List.append_assoc, hflm, List.append_assoc]
          rw [hstep, hres]
        · intro p hp
          rcases List.mem_cons.mp hp with hm | hm
          · rw [hm]; exact ⟨unifB_leaf _, rfl⟩
          · rcases List.mem_cons.mp hm with hm2 | hm2
            · rw [hm2]; exact ⟨unifB_leaf _, rfl⟩
            · exact huB p (by simp [hm2])
        · refine (wfB_inner_cons_iff lo hi true _ _ _ _).mpr
            ⟨by simpa [nextBound] using hprev, lbOk_of_midOk lo si hmid, ?_,
              Or.inl rfl, by simpa using hlen⟩
          refine (wfChain_cons_iff _ _ _ _ _ _).mpr ⟨by omega, by simpa [nextBound] using hwm2,
            ?_⟩
          exact wfChain_replace_head hi sR (leafFirstKey res2) (.leaf res)
            (.leaf res2) B2 hcw hubnew hwr2
      · -- CoalesceLeaf into the prev child
        rw [if_neg hbwr]
        try dsimp only [setSlot]
        try dsimp only
        rw [hide]
        refine ⟨.leaf (les ++ ces), (sR, Node.leaf res) :: B2, rfl, ?_, by simp, by simp,
          unifB_leaf _, ?_, rfl, Or.inl ⟨by simp, ?_⟩⟩
        · simp only [flatList_cons, flat_leaf]
          simp [List.append_assoc]
        · intro p hp
          rcases List.mem_cons.mp hp with hm | hm
          · rw [hm]; exact ⟨unifB_leaf _, rfl⟩
          · exact huB p (by simp [hm])
        · have hlosi : lbOk lo si = true := by
            cases lo with
            | none => rfl
            | some a => simpa [midOk, lbOk] using hmid
          refine (wfB_inner_cons_iff lo hi true _ _ _ _).mpr
            ⟨by simpa [nextBound] using hwm, lbOk_trans lo si sR hlosi (by omega), hcw,
              Or.inl rfl, ?_⟩
          simp only [List.length_cons] at hlen ⊢
          omega

end BPT

namespace BPT

/-- Rebalancing an underflowed inner node at the first entry slot of its
parent (the left sibling is the `prev_ptr_` child). -/
theorem balance_chain0_inner (lo hi : Option Nat) (prev : Node) (si : Nat)
    (cprev : Node) (ces : InnerEntries) (B : InnerEntries) (ci : Node)
    (hprev : wfB lo (some si) false prev = true)
    (hmid : midOk lo (some si) = true)
    (hchild : wfB (some si) (nextBound hi B) true (.inner cprev ces) = true)
    (hclen : ces.length = MIN_KEYS_INNER_NODE - 1)
    (hchB : wfChain hi si ci B = true)
    (hlen : B.length + 1 ≤ FAN_OUT - 1)
    (huprev : unifB prev = true)
    (hsprev : leftSpineLen prev = leftSpineLen (.inner cprev ces))
    (huchild : unifB (.inner cprev ces) = true)
    (huB : ∀ p ∈ B, unifB p.2 = true ∧ leftSpineLen p.2 = leftSpineLen (.inner cprev ces)) :
    ∃ q1 q2, balanceAt prev ((si, .inner cprev ces) :: B) (some 0) (.inner cprev ces) =
        .inner q1 q2 ∧
      flat q1 ++ flatList q2 = flat prev ++ flatList ((si, Node.inner cprev ces) :: B) ∧
      B.length ≤ q2.length ∧ q2.length ≤ B.length + 1 ∧
      unifB q1 = true ∧
      (∀ p ∈ q2, unifB p.2 = true ∧ leftSpineLen p.2 = leftSpineLen (.inner cprev ces)) ∧
      leftSpineLen q1 = leftSpineLen (.inner cprev ces) ∧
      ((q2 ≠ [] ∧ wfB lo hi true (.inner q1 q2) = true) ∨
       (q2 = [] ∧ wfB lo hi true q1 = true)) := by
  obtain ⟨lprev, les, rfl⟩ : ∃ lprev les, prev = Node.inner lprev les := by
    cases prev with
    | leaf l =>
      rw [leftSpineLen, leftSpineLen_inner] at hsprev
      have := leftSpineLen_pos cprev
      omega
    | inner p e => exact ⟨p, e, rfl⟩
  obtain ⟨hfklb, hfkub⟩ := nodeFirstKey_bounds (some si) (nextBound hi B)
    (.inner cprev ces) hchild (by intro es he; simp at he)
  have hsifk : si ≤ nodeFirstKey (.inner cprev ces) := by simpa [lbOk] using hfklb
  have hubsi : ubOk (nextBound hi B) si = true := by
    cases B with
    | nil => simpa [nextBound] using wfChain_ubOk hi si ci [] hchB
    | cons q B2 =>
      have := ((wfChain_cons_iff hi si ci q.1 q.2 B2).mp (by
        obtain ⟨qk, qc⟩ := q; exact hchB)).1
      simpa [nextBound, ubOk] using this
  have hBhead : ∀ p : Nat × Node, B.head? = some p →
      nodeFirstKey (.inner cprev ces) < p.1 := by
    intro p hp
    cases B with
    | nil => simp at hp
    | cons q B2 =>
      have hpq : p = q := by simpa using hp.symm
      rw [hpq]
      simpa [nextBound, ubOk] using hfkub
  have hidx : ltePos (nodeFirstKey (.inner cprev ces))
      ((si, Node.inner cprev ces) :: B) = (0 : Int) := by
    have := ltePos_resolve (nodeFirstKey (.inner cprev ces)) [] si (Node.inner cprev ces) B
      (by simp) hsifk hBhead
    simpa using this
  obtain ⟨hulp, hules⟩ := (unifB_inner_iff lprev les).mp huprev
  obtain ⟨hucp, huces⟩ := (unifB_inner_iff cprev ces).mp huchild
  have hslcp : leftSpineLen lprev = leftSpineLen cprev := by
    rw [leftSpineLen_inner, leftSpineLen_inner] at hsprev
    omega
  have hl9 : les.length ≤ FAN_OUT - 1 ∧ MIN_KEYS_INNER_NODE ≤ les.length := by
    match les, hprev with
    | [], hprev => rw [wfB_inner_nil] at hprev; exact absurd hprev (by simp)
    | (l0, lc0) :: les2, hprev =>
      obtain ⟨_, _, _, hocc, hlen9⟩ :=
        (wfB_inner_cons_iff lo (some si) false lprev l0 lc0 les2).mp hprev
      refine ⟨by simpa using hlen9, ?_⟩
      rcases hocc with h | h
      · exact absurd h (by simp)
      · simpa using h
  -- evaluate down to the branch decision
  rw [balanceAt]
  try dsimp only
  rw [hidx, balanceInnerAt]
  try dsimp only
  rw [predecessorSlot_zero]
  try dsimp only [childAt]
  try dsimp only
  by_cases hbw : innerWillUnderflow les = false
  · -- BorrowFromLeftInner
    rw [if_pos hbw]
    have hles5 : MIN_PTR_INNER_NODE ≤ les.length := (innerWillUnderflow_false_iff _).mp hbw
    obtain ⟨hlbp, hwdl, hwn2, hlblp, hlpsi, hstrict, hflm⟩ :=
      borrowLeftInner_parts lo (nextBound hi B) si lprev les cprev ces
        (les.getLastD (0, .leaf [])) rfl (wfB_rt_mono _ _ _ hprev) hles5 hchild hclen hubsi
    have hrkr : replaceKeyRet (nodeFirstKey (.inner cprev ces))
        (les.getLastD (0, .leaf [])).1 ((si, Node.inner cprev ces) :: B) =
        (si, ((les.getLastD (0, .leaf [])).1, Node.inner cprev ces) :: B) := by
      have := replaceKeyRet_resolve (nodeFirstKey (.inner cprev ces))
        (les.getLastD (0, .leaf [])).1 [] si (Node.inner cprev ces) B (by simp) hsifk hBhead
      simpa using this
    rw [hrkr]
    try dsimp only
    rw [hlbp, insertAt_zero]
    try dsimp only [setSlot]
    try simp only [List.getElem?_cons_zero]
    try dsimp only
    try rw [List.set_cons_zero]
    have hlesne : les ≠ [] := by
      intro h; rw [h] at hles5; simp [MIN_PTR_INNER_NODE] at hles5
    have hlpmem : les.getLastD (0, .leaf []) ∈ les := getLastD_mem les _ hlesne
    refine ⟨.inner lprev les.dropLast,
      ((les.getLastD (0, .leaf [])).1,
        .inner (les.getLastD (0, .leaf [])).2 ((si, cprev) :: ces)) :: B, rfl, ?_, by simp,
      by simp, ?_, ?_, ?_, Or.inl ⟨by simp, ?_⟩⟩
    · simp only [flatList_cons]
      rw [← List.append_assoc]
      rw [show flat (Node.inner lprev les.dropLast) ++
          flat (Node.inner (les.getLastD (0, .leaf [])).2 ((si, cprev) :: ces)) =
          flat (Node.inner lprev les) ++ flat (Node.inner cprev ces) from hflm]
      simp [List.append_assoc]
    · rw [unifB_inner_iff]
      exact ⟨hulp, fun p hp => hules p ((List.dropLast_sublist les).subset hp)⟩
    · intro p hp
      rcases List.mem_cons.mp hp with hm | hm
      · rw [hm]
        have hlpu := hules _ hlpmem
        constructor
        · rw [unifB_inner_iff]
          refine ⟨hlpu.1, ?_⟩
          intro q hq
          rcases List.mem_cons.mp hq with hq1 | hq2
          · rw [hq1]
            exact ⟨hucp, by rw [hlpu.2, hslcp]⟩
          · have := huces q hq2
            exact ⟨this.1, by rw [this.2, hlpu.2, hslcp]⟩
        · rw [leftSpineLen_inner, leftSpineLen_inner, hlpu.2, hslcp]
      · exact huB p hm
    · rw [leftSpineLen_inner, leftSpineLen_inner, hslcp]
    · refine (wfB_inner_cons_iff lo hi true _ _ _ _).mpr ⟨hwdl, hlblp, ?_, Or.inl rfl,
        by simpa using hlen⟩
      refine wfChain_replace_head hi si (les.getLastD (0, .leaf [])).1 ci
        (.inner (les.getLastD (0, .leaf [])).2 ((si, cprev) :: ces)) B hchB ?_ hwn2
      exact ubOk_trans _ si _ hubsi (by omega)
  · -- coalesce, or borrow from the right
    rw [if_neg hbw]
    have hles4 : les.length = MIN_KEYS_INNER_NODE := by
      simp only [Bool.not_eq_false] at hbw
      simp only [innerWillUnderflow, decide_eq_true_eq, MIN_PTR_INNER_NODE] at hbw
      simp only [MIN_KEYS_INNER_NODE] at hl9 ⊢
      omega
    have hleslt : ∀ p ∈ les, p.1 < si := by
      match les, hprev with
      | [], hprev => rw [wfB_inner_nil] at hprev; exact absurd hprev (by simp)
      | (l0, lc0) :: les2, hprev =>
        obtain ⟨_, _, hlc, _, _⟩ :=
          (wfB_inner_cons_iff lo (some si) false lprev l0 lc0 les2).mp hprev
        intro p hp
        rcases List.mem_cons.mp hp with hm | hm
        · rw [hm]
          simpa [ubOk] using wfChain_ubOk (some si) l0 lc0 les2 hlc
        · simpa [ubOk] using (wfChain_sep_mem (some si) l0 lc0 les2 hlc p hm).2
    have hide : innerDeleteEntry (nodeFirstKey (.inner cprev ces))
        ((si, Node.inner cprev ces) :: B) = (si, B) := by
      have := innerDeleteEntry_resolve (nodeFirstKey (.inner cprev ces)) [] si
        (Node.inner cprev ces) B (by simp) hsifk hBhead
      simpa using this
    have hwm : wfB lo (nextBound hi B) false
        (.inner lprev (les ++ (si, cprev) :: ces)) = true := by
      refine inner_merge_wf lo (nextBound hi B) si lprev les cprev ces
        (wfB_rt_mono _ _ _ hprev) hchild hubsi ?_ ?_
      · simp only [hles4, hclen, MIN_KEYS_INNER_NODE]; omega
      · simp only [hles4, hclen, MIN_KEYS_INNER_NODE, FAN_OUT]; omega
    have hunm : unifB (.inner lprev (les ++ (si, cprev) :: ces)) = true := by
      rw [unifB_inner_iff]
      refine ⟨hulp, ?_⟩
      intro p hp
      rcases List.mem_append.mp hp with hm | hm
      · exact hules p hm
      · rcases List.mem_cons.mp hm with hm2 | hm2
        · rw [hm2]
          exact ⟨hucp, by rw [hslcp]⟩
        · have := huces p hm2
          exact ⟨this.1, by rw [this.2, hslcp]⟩
    cases B with
    | nil =>
      rw [successorSlot_none 0 ((si, Node.inner cprev ces) :: []).length (by simp)]
      try dsimp only
      rw [hide]
      try dsimp only
      rw [lowerBoundPos_all_lt si les hleslt, insertAt_end]
      try dsimp only [setSlot]
      try dsimp only
      try rw [hide]
      rw [show (les ++ [(si, cprev)]) ++ ces = les ++ (si, cprev) :: ces by simp]
      refine ⟨.inner lprev (les ++ (si, cprev) :: ces), [], rfl, ?_, by simp, by simp,
        hunm, by simp, by rw [leftSpineLen_inner, leftSpineLen_inner, hslcp], Or.inr
        ⟨rfl, wfB_rt_mono _ _ _ (by simpa [nextBound] using hwm)⟩⟩
      simp only [flatList_cons, flatList_nil, flatList_append, flat_inner]
      simp [List.append_assoc]
    | cons q B2 =>
      obtain ⟨sR, cR⟩ := q
      obtain ⟨hsisR, hciw, hcw⟩ := (wfChain_cons_iff hi si ci sR cR B2).mp hchB
      obtain ⟨rprev, res, rfl⟩ : ∃ rprev res, cR = Node.inner rprev res := by
        cases cR with
        | leaf r =>
          have := (huB (sR, .leaf r) (by simp)).2
          rw [leftSpineLen_inner] at this
          have h2 := leftSpineLen_pos cprev
          simp [leftSpineLen] at this
          omega
        | inner p e => exact ⟨p, e, rfl⟩
      rw [successorSlot_some 0 ((si, Node.inner cprev ces) :: (sR, Node.inner rprev res)
        :: B2).length (by simp only [List.length_cons]; omega)]
      try dsimp only [childAt]
      try rw [show ((0 : Int) + 1).toNat = 1 from rfl]
      try simp only [List.getElem?_cons_succ, List.getElem?_cons_zero]
      try dsimp only
      obtain ⟨hresw, hubnx2, htail2⟩ := wfChain_head_parts hi sR (.inner rprev res) B2 hcw
      match res, hresw with
      | [], hresw => rw [wfB_inner_nil] at hresw; exact absurd hresw (by simp)
      | (rp1, rp2) :: res2, hresw =>
      have hr9 : res2.length + 1 ≤ FAN_OUT - 1 ∧ MIN_KEYS_INNER_NODE ≤ res2.length + 1 := by
        obtain ⟨_, _, _, hocc, hl2⟩ :=
          (wfB_inner_cons_iff (some sR) (nextBound hi B2) false rprev rp1 rp2 res2).mp hresw
        refine ⟨by simpa using hl2, ?_⟩
        rcases hocc with h | h
        · exact absurd h (by simp)
        · simpa using h
      by_cases hbwr : innerWillUnderflow ((rp1, rp2) :: res2) = false
      · -- BorrowFromRightInner
        rw [if_pos hbwr]
        have hres5 : MIN_PTR_INNER_NODE ≤ ((rp1, rp2) :: res2).length :=
          (innerWillUnderflow_false_iff _).mp hbwr
        obtain ⟨hlbp2, hinsq2, hwn2, hwr2, hsRrp, hubrp, hflm⟩ :=
          borrowRightInner_parts (some si) (nextBound hi B2) sR cprev ces rprev
            ((rp1, rp2) :: res2) (rp1, rp2) res2 rfl (by simpa [nextBound] using hchild)
            hclen (wfB_rt_mono _ _ _ hresw) hres5
        have hsRrp2 : sR < rp1 := hsRrp
        have hubrp2 : ubOk (nextBound hi B2) rp1 = true := hubrp
        have hrkr : replaceKeyRet rp1 rp1
            ((si, Node.inner cprev ces) :: (sR, Node.inner rprev ((rp1, rp2) :: res2))
              :: B2) =
            (sR, (si, Node.inner cprev ces) :: (rp1, Node.inner rprev ((rp1, rp2) :: res2))
              :: B2) := by
          have := replaceKeyRet_resolve rp1 rp1 [(si, Node.inner cprev ces)] sR
            (Node.inner rprev ((rp1, rp2) :: res2)) B2
            (by
              intro p hp
              simp only [List.mem_singleton] at hp
              rw [hp]
              omega)
            (by omega)
            (by
              intro p hp
              cases B2 with
              | nil => simp at hp
              | cons w B3 =>
                have hpw : p = w := by simpa using hp.symm
                rw [hpw]
                simpa [nextBound, ubOk] using hubrp)
          simpa using this
        try dsimp only
        try simp only [List.headD_cons, List.tail_cons]
        try dsimp only
        rw [hrkr]
        try dsimp only
        rw [hlbp2, hinsq2]
        try dsimp only [setSlot]
        try simp only [List.getElem?_cons_succ, List.getElem?_cons_zero]
        try dsimp only
        try rw [List.set_cons_succ, List.set_cons_zero]
        try simp only [List.getElem?_cons_zero]
        try dsimp only
        try rw [List.set_cons_zero]
        refine ⟨.inner lprev les, (si, .inner cprev (ces ++ [(sR, rprev)])) ::
          (rp1, .inner rp2 res2) :: B2, rfl, ?_, by simp, by simp, huprev, ?_, ?_,
          Or.inl ⟨by simp, ?_⟩⟩
        · simp only [flatList_cons]
          have hstep : flat (Node.inner cprev (ces ++ [(sR, rprev)])) ++
              (flat (Node.inner rp2 res2) ++ flatList B2) =
              flat (Node.inner cprev ces) ++
                (flat (Node.inner rprev ((rp1, rp2) :: res2)) ++ flatList B2) := by
            rw [← List.append_assoc, hflm, List.append_assoc]
          rw [hstep]
        · intro p hp
          rcases List.mem_cons.mp hp with hm | hm
          · rw [hm]
            constructor
            · rw [unifB_inner_iff]
              refine ⟨hucp, ?_⟩
              intro q hq
              rcases List.mem_append.mp hq with hq1 | hq2
              · exact huces q hq1
              · simp only [List.mem_singleton] at hq2
                rw [hq2]
                have := (huB (sR, .inner rprev ((rp1, rp2) :: res2)) (by simp)).1
                obtain ⟨h1, h2⟩ := (unifB_inner_iff rprev ((rp1, rp2) :: res2)).mp this
                have h3 := (huB (sR, .inner rprev ((rp1, rp2) :: res2)) (by simp)).2
                have h3b : leftSpineLen rprev = leftSpineLen cprev := by
                  rw [leftSpineLen_inner, leftSpineLen_inner] at h3
                  omega
                exact ⟨h1, h3b⟩
            · rw [leftSpineLen_inner, leftSpineLen_inner]
          · rcases List.mem_cons.mp hm with hm2 | hm2
            · rw [hm2]
              have := (huB (sR, .inner rprev ((rp1, rp2) :: res2)) (by simp)).1
              obtain ⟨h1, h2⟩ := (unifB_inner_iff rprev ((rp1, rp2) :: res2)).mp this
              have h3 := (huB (sR, .inner rprev ((rp1, rp2) :: res2)) (by simp)).2
              have h4 := h2 (rp1, rp2) (by simp)
              have h4b : leftSpineLen rp2 = leftSpineLen rprev := h4.2
              have h3b : leftSpineLen rprev = leftSpineLen cprev := by
                rw [leftSpineLen_inner, leftSpineLen_inner] at h3
                omega
              constructor
              · rw [unifB_inner_iff]
                refine ⟨h4.1, ?_⟩
                intro q hq
                have h5 := h2 q (by simp [hq])
                exact ⟨h5.1, by rw [h5.2, h4b]⟩
              · rw [leftSpineLen_inner, leftSpineLen_inner]
                omega
            · exact huB p (by simp [hm2])
        · rw [leftSpineLen_inner, leftSpineLen_inner, hslcp]
        · refine (wfB_inner_cons_iff lo hi true _ _ _ _).mpr
            ⟨by simpa [nextBound] using hprev, lbOk_of_midOk lo si hmid, ?_,
              Or.inl rfl, by simpa using hlen⟩
          refine (wfChain_cons_iff _ _ _ _ _ _).mpr ⟨by omega,
            by simpa [nextBound] using hwn2, ?_⟩
          exact wfChain_replace_head hi sR rp1 (.inner rprev ((rp1, rp2) :: res2))
            (.inner rp2 res2) B2 hcw hubrp hwr2
      · -- CoalesceInner into the prev child
        rw [if_neg hbwr]
        try dsimp only
        rw [hide]
        try dsimp only
        rw [lowerBoundPos_all_lt si les hleslt, insertAt_end]
        try dsimp only [setSlot]
        try dsimp only
        try rw [hide]
        rw [show (les ++ [(si, cprev)]) ++ ces = les ++ (si, cprev) :: ces by simp]
        refine ⟨.inner lprev (les ++ (si, cprev) :: ces), (sR, Node.inner rprev
          ((rp1, rp2) :: res2)) :: B2, rfl, ?_, by simp, by simp, hunm, ?_,
          by rw [leftSpineLen_inner, leftSpineLen_inner, hslcp], Or.inl ⟨by simp, ?_⟩⟩
        · simp only [flatList_cons, flatList_append, flat_inner]
          simp [List.append_assoc]
        · intro p hp
          rcases List.mem_cons.mp hp with hm | hm
          · rw [hm]
            exact huB (sR, .inner rprev ((rp1, rp2) :: res2)) (by simp)
          · exact huB p (by simp [hm])
        · have hlosi : lbOk lo si = true := lbOk_of_midOk lo si hmid
          refine (wfB_inner_cons_iff lo hi true _ _ _ _).mpr
            ⟨by simpa [nextBound] using hwm, lbOk_trans lo si sR hlosi (by omega), hcw,
              Or.inl rfl, ?_⟩
          simp only [List.length_cons] at hlen ⊢
          omega

end BPT

namespace BPT

theorem getElem?_middle2 (A : List α) (p q : α) (B : List α) :
    (A ++ p :: q :: B)[A.length + 1]? = some q := by
  have h1 : A ++ p :: q :: B = (A ++ [p]) ++ q :: B := by simp
  have h2 : A.length + 1 = (A ++ [p]).length := by simp
  rw [h1, h2]
  exact getElem?_middle _ _ _

theorem set_middle2 (A : List α) (p q r : α) (B : List α) :
    (A ++ p :: q :: B).set (A.length + 1) r = A ++ p :: r :: B := by
  have h1 : A ++ p :: q :: B = (A ++ [p]) ++ q :: B := by simp
  have h2 : A.length + 1 = (A ++ [p]).length := by simp
  rw [h1, h2, set_middle]
  simp

end BPT

namespace BPT

theorem getElem?_middle3 (A : List α) (p q r : α) (B : List α) :
    (A ++ p :: q :: r :: B)[A.length + 2]? = some r := by
  have h1 : A ++ p :: q :: r :: B = (A ++ [p]) ++ q :: r :: B := by simp
  have h2 : A.length + 2 = (A ++ [p]).length + 1 := by simp
  rw [h1, h2]
  exact getElem?_middle2 _ _ _ _

theorem set_middle3 (A : List α) (p q r s : α) (B : List α) :
    (A ++ p :: q :: r :: B).set (A.length + 2) s = A ++ p :: q :: s :: B := by
  have h1 : A ++ p :: q :: r :: B = (A ++ [p]) ++ q :: r :: B := by simp
  have h2 : A.length + 2 = (A ++ [p]).length + 1 := by simp
  rw [h1, h2, set_middle2]
  simp

/-- Rebalancing an underflowed leaf at a non-first entry slot (the left
sibling is the preceding entry's child). -/
theorem balance_chainmid_leaf (lo hi : Option Nat) (prev : Node) (A0 : InnerEntries)
    (sL : Nat) (cL : Node) (si : Nat) (ces : LeafEntries) (B : InnerEntries) (ci : Node)
    (hctx : wfCtx lo (some sL) prev A0 = true)
    (hcLw : wfB (some sL) (some si) false cL = true)
    (hsLsi : sL < si)
    (hchild : wfB (some si) (nextBound hi B) true (.leaf ces) = true)
    (hclen : ces.length = MIN_KEYS_LEAF_NODE - 1)
    (hchB : wfChain hi si ci B = true)
    (hlen : A0.length + B.length + 2 ≤ FAN_OUT - 1)
    (hscL : leftSpineLen cL = 1)
    (huA0 : ∀ p ∈ A0, unifB p.2 = true ∧ leftSpineLen p.2 = 1)
    (huB : ∀ p ∈ B, unifB p.2 = true ∧ leftSpineLen p.2 = 1) :
    ∃ q1 q2, balanceAt prev (A0 ++ (sL, cL) :: (si, .leaf ces) :: B)
        (some (A0.length + 1)) (.leaf ces) = .inner q1 q2 ∧
      flat q1 ++ flatList q2 = flat prev ++ flatList (A0 ++ (sL, cL) :: (si, Node.leaf ces) :: B) ∧
      A0.length + B.length + 1 ≤ q2.length ∧ q2.length ≤ A0.length + B.length + 2 ∧
      q1 = prev ∧ (∀ p ∈ q2, unifB p.2 = true ∧ leftSpineLen p.2 = 1) ∧
      ((q2 ≠ [] ∧ wfB lo hi true (.inner q1 q2) = true) ∨
       (q2 = [] ∧ wfB lo hi true q1 = true)) := by
  obtain ⟨les, rfl⟩ : ∃ les, cL = Node.leaf les := by
    cases cL with
    | leaf les => exact ⟨les, rfl⟩
    | inner p e =>
      rw [leftSpineLen_inner] at hscL
      have := leftSpineLen_pos p
      omega
  have hcne : ces ≠ [] := by
    intro h; rw [h] at hclen; simp [MIN_KEYS_LEAF_NODE] at hclen
  obtain ⟨hfklb, hfkub⟩ := nodeFirstKey_bounds (some si) (nextBound hi B) (.leaf ces) hchild
    (by intro es he; injection he with he; rw [← he]; exact hcne)
  have hsifk : si ≤ nodeFirstKey (.leaf ces) := by simpa [lbOk] using hfklb
  have hubsi : ubOk (nextBound hi B) si = true := by
    cases B with
    | nil => simpa [nextBound] using wfChain_ubOk hi si ci [] hchB
    | cons q B2 =>
      have := ((wfChain_cons_iff hi si ci q.1 q.2 B2).mp (by
        obtain ⟨qk, qc⟩ := q; exact hchB)).1
      simpa [nextBound, ubOk] using this
  have hBhead : ∀ p : Nat × Node, B.head? = some p → nodeFirstKey (.leaf ces) < p.1 := by
    intro p hp
    cases B with
    | nil => simp at hp
    | cons q B2 =>
      have hpq : p = q := by simpa using hp.symm
      rw [hpq]
      simpa [nextBound, ubOk] using hfkub
  have hA0lt : ∀ p ∈ A0, p.1 < sL := wfCtx_sep_lt lo sL prev A0 hctx
  have hAkeys : ∀ p ∈ A0 ++ [(sL, Node.leaf les)], p.1 ≤ nodeFirstKey (.leaf ces) := by
    intro p hp
    rcases List.mem_append.mp hp with hm | hm
    · have := hA0lt p hm; omega
    · simp only [List.mem_singleton] at hm
      rw [hm]
      simp only
      omega
  have hidx : ltePos (nodeFirstKey (.leaf ces))
      (A0 ++ (sL, Node.leaf les) :: (si, Node.leaf ces) :: B) =
      ((A0.length + 1 : Nat) : Int) := by
    have := ltePos_resolve (nodeFirstKey (.leaf ces)) (A0 ++ [(sL, Node.leaf les)]) si
      (Node.leaf ces) B hAkeys hsifk hBhead
    simpa using this
  obtain ⟨hsL2, hokL, hfL, hl9⟩ := (wfB_leaf_iff (some sL) (some si) false les).mp hcLw
  have hles5 : MIN_KEYS_LEAF_NODE ≤ les.length := by
    rcases hfL with h | h
    · exact absurd h (by simp)
    · exact h
  -- evaluate down to the branch decision
  rw [balanceAt]
  try dsimp only
  rw [hidx, balanceLeafAt]
  try dsimp only
  rw [predecessorSlot_succ A0.length]
  try dsimp only
  rw [childAt_some prev _ A0.length (sL, Node.leaf les)
    (getElem?_middle A0 (sL, Node.leaf les) ((si, Node.leaf ces) :: B))]
  try dsimp only
  by_cases hbw : leafWillUnderflow les = false
  · -- BorrowFromLeftLeaf
    rw [if_pos hbw]
    have hles6 : MIN_KEYS_LEAF_NODE + 1 ≤ les.length := by
      rw [leafWillUnderflow_false_iff les
        (by have h5 : MIN_KEYS_LEAF_NODE = 5 := rfl; omega) hl9] at hbw
      exact hbw
    obtain ⟨hins, hwdl, hwm, hlblp, hlpsi, hstrict, hflm⟩ :=
      borrowLeftLeaf_parts (some sL) (nextBound hi B) si les ces (les.getLastD (0, [])) rfl
        (wfB_rt_mono _ _ _ hcLw) hles6 hchild hclen hubsi
    have hrkr : replaceKeyRet (nodeFirstKey (.leaf ces)) (les.getLastD (0, [])).1
        (A0 ++ (sL, Node.leaf les) :: (si, Node.leaf ces) :: B) =
        (si, A0 ++ (sL, Node.leaf les) :: ((les.getLastD (0, [])).1, Node.leaf ces) :: B) := by
      have := replaceKeyRet_resolve (nodeFirstKey (.leaf ces)) (les.getLastD (0, [])).1
        (A0 ++ [(sL, Node.leaf les)]) si (Node.leaf ces) B hAkeys hsifk hBhead
      simpa using this
    rw [hrkr]
    try dsimp only [setSlot]
    rw [getElem?_middle A0 (sL, Node.leaf les) _]
    try dsimp only
    rw [set_middle A0 (sL, Node.leaf les) (sL, Node.leaf les.dropLast) _]
    try dsimp only [setSlot]
    rw [getElem?_middle2 A0 (sL, Node.leaf les.dropLast)
      ((les.getLastD (0, [])).1, Node.leaf ces) B]
    try dsimp only
    rw [set_middle2, hins]
    refine ⟨prev, A0 ++ (sL, Node.leaf les.dropLast) ::
      ((les.getLastD (0, [])).1, .leaf (les.getLastD (0, []) :: ces)) :: B, rfl, ?_,
      (by simp only [List.length_append, List.length_cons, List.length_nil]; omega), (by simp only [List.length_append, List.length_cons, List.length_nil]; omega), rfl, ?_, Or.inl ⟨by simp, ?_⟩⟩
    · simp only [flatList_append, flatList_cons, flat_leaf]
      have hstep : les.dropLast ++ ((les.getLastD (0, []) :: ces) ++ flatList B) =
          les ++ (ces ++ flatList B) := by
        rw [← List.append_assoc, hflm, List.append_assoc]
      rw [hstep]
    · intro p hp
      rcases List.mem_append.mp hp with hm | hm
      · exact huA0 p hm
      · rcases List.mem_cons.mp hm with hm2 | hm2
        · rw [hm2]; exact ⟨unifB_leaf _, rfl⟩
        · rcases List.mem_cons.mp hm2 with hm3 | hm3
          · rw [hm3]; exact ⟨unifB_leaf _, rfl⟩
          · exact huB p hm3
    · refine wfB_inner_recomp lo hi true prev A0 sL (.leaf les.dropLast) _ hctx ?_
        (Or.inl rfl) (by simpa using hlen)
      refine (wfChain_cons_iff _ _ _ _ _ _).mpr ⟨hstrict sL rfl, hwdl, ?_⟩
      refine wfChain_replace_head hi si (les.getLastD (0, [])).1 ci _ B hchB ?_ hwm
      exact ubOk_trans _ si _ hubsi (by omega)
  · -- coalesce, or borrow from the right
    rw [if_neg hbw]
    have hles_eq : les.length = MIN_KEYS_LEAF_NODE := by
      simp only [Bool.not_eq_false] at hbw
      simp only [leafWillUnderflow, decide_eq_true_eq, U64, MIN_KEYS_LEAF_NODE] at hbw hles5 ⊢
      simp only [FAN_OUT] at hl9
      omega
    have hwm : wfB (some sL) (nextBound hi B) false (.leaf (les ++ ces)) = true := by
      refine leaf_merge_wf (some sL) (nextBound hi B) si les ces (wfB_rt_mono _ _ _ hcLw)
        hchild hubsi (by simp [midOk]; omega) ?_ ?_
      · simp only [MIN_KEYS_LEAF_NODE] at *; omega
      · simp only [MIN_KEYS_LEAF_NODE, FAN_OUT] at *; omega
    cases B with
    | nil =>
      rw [successorSlot_none ((A0.length + 1 : Nat) : Int)
        (A0 ++ (sL, Node.leaf les) :: (si, Node.leaf ces) :: []).length
        (by simp only [List.length_append, List.length_cons, List.length_nil]; omega)]
      try dsimp only [setSlot]
      rw [getElem?_middle A0 (sL, Node.leaf les) _]
      try dsimp only
      rw [set_middle A0 (sL, Node.leaf les) (sL, Node.leaf (les ++ ces)) _]
      try dsimp only
      have hide : innerDeleteEntry (nodeFirstKey (.leaf ces))
          (A0 ++ (sL, Node.leaf (les ++ ces)) :: (si, Node.leaf ces) :: []) =
          (si, A0 ++ [(sL, Node.leaf (les ++ ces))]) := by
        have := innerDeleteEntry_resolve (nodeFirstKey (.leaf ces))
          (A0 ++ [(sL, Node.leaf (les ++ ces))]) si (Node.leaf ces) []
          (by
            intro p hp
            rcases List.mem_append.mp hp with hm | hm
            · have := hA0lt p hm; omega
            · simp only [List.mem_singleton] at hm
              rw [hm]; simp only; omega)
          hsifk (by intro p hp; simp at hp)
        simpa using this
      rw [hide]
      refine ⟨prev, A0 ++ [(sL, Node.leaf (les ++ ces))], rfl, ?_, (by simp only [List.length_append, List.length_cons, List.length_nil]; omega), (by simp only [List.length_append, List.length_cons, List.length_nil]; omega), rfl,
        ?_, Or.inl ⟨by simp, ?_⟩⟩
      · simp only [flatList_append, flatList_cons, flatList_nil, flat_leaf]
        simp [List.append_assoc]
      · intro p hp
        rcases List.mem_append.mp hp with hm | hm
        · exact huA0 p hm
        · simp only [List.mem_singleton] at hm
          rw [hm]; exact ⟨unifB_leaf _, rfl⟩
      · refine wfB_inner_recomp lo hi true prev A0 sL (.leaf (les ++ ces)) [] hctx ?_
          (Or.inl rfl) (by simp only [List.length_append, List.length_cons,
            List.length_nil] at hlen ⊢; omega)
        refine wfChain_replace_head hi si sL ci _ [] hchB ?_ (by simpa [nextBound] using hwm)
        exact ubOk_trans _ si _ (by simpa [nextBound] using hubsi) (by omega)
    | cons q B2 =>
      obtain ⟨sR, cR⟩ := q
      obtain ⟨hsisR, hciw, hcw⟩ := (wfChain_cons_iff hi si ci sR cR B2).mp hchB
      obtain ⟨res, rfl⟩ : ∃ res, cR = Node.leaf res := by
        cases cR with
        | leaf res => exact ⟨res, rfl⟩
        | inner p e =>
          have := (huB (sR, .inner p e) (by simp)).2
          rw [leftSpineLen_inner] at this
          have h2 := leftSpineLen_pos p
          simp at this
          omega
      rw [successorSlot_some ((A0.length + 1 : Nat) : Int)
        (A0 ++ (sL, Node.leaf les) :: (si, Node.leaf ces) :: (sR, Node.leaf res) :: B2).length
        (by simp only [List.length_append, List.length_cons]; omega)]
      try dsimp only [childAt]
      rw [show ((((A0.length + 1 : Nat) : Int)) + 1).toNat = A0.length + 2 by omega]
      rw [getElem?_middle3 A0 (sL, Node.leaf les) (si, Node.leaf ces) (sR, Node.leaf res) B2]
      try dsimp only
      obtain ⟨hresw, hubnx2, htail2⟩ := wfChain_head_parts hi sR (.leaf res) B2 hcw
      obtain ⟨hsres, hokres, hfres, hcres9⟩ :=
        (wfB_leaf_iff (some sR) (nextBound hi B2) false res).mp hresw
      have hres5 : MIN_KEYS_LEAF_NODE ≤ res.length := by
        rcases hfres with h | h
        · exact absurd h (by simp)
        · exact h
      by_cases hbwr : leafWillUnderflow res = false
      · -- BorrowFromRightLeaf
        rw [if_pos hbwr]
        have hres6 : MIN_KEYS_LEAF_NODE + 1 ≤ res.length := by
          rw [leafWillUnderflow_false_iff res
            (by have h5 : MIN_KEYS_LEAF_NODE = 5 := rfl; omega) hcres9] at hbwr
          exact hbwr
        obtain ⟨rp, res2, hres⟩ : ∃ rp res2, res = rp :: res2 := by
          cases res with
          | nil => simp [MIN_KEYS_LEAF_NODE] at hres5
          | cons a b => exact ⟨a, b, rfl⟩
        obtain ⟨hins, hwm2, hwr2, hsRrp, hrpnew, hubnew, hflm⟩ :=
          borrowRightLeaf_parts (some si) (nextBound hi B2) sR ces res rp res2 hres
            (by simpa [nextBound] using hchild) hclen (wfB_rt_mono _ _ _ hresw) hres6
            (by simp [midOk]; omega)
        have hhd : res.headD (0, []) = rp := by rw [hres]; rfl
        have htl : res.tail = res2 := by rw [hres]; rfl
        rw [hhd, htl]
        have hrkr : replaceKeyRet rp.1 (leafFirstKey res2)
            (A0 ++ (sL, Node.leaf les) :: (si, Node.leaf ces) :: (sR, Node.leaf res) :: B2) =
            (sR, A0 ++ (sL, Node.leaf les) :: (si, Node.leaf ces) ::
              (leafFirstKey res2, Node.leaf res) :: B2) := by
          have := replaceKeyRet_resolve rp.1 (leafFirstKey res2)
            (A0 ++ [(sL, Node.leaf les), (si, Node.leaf ces)]) sR (Node.leaf res) B2
            (by
              intro p hp
              rcases List.mem_append.mp hp with hm | hm
              · have := hA0lt p hm; omega
              · rcases List.mem_cons.mp hm with hm2 | hm2
                · rw [hm2]; simp only; omega
                · simp only [List.mem_singleton] at hm2
                  rw [hm2]; simp only; omega)
            hsRrp
            (by
              intro p hp
              cases B2 with
              | nil => simp at hp
              | cons w B3 =>
                have hpw : p = w := by simpa using hp.symm
                rw [hpw]
                have h2 := (hokres rp (by rw [hres]; simp)).1
                have h3 := ((okB_split _ _ _).mp h2).2
                simpa [nextBound, ubOk] using h3)
          simpa using this
        rw [hrkr]
        try dsimp only [setSlot]
        rw [getElem?_middle3 A0 (sL, Node.leaf les) (si, Node.leaf ces)
          (leafFirstKey res2, Node.leaf res) B2]
        try dsimp only
        rw [set_middle3 A0 (sL, Node.leaf les) (si, Node.leaf ces)
          (leafFirstKey res2, Node.leaf res) (leafFirstKey res2, Node.leaf res2) B2]
        try dsimp only [setSlot]
        rw [getElem?_middle2 A0 (sL, Node.leaf les) (si, Node.leaf ces)
          ((leafFirstKey res2, Node.leaf res2) :: B2)]
        try dsimp only
        rw [set_middle2 A0 (sL, Node.leaf les) (si, Node.leaf ces)
          (si, Node.leaf (leafInsertSet rp.1 rp.2 ces)) ((leafFirstKey res2, Node.leaf res2) :: B2)]
        rw [hins]
        refine ⟨prev, A0 ++ (sL, Node.leaf les) :: (si, .leaf (ces ++ [rp])) ::
          (leafFirstKey res2, .leaf res2) :: B2, rfl, ?_, (by simp only [List.length_append, List.length_cons, List.length_nil]; omega), (by simp only [List.length_append, List.length_cons, List.length_nil]; omega), rfl, ?_,
          Or.inl ⟨by simp, ?_⟩⟩
        · simp only [flatList_append, flatList_cons, flat_leaf]
          have hstep : (ces ++ [rp]) ++ (res2 ++ flatList B2) =
              ces ++ (res ++ flatList B2) := by
            rw [← List.append_assoc, hflm, List.append_assoc]
          rw [hstep, hres]
        · intro p hp
          rcases List.mem_append.mp hp with hm | hm
          · exact huA0 p hm
          · rcases List.mem_cons.mp hm with hm2 | hm2
            · rw [hm2]; exact ⟨unifB_leaf _, rfl⟩
            · rcases List.mem_cons.mp hm2 with hm3 | hm3
              · rw [hm3]; exact ⟨unifB_leaf _, rfl⟩
              · rcases List.mem_cons.mp hm3 with hm4 | hm4
                · rw [hm4]; exact ⟨unifB_leaf _, rfl⟩
                · exact huB p (by simp [hm4])
        · refine wfB_inner_recomp lo hi true prev A0 sL (.leaf les) _ hctx ?_
            (Or.inl rfl) (by simpa using hlen)
          refine (wfChain_cons_iff _ _ _ _ _ _).mpr ⟨hsLsi, hcLw, ?_⟩
          refine (wfChain_cons_iff _ _ _ _ _ _).mpr ⟨by omega,
            by simpa [nextBound] using hwm2, ?_⟩
          exact wfChain_replace_head hi sR (leafFirstKey res2) (.leaf res) (.leaf res2) B2
            hcw hubnew hwr2
      · -- CoalesceLeaf into the left sibling
        rw [if_neg hbwr]
        try dsimp only [setSlot]
        rw [getElem?_middle A0 (sL, Node.leaf les) _]
        try dsimp only
        rw [set_middle A0 (sL, Node.leaf les) (sL, Node.leaf (les ++ ces)) _]
        try dsimp only
        have hide : innerDeleteEntry (nodeFirstKey (.leaf ces))
            (A0 ++ (sL, Node.leaf (les ++ ces)) :: (si, Node.leaf ces) ::
              (sR, Node.leaf res) :: B2) =
            (si, A0 ++ (sL, Node.leaf (les ++ ces)) :: (sR, Node.leaf res) :: B2) := by
          have := innerDeleteEntry_resolve (nodeFirstKey (.leaf ces))
            (A0 ++ [(sL, Node.leaf (les ++ ces))]) si (Node.leaf ces)
            ((sR, Node.leaf res) :: B2)
            (by
              intro p hp
              rcases List.mem_append.mp hp with hm | hm
              · have := hA0lt p hm; omega
              · simp only [List.mem_singleton] at hm
                rw [hm]; simp only; omega)
            hsifk hBhead
          simpa using this
        rw [hide]
        refine ⟨prev, A0 ++ (sL, Node.leaf (les ++ ces)) :: (sR, Node.leaf res) :: B2,
          rfl, ?_, (by simp only [List.length_append, List.length_cons, List.length_nil]; omega), (by simp only [List.length_append, List.length_cons, List.length_nil]; omega), rfl, ?_, Or.inl ⟨by simp, ?_⟩⟩
        · simp only [flatList_append, flatList_cons, flat_leaf]
          simp [List.append_assoc]
        · intro p hp
          rcases List.mem_append.mp hp with hm | hm
          · exact huA0 p hm
          · rcases List.mem_cons.mp hm with hm2 | hm2
            · rw [hm2]; exact ⟨unifB_leaf _, rfl⟩
            · rcases List.mem_cons.mp hm2 with hm3 | hm3
              · rw [hm3]; exact ⟨unifB_leaf _, rfl⟩
              · exact huB p (by simp [hm3])
        · refine wfB_inner_recomp lo hi true prev A0 sL (.leaf (les ++ ces)) _ hctx ?_
            (Or.inl rfl) (by simp only [List.length_append, List.length_cons] at hlen ⊢; omega)
          refine wfChain_replace_head hi si sL ci _ ((sR, Node.leaf res) :: B2) hchB ?_
            (by simpa [nextBound] using hwm)
          exact ubOk_trans _ si _ hubsi (by omega)

end BPT

namespace BPT

/-- Rebalancing an underflowed inner node at a non-first entry slot (the
left sibling is the preceding entry's child). -/
theorem balance_chainmid_inner (lo hi : Option Nat) (prev : Node) (A0 : InnerEntries)
    (sL : Nat) (cL : Node) (si : Nat) (cprev : Node) (ces : InnerEntries)
    (B : InnerEntries) (ci : Node)
    (hctx : wfCtx lo (some sL) prev A0 = true)
    (hcLw : wfB (some sL) (some si) false cL = true)
    (hsLsi : sL < si)
    (hchild : wfB (some si) (nextBound hi B) true (.inner cprev ces) = true)
    (hclen : ces.length = MIN_KEYS_INNER_NODE - 1)
    (hchB : wfChain hi si ci B = true)
    (hlen : A0.length + B.length + 2 ≤ FAN_OUT - 1)
    (hscL : leftSpineLen cL = leftSpineLen (.inner cprev ces))
    (hucL : unifB cL = true)
    (huchild : unifB (.inner cprev ces) = true)
    (huA0 : ∀ p ∈ A0, unifB p.2 = true ∧ leftSpineLen p.2 = leftSpineLen (.inner cprev ces))
    (huB : ∀ p ∈ B, unifB p.2 = true ∧ leftSpineLen p.2 = leftSpineLen (.inner cprev ces)) :
    ∃ q1 q2, balanceAt prev (A0 ++ (sL, cL) :: (si, .inner cprev ces) :: B)
        (some (A0.length + 1)) (.inner cprev ces) = .inner q1 q2 ∧
      flat q1 ++ flatList q2 =
        flat prev ++ flatList (A0 ++ (sL, cL) :: (si, Node.inner cprev ces) :: B) ∧
      A0.length + B.length + 1 ≤ q2.length ∧ q2.length ≤ A0.length + B.length + 2 ∧
      q1 = prev ∧
      (∀ p ∈ q2, unifB p.2 = true ∧ leftSpineLen p.2 = leftSpineLen (.inner cprev ces)) ∧
      ((q2 ≠ [] ∧ wfB lo hi true (.inner q1 q2) = true) ∨
       (q2 = [] ∧ wfB lo hi true q1 = true)) := by
  obtain ⟨lprev, les, rfl⟩ : ∃ lprev les, cL = Node.inner lprev les := by
    cases cL with
    | leaf l =>
      rw [leftSpineLen, leftSpineLen_inner] at hscL
      have := leftSpineLen_pos cprev
      omega
    | inner p e => exact ⟨p, e, rfl⟩
  obtain ⟨hfklb, hfkub⟩ := nodeFirstKey_bounds (some si) (nextBound hi B)
    (.inner cprev ces) hchild (by intro es he; simp at he)
  have hsifk : si ≤ nodeFirstKey (.inner cprev ces) := by simpa [lbOk] using hfklb
  have hubsi : ubOk (nextBound hi B) si = true := by
    cases B with
    | nil => simpa [nextBound] using wfChain_ubOk hi si ci [] hchB
    | cons q B2 =>
      have := ((wfChain_cons_iff hi si ci q.1 q.2 B2).mp (by
        obtain ⟨qk, qc⟩ := q; exact hchB)).1
      simpa [nextBound, ubOk] using this
  have hBhead : ∀ p : Nat × Node, B.head? = some p →
      nodeFirstKey (.inner cprev ces) < p.1 := by
    intro p hp
    cases B with
    | nil => simp at hp
    | cons q B2 =>
      have hpq : p = q := by simpa using hp.symm
      rw [hpq]
      simpa [nextBound, ubOk] using hfkub
  have hA0lt : ∀ p ∈ A0, p.1 < sL := wfCtx_sep_lt lo sL prev A0 hctx
  have hAkeys : ∀ p ∈ A0 ++ [(sL, Node.inner lprev les)],
      p.1 ≤ nodeFirstKey (.inner cprev ces) := by
    intro p hp
    rcases List.mem_append.mp hp with hm | hm
    · have := hA0lt p hm; omega
    · simp only [List.mem_singleton] at hm
      rw [hm]
      simp only
      omega
  have hidx : ltePos (nodeFirstKey (.inner cprev ces))
      (A0 ++ (sL, Node.inner lprev les) :: (si, Node.inner cprev ces) :: B) =
      ((A0.length + 1 : Nat) : Int) := by
    have := ltePos_resolve (nodeFirstKey (.inner cprev ces)) (A0 ++ [(sL, Node.inner lprev les)])
      si (Node.inner cprev ces) B hAkeys hsifk hBhead
    simpa using this
  obtain ⟨hulp, hules⟩ := (unifB_inner_iff lprev les).mp hucL
  obtain ⟨hucp, huces⟩ := (unifB_inner_iff cprev ces).mp huchild
  have hslcp : leftSpineLen lprev = leftSpineLen cprev := by
    rw [leftSpineLen_inner, leftSpineLen_inner] at hscL
    omega
  have hl9 : les.length ≤ FAN_OUT - 1 ∧ MIN_KEYS_INNER_NODE ≤ les.length := by
    match les, hcLw with
    | [], hcLw => rw [wfB_inner_nil] at hcLw; exact absurd hcLw (by simp)
    | (l0, lc0) :: les2, hcLw =>
      obtain ⟨_, _, _, hocc, hlen9⟩ :=
        (wfB_inner_cons_iff (some sL) (some si) false lprev l0 lc0 les2).mp hcLw
      refine ⟨by simpa using hlen9, ?_⟩
      rcases hocc with h | h
      · exact absurd h (by simp)
      · simpa using h
  -- evaluate down to the branch decision
  rw [balanceAt]
  try dsimp only
  rw [hidx, balanceInnerAt]
  try dsimp only
  rw [predecessorSlot_succ A0.length]
  try dsimp only
  rw [childAt_some prev _ A0.length (sL, Node.inner lprev les)
    (getElem?_middle A0 (sL, Node.inner lprev les) ((si, Node.inner cprev ces) :: B))]
  try dsimp only
  by_cases hbw : innerWillUnderflow les = false
  · -- BorrowFromLeftInner
    rw [if_pos hbw]
    have hles5 : MIN_PTR_INNER_NODE ≤ les.length := (innerWillUnderflow_false_iff _).mp hbw
    obtain ⟨hlbp, hwdl, hwn2, hlblp, hlpsi, hstrict, hflm⟩ :=
      borrowLeftInner_parts (some sL) (nextBound hi B) si lprev les cprev ces
        (les.getLastD (0, .leaf [])) rfl (wfB_rt_mono _ _ _ hcLw) hles5 hchild hclen hubsi
    have hrkr : replaceKeyRet (nodeFirstKey (.inner cprev ces))
        (les.getLastD (0, .leaf [])).1
        (A0 ++ (sL, Node.inner lprev les) :: (si, Node.inner cprev ces) :: B) =
        (si, A0 ++ (sL, Node.inner lprev les) ::
          ((les.getLastD (0, .leaf [])).1, Node.inner cprev ces) :: B) := by
      have := replaceKeyRet_resolve (nodeFirstKey (.inner cprev ces))
        (les.getLastD (0, .leaf [])).1 (A0 ++ [(sL, Node.inner lprev les)]) si
        (Node.inner cprev ces) B hAkeys hsifk hBhead
      simpa using this
    rw [hrkr]
    try dsimp only
    rw [hlbp, insertAt_zero]
    try dsimp only [setSlot]
    rw [getElem?_middle A0 (sL, Node.inner lprev les) _]
    try dsimp only
    rw [set_middle A0 (sL, Node.inner lprev les) (sL, Node.inner lprev les.dropLast) _]
    try dsimp only [setSlot]
    rw [getElem?_middle2 A0 (sL, Node.inner lprev les.dropLast)
      ((les.getLastD (0, .leaf [])).1, Node.inner cprev ces) B]
    try dsimp only
    rw [set_middle2]
    have hlesne : les ≠ [] := by
      intro h; rw [h] at hles5; simp [MIN_PTR_INNER_NODE] at hles5
    have hlpmem : les.getLastD (0, .leaf []) ∈ les := getLastD_mem les _ hlesne
    have hlpu := hules _ hlpmem
    refine ⟨prev, A0 ++ (sL, Node.inner lprev les.dropLast) ::
      ((les.getLastD (0, .leaf [])).1,
        .inner (les.getLastD (0, .leaf [])).2 ((si, cprev) :: ces)) :: B, rfl, ?_,
      (by simp only [List.length_append, List.length_cons, List.length_nil]; omega),
      (by simp only [List.length_append, List.length_cons, List.length_nil]; omega), rfl,
      ?_, Or.inl ⟨by simp, ?_⟩⟩
    · simp only [flatList_append, flatList_cons]
      have hstep : flat (Node.inner lprev les.dropLast) ++
          (flat (Node.inner (les.getLastD (0, .leaf [])).2 ((si, cprev) :: ces)) ++
            flatList B) =
          flat (Node.inner lprev les) ++ (flat (Node.inner cprev ces) ++ flatList B) := by
        rw [← List.append_assoc, hflm, List.append_assoc]
      rw [hstep]
    · intro p hp
      rcases List.mem_append.mp hp with hm | hm
      · exact huA0 p hm
      · rcases List.mem_cons.mp hm with hm2 | hm2
        · rw [hm2]
          constructor
          · rw [unifB_inner_iff]
            exact ⟨hulp, fun q hq => hules q ((List.dropLast_sublist les).subset hq)⟩
          · rw [leftSpineLen_inner, leftSpineLen_inner, hslcp]
        · rcases List.mem_cons.mp hm2 with hm3 | hm3
          · rw [hm3]
            constructor
            · rw [unifB_inner_iff]
              refine ⟨hlpu.1, ?_⟩
              intro q hq
              rcases List.mem_cons.mp hq with hq1 | hq2
              · rw [hq1]
                exact ⟨hucp, by rw [hlpu.2, hslcp]⟩
              · have := huces q hq2
                exact ⟨this.1, by rw [this.2, hlpu.2, hslcp]⟩
            · rw [leftSpineLen_inner, leftSpineLen_inner, hlpu.2, hslcp]
          · exact huB p hm3
    · refine wfB_inner_recomp lo hi true prev A0 sL (.inner lprev les.dropLast) _ hctx ?_
        (Or.inl rfl) (by simp only [List.length_append, List.length_cons] at hlen ⊢; omega)
      refine (wfChain_cons_iff _ _ _ _ _ _).mpr ⟨hstrict sL rfl, hwdl, ?_⟩
      refine wfChain_replace_head hi si (les.getLastD (0, .leaf [])).1 ci _ B hchB ?_ hwn2
      exact ubOk_trans _ si _ hubsi (by omega)
  · -- coalesce, or borrow from the right
    rw [if_neg hbw]
    have hles4 : les.length = MIN_KEYS_INNER_NODE := by
      simp only [Bool.not_eq_false] at hbw
      simp only [innerWillUnderflow, decide_eq_true_eq, MIN_PTR_INNER_NODE] at hbw
      simp only [MIN_KEYS_INNER_NODE] at hl9 ⊢
      omega
    have hleslt : ∀ p ∈ les, p.1 < si := by
      match les, hcLw with
      | [], hcLw => rw [wfB_inner_nil] at hcLw; exact absurd hcLw (by simp)
      | (l0, lc0) :: les2, hcLw =>
        obtain ⟨_, _, hlc, _, _⟩ :=
          (wfB_inner_cons_iff (some sL) (some si) false lprev l0 lc0 les2).mp hcLw
        intro p hp
        rcases List.mem_cons.mp hp with hm | hm
        · rw [hm]
          simpa [ubOk] using wfChain_ubOk (some si) l0 lc0 les2 hlc
        · simpa [ubOk] using (wfChain_sep_mem (some si) l0 lc0 les2 hlc p hm).2
    have hwm : wfB (some sL) (nextBound hi B) false
        (.inner lprev (les ++ (si, cprev) :: ces)) = true := by
      refine inner_merge_wf (some sL) (nextBound hi B) si lprev les cprev ces
        (wfB_rt_mono _ _ _ hcLw) hchild hubsi ?_ ?_
      · simp only [hles4, hclen, MIN_KEYS_INNER_NODE]; omega
      · simp only [hles4, hclen, MIN_KEYS_INNER_NODE, FAN_OUT]; omega
    have hunm : unifB (.inner lprev (les ++ (si, cprev) :: ces)) = true := by
      rw [unifB_inner_iff]
      refine ⟨hulp, ?_⟩
      intro p hp
      rcases List.mem_append.mp hp with hm | hm
      · exact hules p hm
      · rcases List.mem_cons.mp hm with hm2 | hm2
        · rw [hm2]
          exact ⟨hucp, by rw [hslcp]⟩
        · have := huces p hm2
          exact ⟨this.1, by rw [this.2, hslcp]⟩
    have hide1 : innerDeleteEntry (nodeFirstKey (.inner cprev ces))
        (A0 ++ (sL, Node.inner lprev les) :: (si, Node.inner cprev ces) :: B) =
        (si, A0 ++ (sL, Node.inner lprev les) :: B) := by
      have := innerDeleteEntry_resolve (nodeFirstKey (.inner cprev ces))
        (A0 ++ [(sL, Node.inner lprev les)]) si (Node.inner cprev ces) B hAkeys hsifk hBhead
      simpa using this
    cases B with
    | nil =>
      rw [successorSlot_none ((A0.length + 1 : Nat) : Int)
        (A0 ++ (sL, Node.inner lprev les) :: (si, Node.inner cprev ces) :: []).length
        (by simp only [List.length_append, List.length_cons, List.length_nil]; omega)]
      try dsimp only
      rw [hide1]
      try dsimp only
      rw [lowerBoundPos_all_lt si les hleslt, insertAt_end]
      try dsimp only [setSlot]
      rw [getElem?_middle A0 (sL, Node.inner lprev les) _]
      try dsimp only
      rw [set_middle A0 (sL, Node.inner lprev les)
        (sL, Node.inner lprev ((les ++ [(si, cprev)]) ++ ces)) _]
      try dsimp only
      have hide2 : innerDeleteEntry (nodeFirstKey (.inner cprev ces))
          (A0 ++ (sL, Node.inner lprev ((les ++ [(si, cprev)]) ++ ces)) ::
            (si, Node.inner cprev ces) :: []) =
          (si, A0 ++ [(sL, Node.inner lprev ((les ++ [(si, cprev)]) ++ ces))]) := by
        have := innerDeleteEntry_resolve (nodeFirstKey (.inner cprev ces))
          (A0 ++ [(sL, Node.inner lprev ((les ++ [(si, cprev)]) ++ ces))]) si
          (Node.inner cprev ces) []
          (by
            intro p hp
            rcases List.mem_append.mp hp with hm | hm
            · have := hA0lt p hm; omega
            · simp only [List.mem_singleton] at hm
              rw [hm]; simp only; omega)
          hsifk (by intro p hp; simp at hp)
        simpa using this
      rw [hide2]
      rw [show (les ++ [(si, cprev)]) ++ ces = les ++ (si, cprev) :: ces by simp]
      refine ⟨prev, A0 ++ [(sL, Node.inner lprev (les ++ (si, cprev) :: ces))], rfl, ?_,
        (by simp only [List.length_append, List.length_cons, List.length_nil]; omega),
        (by simp only [List.length_append, List.length_cons, List.length_nil]; omega), rfl,
        ?_, Or.inl ⟨by simp, ?_⟩⟩
      · simp only [flatList_append, flatList_cons, flatList_nil, flat_inner]
        simp [List.append_assoc]
      · intro p hp
        rcases List.mem_append.mp hp with hm | hm
        · exact huA0 p hm
        · simp only [List.mem_singleton] at hm
          rw [hm]
          refine ⟨hunm, ?_⟩
          rw [leftSpineLen_inner, leftSpineLen_inner, hslcp]
      · refine wfB_inner_recomp lo hi true prev A0 sL
          (.inner lprev (les ++ (si, cprev) :: ces)) [] hctx ?_ (Or.inl rfl)
          (by
            simp only [List.length_append, List.length_cons, List.length_nil] at hlen ⊢
            omega)
        refine wfChain_replace_head hi si sL ci _ [] hchB ?_
          (by simpa [nextBound] using hwm)
        exact ubOk_trans _ si _ (by simpa [nextBound] using hubsi) (by omega)
    | cons q B2 =>
      obtain ⟨sR, cR⟩ := q
      obtain ⟨hsisR, hciw, hcw⟩ := (wfChain_cons_iff hi si ci sR cR B2).mp hchB
      obtain ⟨rprev, res, rfl⟩ : ∃ rprev res, cR = Node.inner rprev res := by
        cases cR with
        | leaf r =>
          have := (huB (sR, .leaf r) (by simp)).2
          rw [leftSpineLen_inner] at this
          have h2 := leftSpineLen_pos cprev
          simp [leftSpineLen] at this
          omega
        | inner p e => exact ⟨p, e, rfl⟩
      rw [successorSlot_some ((A0.length + 1 : Nat) : Int)
        (A0 ++ (sL, Node.inner lprev les) :: (si, Node.inner cprev ces) ::
          (sR, Node.inner rprev res) :: B2).length
        (by simp only [List.length_append, List.length_cons]; omega)]
      try dsimp only [childAt]
      rw [show ((((A0.length + 1 : Nat) : Int)) + 1).toNat = A0.length + 2 by omega]
      rw [getElem?_middle3 A0 (sL, Node.inner lprev les) (si, Node.inner cprev ces)
        (sR, Node.inner rprev res) B2]
      try dsimp only
      obtain ⟨hresw, hubnx2, htail2⟩ := wfChain_head_parts hi sR (.inner rprev res) B2 hcw
      match res, hresw with
      | [], hresw => rw [wfB_inner_nil] at hresw; exact absurd hresw (by simp)
      | (rp1, rp2) :: res2, hresw =>
      by_cases hbwr : innerWillUnderflow ((rp1, rp2) :: res2) = false
      · -- BorrowFromRightInner
        rw [if_pos hbwr]
        have hres5 : MIN_PTR_INNER_NODE ≤ ((rp1, rp2) :: res2).length :=
          (innerWillUnderflow_false_iff _).mp hbwr
        obtain ⟨hlbp2, hinsq2, hwn2, hwr2, hsRrp, hubrp, hflm⟩ :=
          borrowRightInner_parts (some si) (nextBound hi B2) sR cprev ces rprev
            ((rp1, rp2) :: res2) (rp1, rp2) res2 rfl (by simpa [nextBound] using hchild)
            hclen (wfB_rt_mono _ _ _ hresw) hres5
        have hsRrp2 : sR < rp1 := hsRrp
        have hubrp2 : ubOk (nextBound hi B2) rp1 = true := hubrp
        have hrkr : replaceKeyRet rp1 rp1
            (A0 ++ (sL, Node.inner lprev les) :: (si, Node.inner cprev ces) ::
              (sR, Node.inner rprev ((rp1, rp2) :: res2)) :: B2) =
            (sR, A0 ++ (sL, Node.inner lprev les) :: (si, Node.inner cprev ces) ::
              (rp1, Node.inner rprev ((rp1, rp2) :: res2)) :: B2) := by
          have := replaceKeyRet_resolve rp1 rp1
            (A0 ++ [(sL, Node.inner lprev les), (si, Node.inner cprev ces)]) sR
            (Node.inner rprev ((rp1, rp2) :: res2)) B2
            (by
              intro p hp
              rcases List.mem_append.mp hp with hm | hm
              · have := hA0lt p hm; omega
              · rcases List.mem_cons.mp hm with hm2 | hm2
                · rw [hm2]; simp only; omega
                · simp only [List.mem_singleton] at hm2
                  rw [hm2]; simp only; omega)
            (by omega)
            (by
              intro p hp
              cases B2 with
              | nil => simp at hp
              | cons w B3 =>
                have hpw : p = w := by simpa using hp.symm
                rw [hpw]
                simpa [nextBound, ubOk] using hubrp2)
          simpa using this
        try dsimp only
        try simp only [List.headD_cons, List.tail_cons]
        try dsimp only
        rw [hrkr]
        try dsimp only
        rw [hlbp2, hinsq2]
        try dsimp only [setSlot]
        rw [getElem?_middle3 A0 (sL, Node.inner lprev les) (si, Node.inner cprev ces)
          (rp1, Node.inner rprev ((rp1, rp2) :: res2)) B2]
        try dsimp only
        rw [set_middle3 A0 (sL, Node.inner lprev les) (si, Node.inner cprev ces)
          (rp1, Node.inner rprev ((rp1, rp2) :: res2)) (rp1, Node.inner rp2 res2) B2]
        try dsimp only [setSlot]
        rw [getElem?_middle2 A0 (sL, Node.inner lprev les) (si, Node.inner cprev ces)
          ((rp1, Node.inner rp2 res2) :: B2)]
        try dsimp only
        rw [set_middle2 A0 (sL, Node.inner lprev les) (si, Node.inner cprev ces)
          (si, Node.inner cprev (ces ++ [(sR, rprev)])) ((rp1, Node.inner rp2 res2) :: B2)]
        refine ⟨prev, A0 ++ (sL, Node.inner lprev les) ::
          (si, .inner cprev (ces ++ [(sR, rprev)])) :: (rp1, .inner rp2 res2) :: B2, rfl,
          ?_,
          (by simp only [List.length_append, List.length_cons, List.length_nil]; omega),
          (by simp only [List.length_append, List.length_cons, List.length_nil]; omega),
          rfl, ?_, Or.inl ⟨by simp, ?_⟩⟩
        · simp only [flatList_append, flatList_cons]
          have hstep : flat (Node.inner cprev (ces ++ [(sR, rprev)])) ++
              (flat (Node.inner rp2 res2) ++ flatList B2) =
              flat (Node.inner cprev ces) ++
                (flat (Node.inner rprev ((rp1, rp2) :: res2)) ++ flatList B2) := by
            rw [← List.append_assoc, hflm, List.append_assoc]
          rw [hstep]
        · intro p hp
          have hru := (huB (sR, .inner rprev ((rp1, rp2) :: res2)) (by simp)).1
          obtain ⟨hurp, hures⟩ := (unifB_inner_iff rprev ((rp1, rp2) :: res2)).mp hru
          have h3 := (huB (sR, .inner rprev ((rp1, rp2) :: res2)) (by simp)).2
          have h3b : leftSpineLen rprev = leftSpineLen cprev := by
            rw [leftSpineLen_inner, leftSpineLen_inner] at h3
            omega
          rcases List.mem_append.mp hp with hm | hm
          · exact huA0 p hm
          · rcases List.mem_cons.mp hm with hm2 | hm2
            · rw [hm2]
              exact ⟨hucL, hscL⟩
            · rcases List.mem_cons.mp hm2 with hm3 | hm3
              · rw [hm3]
                constructor
                · rw [unifB_inner_iff]
                  refine ⟨hucp, ?_⟩
                  intro q hq
                  rcases List.mem_append.mp hq with hq1 | hq2
                  · exact huces q hq1
                  · simp only [List.mem_singleton] at hq2
                    rw [hq2]
                    exact ⟨hurp, h3b⟩
                · rw [leftSpineLen_inner, leftSpineLen_inner]
              · rcases List.mem_cons.mp hm3 with hm4 | hm4
                · rw [hm4]
                  have h4 := hures (rp1, rp2) (by simp)
                  have h4b : leftSpineLen rp2 = leftSpineLen rprev := h4.2
                  constructor
                  · rw [unifB_inner_iff]
                    refine ⟨h4.1, ?_⟩
                    intro q hq
                    have h5 := hures q (by simp [hq])
                    exact ⟨h5.1, by rw [h5.2, h4b]⟩
                  · rw [leftSpineLen_inner, leftSpineLen_inner]
                    omega
                · exact huB p (by simp [hm4])
        · refine wfB_inner_recomp lo hi true prev A0 sL (.inner lprev les) _ hctx ?_
            (Or.inl rfl)
            (by
              simp only [List.length_append, List.length_cons] at hlen ⊢
              omega)
          refine (wfChain_cons_iff _ _ _ _ _ _).mpr ⟨hsLsi, hcLw, ?_⟩
          refine (wfChain_cons_iff _ _ _ _ _ _).mpr ⟨by omega,
            by simpa [nextBound] using hwn2, ?_⟩
          exact wfChain_replace_head hi sR rp1 (.inner rprev ((rp1, rp2) :: res2))
            (.inner rp2 res2) B2 hcw hubrp2 hwr2
      · -- CoalesceInner into the left sibling
        rw [if_neg hbwr]
        try dsimp only
        rw [hide1]
        try dsimp only
        rw [lowerBoundPos_all_lt si les hleslt, insertAt_end]
        try dsimp only [setSlot]
        rw [getElem?_middle A0 (sL, Node.inner lprev les) _]
        try dsimp only
        rw [set_middle A0 (sL, Node.inner lprev les)
          (sL, Node.inner lprev ((les ++ [(si, cprev)]) ++ ces)) _]
        try dsimp only
        have hide2 : innerDeleteEntry (nodeFirstKey (.inner cprev ces))
            (A0 ++ (sL, Node.inner lprev ((les ++ [(si, cprev)]) ++ ces)) ::
              (si, Node.inner cprev ces) :: (sR, Node.inner rprev ((rp1, rp2) :: res2))
                :: B2) =
            (si, A0 ++ (sL, Node.inner lprev ((les ++ [(si, cprev)]) ++ ces)) ::
              (sR, Node.inner rprev ((rp1, rp2) :: res2)) :: B2) := by
          have := innerDeleteEntry_resolve (nodeFirstKey (.inner cprev ces))
            (A0 ++ [(sL, Node.inner lprev ((les ++ [(si, cprev)]) ++ ces))]) si
            (Node.inner cprev ces) ((sR, Node.inner rprev ((rp1, rp2) :: res2)) :: B2)
            (by
              intro p hp
              rcases List.mem_append.mp hp with hm | hm
              · have := hA0lt p hm; omega
              · simp only [List.mem_singleton] at hm
                rw [hm]; simp only; omega)
            hsifk hBhead
          simpa using this
        rw [hide2]
        rw [show (les ++ [(si, cprev)]) ++ ces = les ++ (si, cprev) :: ces by simp]
        refine ⟨prev, A0 ++ (sL, Node.inner lprev (les ++ (si, cprev) :: ces)) ::
          (sR, Node.inner rprev ((rp1, rp2) :: res2)) :: B2, rfl, ?_,
          (by simp only [List.length_append, List.length_cons, List.length_nil]; omega),
          (by simp only [List.length_append, List.length_cons, List.length_nil]; omega),
          rfl, ?_, Or.inl ⟨by simp, ?_⟩⟩
        · simp only [flatList_append, flatList_cons, flat_inner]
          simp [List.append_assoc]
        · intro p hp
          rcases List.mem_append.mp hp with hm | hm
          · exact huA0 p hm
          · rcases List.mem_cons.mp hm with hm2 | hm2
            · rw [hm2]
              refine ⟨hunm, ?_⟩
              rw [leftSpineLen_inner, leftSpineLen_inner, hslcp]
            · rcases List.mem_cons.mp hm2 with hm3 | hm3
              · rw [hm3]
                exact huB (sR, .inner rprev ((rp1, rp2) :: res2)) (by simp)
              · exact huB p (by simp [hm3])
        · refine wfB_inner_recomp lo hi true prev A0 sL
            (.inner lprev (les ++ (si, cprev) :: ces)) _ hctx ?_ (Or.inl rfl)
            (by simp only [List.length_append, List.length_cons] at hlen ⊢; omega)
          refine wfChain_replace_head hi si sL ci _
            ((sR, Node.inner rprev ((rp1, rp2) :: res2)) :: B2) hchB ?_
            (by simpa [nextBound] using hwm)
          exact ubOk_trans _ si _ hubsi (by omega)

end BPT

namespace BPT

/-! ## The recursive delete walk -/

theorem delRec_leaf (k v : Nat) (es : LeafEntries) :
    delRec k v (.leaf es) = .leaf (deleteEntry k v es) := by
  rw [delRec]

theorem delRec_inner (k v : Nat) (prev : Node) (es : InnerEntries) :
    delRec k v (.inner prev es) =
      (let slot := routeSlot k es
       let child2 := delRec k v (childAt prev es slot)
       let ps := setSlot prev es slot child2
       if childUnderflow child2 then balanceAt ps.1 ps.2 slot child2
       else .inner ps.1 ps.2) := by
  rw [delRec]

/-- The routed slot of `GetNodePtrForKey` as a global decomposition of the
entry list. -/
theorem chain_locate (k k0 : Nat) (c0 : Node) (rest : InnerEntries) (hk0 : k0 ≤ k) :
    ∃ A si ci B, (k0, c0) :: rest = A ++ (si, ci) :: B ∧
      A.length = upperBoundPos k rest ∧ si ≤ k ∧
      ∀ p : Nat × Node, B.head? = some p → k < p.1 := by
  induction rest generalizing k0 c0 with
  | nil =>
    exact ⟨[], k0, c0, [], rfl, by simp [upperBoundPos_nil], hk0,
      by intro p hp; simp at hp⟩
  | cons q rest2 ih =>
    obtain ⟨k1, c1⟩ := q
    by_cases hk1 : k1 ≤ k
    · obtain ⟨A, si, ci, B, hdec, hlen, hsik, hB⟩ := ih k1 c1 hk1
      refine ⟨(k0, c0) :: A, si, ci, B, by rw [List.cons_append, ← hdec], ?_, hsik, hB⟩
      rw [upperBoundPos_cons, if_pos (show (k1, c1).1 ≤ k from hk1), List.length_cons, hlen]
    · refine ⟨[], k0, c0, (k1, c1) :: rest2, rfl, ?_, hk0, ?_⟩
      · rw [upperBoundPos_cons, if_neg (show ¬ (k1, c1).1 ≤ k from hk1)]
        rfl
      · intro p hp
        have hpq : p = (k1, c1) := by simpa using hp.symm
        rw [hpq]
        simp only
        omega

/-- Every leaf key under a slot context lies below the context's bound. -/
theorem wfCtx_flat_facts (lo mid : Option Nat) (prev : Node) (A : InnerEntries)
    (h : wfCtx lo mid prev A = true) :
    ∀ p ∈ flat prev ++ flatList A, ubOk mid p.1 = true := by
  cases A with
  | nil =>
    obtain ⟨h1, _⟩ := (wfCtx_nil_iff _ _ _).mp h
    intro p hp
    rw [flatList_nil, List.append_nil] at hp
    exact ((okB_split _ _ _).mp ((wfB_flat_facts lo mid false prev h1).2 p hp).1).2
  | cons q A2 =>
    obtain ⟨qk, qc⟩ := q
    obtain ⟨h1, _, h3⟩ := (wfCtx_cons_iff _ _ _ _ _ _).mp h
    intro p hp
    rw [flatList_cons] at hp
    rcases List.mem_append.mp hp with hm | hm
    · have hlt := ((okB_split _ _ _).mp
        ((wfB_flat_facts lo (some qk) false prev h1).2 p hm).1).2
      have h4 := wfChain_ubOk mid qk qc A2 h3
      cases mid with
      | none => rfl
      | some m =>
        simp only [ubOk, decide_eq_true_eq] at hlt h4 ⊢
        omega
    · exact ((okB_split _ _ _).mp ((wfChain_flat_facts mid qk qc A2 h3).2 p hm).1).2

/-- Every leaf key of a chain's tail exceeds `k` when the tail's first
separator does. -/
theorem chainTail_flat_gt (hi : Option Nat) (si : Nat) (ci : Node) (B : InnerEntries)
    (k : Nat) (h : wfChain hi si ci B = true)
    (hhead : ∀ p : Nat × Node, B.head? = some p → k < p.1) :
    ∀ p ∈ flatList B, k < p.1 := by
  cases B with
  | nil => simp [flatList_nil]
  | cons q B2 =>
    obtain ⟨qk, qc⟩ := q
    obtain ⟨_, _, h3⟩ := (wfChain_cons_iff _ _ _ _ _ _).mp h
    have hk : k < qk := hhead (qk, qc) rfl
    intro p hp
    rw [flatList_cons] at hp
    have := ((okB_split _ _ _).mp ((wfChain_flat_facts hi qk qc B2 h3).2 p hp).1).1
    simp only [lbOk, decide_eq_true_eq] at this
    omega

/-- Entry facts of `LeafNode::DeleteEntry` within bounds. -/
theorem deleteEntry_entry_facts (k v : Nat) (lo hi : Option Nat) (es : LeafEntries)
    (hok : ∀ p ∈ es, okB lo hi p.1 = true ∧ p.2 ≠ [] ∧ p.2.Nodup) :
    ∀ p ∈ deleteEntry k v es, okB lo hi p.1 = true ∧ p.2 ≠ [] ∧ p.2.Nodup := by
  induction es with
  | nil => rw [deleteEntry_nil]; simp
  | cons p tl ih =>
    rw [deleteEntry_cons]
    by_cases h1 : p.1 < k
    · rw [if_pos h1]
      intro q hq
      rcases List.mem_cons.mp hq with rfl | hq
      · exact hok q (by simp)
      · exact ih (fun r hr => hok r (by simp [hr])) q hq
    · by_cases h2 : p.1 = k
      · rw [if_neg h1, if_pos h2]
        by_cases he : vsErase v p.2 = []
        · rw [if_pos he]
          intro q hq
          exact hok q (by simp [hq])
        · rw [if_neg he]
          intro q hq
          rcases List.mem_cons.mp hq with rfl | hq
          · exact ⟨(hok p (by simp)).1, he, vsErase_nodup v p.2 (hok p (by simp)).2.2⟩
          · exact hok q (by simp [hq])
      · rw [if_neg h1, if_neg h2]
        intro q hq
        exact hok q (by simp [hq])

/-- Packaging a `Balance` dispatch result into the delete invariant: the
parent either stays well-formed one-off-the-floor, or (at the root only)
empties down to its `prev_ptr_` child. -/
theorem balance_wrap (lo hi : Option Nat) (rt : Bool) (q1 : Node) (q2 : InnerEntries)
    (n : Nat)
    (hwf : (q2 ≠ [] ∧ wfB lo hi true (.inner q1 q2) = true) ∨
           (q2 = [] ∧ wfB lo hi true q1 = true))
    (hlow : n ≤ q2.length + 1)
    (hocc : rt = true ∨ MIN_KEYS_INNER_NODE ≤ n)
    (huq1 : unifB q1 = true)
    (huq2 : ∀ p ∈ q2, unifB p.2 = true ∧ leftSpineLen p.2 = leftSpineLen q1) :
    unifB (.inner q1 q2) = true ∧
    ((wfB lo hi true (.inner q1 q2) = true ∧
        (rt = false → minusOneBound (.inner q1 q2))) ∨
     (rt = true ∧ ∃ p, Node.inner q1 q2 = .inner p [] ∧ wfB lo hi true p = true ∧
        unifB p = true)) := by
  rcases hwf with ⟨hne, hwf⟩ | ⟨hnil, hwf⟩
  · refine ⟨(unifB_inner_iff _ _).mpr ⟨huq1, huq2⟩, Or.inl ⟨hwf, ?_⟩⟩
    intro hrt
    rw [hrt] at hocc
    rcases hocc with h | h
    · exact absurd h (by simp)
    · simp only [minusOneBound, MIN_KEYS_INNER_NODE] at h ⊢
      omega
  · subst hnil
    rcases hocc with hrt | h
    · exact ⟨(unifB_inner_iff _ _).mpr ⟨huq1, by simp⟩,
        Or.inr ⟨hrt, q1, rfl, hwf, huq1⟩⟩
    · simp only [List.length_nil, MIN_KEYS_INNER_NODE] at hlow h
      exact absurd h (by omega)

end BPT

namespace BPT

/-- The induction core of `BPlusTree::Delete` / `Balance`: every frame of
the traceback walk removes the `(k, v)` pair from the routed leaf while
keeping the subtree balanced and well-formed (at worst one entry below the
occupancy floor, which only the parent's own rebalancing step may see); an
inner root may instead empty down to its `prev_ptr_` child. -/
theorem delRec_main (k v : Nat) (lo hi : Option Nat) (rt : Bool) (t : Node)
    (hw : wfB lo hi rt t = true) (hu : unifB t = true) :
    flat (delRec k v t) = deleteEntry k v (flat t) ∧
    leftSpineLen (delRec k v t) = leftSpineLen t ∧
    unifB (delRec k v t) = true ∧
    ((wfB lo hi true (delRec k v t) = true ∧
        (rt = false → minusOneBound (delRec k v t))) ∨
     (rt = true ∧ ∃ p, delRec k v t = .inner p [] ∧ wfB lo hi true p = true ∧
        unifB p = true)) := by
  match t with
  | .leaf es =>
    rw [delRec_leaf]
    obtain ⟨hs, hok, hocc, hlen⟩ := (wfB_leaf_iff lo hi rt es).mp hw
    have hdl := deleteEntry_length k v es
    refine ⟨by rw [flat_leaf, flat_leaf], rfl, unifB_leaf _, Or.inl ⟨?_, ?_⟩⟩
    · exact (wfB_leaf_iff lo hi true _).mpr ⟨sorted_deleteEntry k v es hs,
        deleteEntry_entry_facts k v lo hi es hok, Or.inl rfl, by omega⟩
    · intro hrt
      rw [hrt] at hocc
      rcases hocc with h | h
      · exact absurd h (by simp)
      · simp only [minusOneBound]
        omega
  | .inner prev es =>
    match es with
    | [] => rw [wfB_inner_nil] at hw; exact absurd hw (by simp)
    | (k0, c0) :: rest =>
      obtain ⟨hp, hlb0, hc, hocc, hlen⟩ :=
        (wfB_inner_cons_iff lo hi rt prev k0 c0 rest).mp hw
      obtain ⟨hup, hues⟩ := (unifB_inner_iff prev ((k0, c0) :: rest)).mp hu
      rw [delRec_inner]
      by_cases hk : k < k0
      · -- the key routes to the prev_ptr_ child
        rw [routeSlot, if_pos hk]
        simp only [childAt, setSlot]
        obtain ⟨hfl, hsp, hun, hrest⟩ := delRec_main k v lo (some k0) false prev hp hup
        rcases hrest with ⟨hwn, hmb⟩ | ⟨habs, _⟩
        swap
        · exact absurd habs (by simp)
        have hmb2 := hmb rfl
        have hchainkeys : ∀ q2 ∈ flatList ((k0, c0) :: rest), k < q2.1 := by
          intro q2 hq2
          rw [flatList_cons] at hq2
          have := ((okB_split _ _ _).mp ((wfChain_flat_facts _ _ _ _ hc).2 q2 hq2).1).1
          simp only [lbOk, decide_eq_true_eq] at this
          omega
        have hflat0 : deleteEntry k v (flat (Node.inner prev ((k0, c0) :: rest))) =
            deleteEntry k v (flat prev) ++ flatList ((k0, c0) :: rest) := by
          rw [flat_inner, deleteEntry_append_right k v (flat prev) _ hchainkeys]
        by_cases hcu : childUnderflow (delRec k v prev) = true
        · rw [if_pos hcu]
          cases hres : delRec k v prev with
          | leaf ces =>
            rw [hres] at hfl hsp hun hwn hmb2 hcu
            have hclen : ces.length = MIN_KEYS_LEAF_NODE - 1 :=
              leaf_underflow_len ces hcu hmb2
            rw [leftSpineLen] at hsp
            have hspv : leftSpineLen prev = 1 := hsp.symm
            have hsR : leftSpineLen c0 = 1 := by
              rw [(hues (k0, c0) (by simp)).2, hspv]
            have hurest : ∀ p ∈ rest, unifB p.2 = true ∧ leftSpineLen p.2 = 1 := by
              intro p hp2
              obtain ⟨h1, h2⟩ := hues p (by simp [hp2])
              exact ⟨h1, by rw [h2, hspv]⟩
            obtain ⟨q1, q2, heq, hflat, hl1, hl2, huq1, huq2, hsq1, hwfd⟩ :=
              balance_prevslot_leaf lo hi ces k0 c0 rest hwn hclen hlb0 hc hlen hsR hurest
            rw [heq]
            obtain ⟨hWu, hWd⟩ := balance_wrap lo hi rt q1 q2 ((k0, c0) :: rest).length
              hwfd (by simp only [List.length_cons]; omega) (by simpa using hocc) huq1 huq2
            refine ⟨?_, ?_, hWu, hWd⟩
            · rw [flat_leaf] at hfl
              rw [flat_inner, hflat, hflat0, ← hfl]
            · rw [leftSpineLen_inner, leftSpineLen_inner, hsq1, hspv]
          | inner cp ces =>
            rw [hres] at hfl hsp hun hwn hmb2 hcu
            have hclen : ces.length = MIN_KEYS_INNER_NODE - 1 :=
              inner_underflow_len cp ces hcu hmb2
            have hsR : leftSpineLen c0 = leftSpineLen (.inner cp ces) := by
              rw [(hues (k0, c0) (by simp)).2, hsp]
            have hurest : ∀ p ∈ rest, unifB p.2 = true ∧
                leftSpineLen p.2 = leftSpineLen (.inner cp ces) := by
              intro p hp2
              obtain ⟨h1, h2⟩ := hues p (by simp [hp2])
              exact ⟨h1, by rw [h2, hsp]⟩
            obtain ⟨q1, q2, heq, hflat, hl1, hl2, huq1, huq2, hsq1, hwfd⟩ :=
              balance_prevslot_inner lo hi cp ces k0 c0 rest hwn hclen hlb0 hc hlen
                hun (hues (k0, c0) (by simp)).1 hsR hurest
            rw [heq]
            obtain ⟨hWu, hWd⟩ := balance_wrap lo hi rt q1 q2 ((k0, c0) :: rest).length
              hwfd (by simp only [List.length_cons]; omega) (by simpa using hocc) huq1 huq2
            refine ⟨?_, ?_, hWu, hWd⟩
            · rw [flat_inner, hflat, hflat0, ← hfl]
            · rw [leftSpineLen_inner, leftSpineLen_inner, hsq1, hsp]
        · rw [if_neg hcu]
          have hcu2 : childUnderflow (delRec k v prev) = false := by simpa using hcu
          refine ⟨?_, ?_, ?_, Or.inl ⟨?_, ?_⟩⟩
          · rw [hflat0, flat_inner, hfl]
          · rw [leftSpineLen_inner, leftSpineLen_inner, hsp]
          · refine (unifB_inner_iff _ _).mpr ⟨hun, ?_⟩
            intro p hp2
            obtain ⟨h1, h2⟩ := hues p hp2
            exact ⟨h1, by rw [h2, ← hsp]⟩
          · exact (wfB_inner_cons_iff lo hi true _ k0 c0 rest).mpr
              ⟨wfB_of_floor lo (some k0) _ hwn hcu2, hlb0, hc, Or.inl rfl, hlen⟩
          · intro hrt
            rw [hrt] at hocc
            rcases hocc with h | h
            · exact absurd h (by simp)
            · simp only [minusOneBound, List.length_cons]
              simp only [MIN_KEYS_INNER_NODE] at h ⊢
              omega
      · -- the key routes into the separator chain
        have hk0 : k0 ≤ k := by omega
        rw [routeSlot, if_neg hk, keyNodePtrPairIdx_cons_le k k0 c0 rest hk0]
        obtain ⟨A, si, ci, B, hdec, hAlen, hsik, hBh⟩ := chain_locate k k0 c0 rest hk0
        rw [hdec] at hw hu
        obtain ⟨hctx, hchain, hoccA, hlenA⟩ := wfB_inner_decomp lo hi rt prev A si ci B hw
        obtain ⟨hup2, hues2⟩ := (unifB_inner_iff prev (A ++ (si, ci) :: B)).mp hu
        obtain ⟨hciw, hubsiB, _⟩ := wfChain_head_parts hi si ci B hchain
        have hmemci : (si, ci) ∈ A ++ (si, ci) :: B :=
          List.mem_append.mpr (Or.inr (by simp))
        have huci : unifB ci = true := (hues2 (si, ci) hmemci).1
        have hsci : leftSpineLen ci = leftSpineLen prev := (hues2 (si, ci) hmemci).2
        have hsz : sizeOf ci < sizeOf (Node.inner prev ((k0, c0) :: rest)) := by
          have hm : (si, ci) ∈ (k0, c0) :: rest := by rw [hdec]; exact hmemci
          have h1 : sizeOf (si, ci) < sizeOf ((k0, c0) :: rest) := List.sizeOf_lt_of_mem hm
          have h2 : sizeOf ci < sizeOf (si, ci) := by
            simp only [Prod.mk.sizeOf_spec]; omega
          simp only [Node.inner.sizeOf_spec]
          omega
        obtain ⟨hfl, hsp, hun, hrest⟩ :=
          delRec_main k v (some si) (nextBound hi B) false ci hciw huci
        rcases hrest with ⟨hwn, hmb⟩ | ⟨habs, _⟩
        swap
        · exact absurd habs (by simp)
        have hmb2 := hmb rfl
        have hLkeys : ∀ q ∈ flat prev ++ flatList A, q.1 < k := by
          intro q hq
          have := wfCtx_flat_facts lo (some si) prev A hctx q hq
          simp only [ubOk, decide_eq_true_eq] at this
          omega
        have hRkeys : ∀ q ∈ flatList B, k < q.1 :=
          chainTail_flat_gt hi si ci B k hchain hBh
        have hflat0 : deleteEntry k v (flat (Node.inner prev (A ++ (si, ci) :: B))) =
            flat prev ++ (flatList A ++ (deleteEntry k v (flat ci) ++ flatList B)) := by
          rw [flat_inner, flatList_append, flatList_cons,
            ← List.append_assoc (flat prev) (flatList A),
            deleteEntry_append_left k v _ _ hLkeys,
            deleteEntry_append_right k v (flat ci) (flatList B) hRkeys]
          simp [List.append_assoc]
        dsimp only
        rw [hdec, ← hAlen]
        rw [childAt_some prev _ A.length (si, ci) (getElem?_middle A (si, ci) B)]
        dsimp only [setSlot]
        rw [getElem?_middle A (si, ci) B]
        try dsimp only
        rw [set_middle A (si, ci) (si, delRec k v ci) B]
        by_cases hcu : childUnderflow (delRec k v ci) = true
        · rw [if_pos hcu]
          rcases List.eq_nil_or_concat' A with rfl | ⟨A0, pL, hA⟩
          · -- slot 0: the left sibling is the prev_ptr_ child
            obtain ⟨hprev0, hmid0⟩ := (wfCtx_nil_iff lo (some si) prev).mp hctx
            simp only [flatList_nil, List.nil_append] at hflat0
            simp only [List.nil_append, List.length_nil]
            cases hres : delRec k v ci with
            | leaf ces =>
              rw [hres] at hfl hsp hun hwn hmb2 hcu
              have hclen : ces.length = MIN_KEYS_LEAF_NODE - 1 :=
                leaf_underflow_len ces hcu hmb2
              rw [leftSpineLen] at hsp
              have hsprev : leftSpineLen prev = 1 := by omega
              have huB2 : ∀ p ∈ B, unifB p.2 = true ∧ leftSpineLen p.2 = 1 := by
                intro p hp2
                obtain ⟨h1, h2⟩ := hues2 p (List.mem_append.mpr (Or.inr (by simp [hp2])))
                exact ⟨h1, by rw [h2, hsprev]⟩
              obtain ⟨q1, q2, heq, hflat, hl1, hl2, huq1, huq2, hsq1, hwfd⟩ :=
                balance_chain0_leaf lo hi prev si ces B ci hprev0 hmid0 hwn hclen hchain
                  (by simpa using hlenA) hsprev huB2
              rw [heq]
              obtain ⟨hWu, hWd⟩ := balance_wrap lo hi rt q1 q2 (B.length + 1) hwfd
                (by omega) (by simpa using hoccA) huq1
                (by
                  intro p hp2
                  obtain ⟨h1, h2⟩ := huq2 p hp2
                  exact ⟨h1, by rw [h2, hsq1]⟩)
              refine ⟨?_, ?_, hWu, hWd⟩
              · rw [flat_leaf] at hfl
                rw [flat_inner, hflat, hflat0, flatList_cons, flat_leaf, hfl]
              · rw [leftSpineLen_inner, leftSpineLen_inner, hsq1, hsprev]
            | inner cp ces =>
              rw [hres] at hfl hsp hun hwn hmb2 hcu
              have hclen : ces.length = MIN_KEYS_INNER_NODE - 1 :=
                inner_underflow_len cp ces hcu hmb2
              have hsprev : leftSpineLen prev = leftSpineLen (.inner cp ces) := by
                rw [← hsci, ← hsp]
              have huB2 : ∀ p ∈ B, unifB p.2 = true ∧
                  leftSpineLen p.2 = leftSpineLen (.inner cp ces) := by
                intro p hp2
                obtain ⟨h1, h2⟩ := hues2 p (List.mem_append.mpr (Or.inr (by simp [hp2])))
                exact ⟨h1, by rw [h2, hsprev]⟩
              obtain ⟨q1, q2, heq, hflat, hl1, hl2, huq1, huq2, hsq1, hwfd⟩ :=
                balance_chain0_inner lo hi prev si cp ces B ci hprev0 hmid0 hwn hclen
                  hchain (by simpa using hlenA) hup2 hsprev hun huB2
              rw [heq]
              obtain ⟨hWu, hWd⟩ := balance_wrap lo hi rt q1 q2 (B.length + 1) hwfd
                (by omega) (by simpa using hoccA) huq1
                (by
                  intro p hp2
                  obtain ⟨h1, h2⟩ := huq2 p hp2
                  exact ⟨h1, by rw [h2, hsq1]⟩)
              refine ⟨?_, ?_, hWu, hWd⟩
              · rw [flat_inner, hflat, hflat0, flatList_cons, hfl]
              · rw [leftSpineLen_inner, leftSpineLen_inner, hsq1, hsprev]
          · -- the left sibling is the previous entry's child
            obtain ⟨sL, cL⟩ := pL
            subst hA
            obtain ⟨hctx0, hcLw, hubsL⟩ := wfCtx_unsnoc lo (some si) prev A0 sL cL hctx
            have hsLsi : sL < si := by simpa [ubOk] using hubsL
            have hoccA2 : rt = true ∨ MIN_KEYS_INNER_NODE ≤ A0.length + B.length + 2 := by
              rcases hoccA with h | h
              · exact Or.inl h
              · right
                simp only [List.length_append, List.length_cons, List.length_nil] at h
                omega
            have hlenA2 : A0.length + B.length + 2 ≤ FAN_OUT - 1 := by
              simp only [List.length_append, List.length_cons, List.length_nil] at hlenA
              omega
            have hscLp : leftSpineLen cL = leftSpineLen prev :=
              (hues2 (sL, cL) (List.mem_append.mpr (Or.inl (by simp)))).2
            have hucL2 : unifB cL = true :=
              (hues2 (sL, cL) (List.mem_append.mpr (Or.inl (by simp)))).1
            cases hres : delRec k v ci with
            | leaf ces =>
              rw [hres] at hfl hsp hun hwn hmb2 hcu
              have hclen : ces.length = MIN_KEYS_LEAF_NODE - 1 :=
                leaf_underflow_len ces hcu hmb2
              rw [leftSpineLen] at hsp
              have hsprev : leftSpineLen prev = 1 := by omega
              rw [show (A0 ++ [(sL, cL)]) ++ (si, Node.leaf ces) :: B =
                A0 ++ (sL, cL) :: (si, Node.leaf ces) :: B by simp]
              rw [show (A0 ++ [(sL, cL)]).length = A0.length + 1 by simp]
              have huA02 : ∀ p ∈ A0, unifB p.2 = true ∧ leftSpineLen p.2 = 1 := by
                intro p hp2
                obtain ⟨h1, h2⟩ := hues2 p (List.mem_append.mpr (Or.inl (by simp [hp2])))
                exact ⟨h1, by rw [h2, hsprev]⟩
              have huB2 : ∀ p ∈ B, unifB p.2 = true ∧ leftSpineLen p.2 = 1 := by
                intro p hp2
                obtain ⟨h1, h2⟩ := hues2 p (List.mem_append.mpr (Or.inr (by simp [hp2])))
                exact ⟨h1, by rw [h2, hsprev]⟩
              obtain ⟨q1, q2, heq, hflat, hl1, hl2, hq1p, huq2, hwfd⟩ :=
                balance_chainmid_leaf lo hi prev A0 sL cL si ces B ci hctx0 hcLw hsLsi
                  hwn hclen hchain hlenA2 (by rw [hscLp, hsprev]) huA02 huB2
              rw [heq]
              obtain ⟨hWu, hWd⟩ := balance_wrap lo hi rt q1 q2 (A0.length + B.length + 2)
                hwfd (by omega) hoccA2 (by rw [hq1p]; exact hup2)
                (by
                  intro p hp2
                  obtain ⟨h1, h2⟩ := huq2 p hp2
                  exact ⟨h1, by rw [h2, hq1p, hsprev]⟩)
              refine ⟨?_, ?_, hWu, hWd⟩
              · rw [flat_leaf] at hfl
                rw [flat_inner, hflat, hflat0, ← hfl]
                simp [flatList_append, flatList_cons, flatList_nil, flat_leaf,
                  List.append_assoc]
              · rw [leftSpineLen_inner, leftSpineLen_inner, hq1p]
            | inner cp ces =>
              rw [hres] at hfl hsp hun hwn hmb2 hcu
              have hclen : ces.length = MIN_KEYS_INNER_NODE - 1 :=
                inner_underflow_len cp ces hcu hmb2
              have hsprev : leftSpineLen prev = leftSpineLen (.inner cp ces) := by
                rw [← hsci, ← hsp]
              rw [show (A0 ++ [(sL, cL)]) ++ (si, Node.inner cp ces) :: B =
                A0 ++ (sL, cL) :: (si, Node.inner cp ces) :: B by simp]
              rw [show (A0 ++ [(sL, cL)]).length = A0.length + 1 by simp]
              have huA02 : ∀ p ∈ A0, unifB p.2 = true ∧
                  leftSpineLen p.2 = leftSpineLen (.inner cp ces) := by
                intro p hp2
                obtain ⟨h1, h2⟩ := hues2 p (List.mem_append.mpr (Or.inl (by simp [hp2])))
                exact ⟨h1, by rw [h2, hsprev]⟩
              have huB2 : ∀ p ∈ B, unifB p.2 = true ∧
                  leftSpineLen p.2 = leftSpineLen (.inner cp ces) := by
                intro p hp2
                obtain ⟨h1, h2⟩ := hues2 p (List.mem_append.mpr (Or.inr (by simp [hp2])))
                exact ⟨h1, by rw [h2, hsprev]⟩
              obtain ⟨q1, q2, heq, hflat, hl1, hl2, hq1p, huq2, hwfd⟩ :=
                balance_chainmid_inner lo hi prev A0 sL cL si cp ces B ci hctx0 hcLw
                  hsLsi hwn hclen hchain hlenA2 (by rw [hscLp, hsprev]) hucL2 hun
                  huA02 huB2
              rw [heq]
              obtain ⟨hWu, hWd⟩ := balance_wrap lo hi rt q1 q2 (A0.length + B.length + 2)
                hwfd (by omega) hoccA2 (by rw [hq1p]; exact hup2)
                (by
                  intro p hp2
                  obtain ⟨h1, h2⟩ := huq2 p hp2
                  exact ⟨h1, by rw [h2, hq1p, hsprev]⟩)
              refine ⟨?_, ?_, hWu, hWd⟩
              · rw [flat_inner, hflat, hflat0, ← hfl]
                simp [flatList_append, flatList_cons, flatList_nil, flat_leaf,
                  List.append_assoc]
              · rw [leftSpineLen_inner, leftSpineLen_inner, hq1p]
        · rw [if_neg hcu]
          have hcu2 : childUnderflow (delRec k v ci) = false := by simpa using hcu
          have hwn2 : wfB (some si) (nextBound hi B) false (delRec k v ci) = true :=
            wfB_of_floor _ _ _ hwn hcu2
          have hchain2 : wfChain hi si (delRec k v ci) B = true :=
            wfChain_replace_head hi si si ci (delRec k v ci) B hchain hubsiB hwn2
          refine ⟨?_, ?_, ?_, Or.inl ⟨?_, ?_⟩⟩
          · rw [hflat0, flat_inner, flatList_append, flatList_cons, hfl]
          · rw [leftSpineLen_inner, leftSpineLen_inner]
          · refine (unifB_inner_iff _ _).mpr ⟨hup2, ?_⟩
            intro p hp2
            rcases List.mem_append.mp hp2 with hm | hm
            · exact hues2 p (List.mem_append.mpr (Or.inl hm))
            · rcases List.mem_cons.mp hm with hm2 | hm2
              · rw [hm2]
                exact ⟨hun, by rw [hsp, hsci]⟩
              · exact hues2 p (List.mem_append.mpr (Or.inr (by simp [hm2])))
          · exact wfB_inner_recomp lo hi true prev A si (delRec k v ci) B hctx hchain2
              (Or.inl rfl) hlenA
          · intro hrt
            rw [hrt] at hoccA
            rcases hoccA with h | h
            · exact absurd h (by simp)
            · simp only [minusOneBound, List.length_append, List.length_cons]
              simp only [MIN_KEYS_INNER_NODE] at h ⊢
              omega
termination_by sizeOf t
decreasing_by
  all_goals first
    | assumption
    | (simp only [Node.inner.sizeOf_spec]; omega)

end BPT

namespace BPT

/-! ## `BPlusTree::Delete` -/

/-- `Delete` on a well-formed balanced tree: a miss leaves the tree alone,
a hit removes the pair via `LeafNode::DeleteEntry` on the flattened entries
and preserves the invariants (the root shrinking to its `prev_ptr_` child
when the traceback empties it). -/
theorem deleteOp_main (k v : Nat) (t : Node) (hw : wfTree t = true)
    (hu : unifB t = true) :
    (hasKeyValue k v (findLeafNode k t) = false → deleteOp k v t = (t, false)) ∧
    (hasKeyValue k v (findLeafNode k t) = true →
      (deleteOp k v t).2 = true ∧
      flat (deleteOp k v t).1 = deleteEntry k v (flat t) ∧
      wfTree (deleteOp k v t).1 = true ∧ unifB (deleteOp k v t).1 = true ∧
      (∀ es, t = .leaf es → (deleteOp k v t).1 = .leaf (deleteEntry k v es))) := by
  constructor
  · intro hno
    rw [deleteOp.eq_def]
    try dsimp only
    rw [if_pos hno]
  · intro hyes
    obtain ⟨hfl, hsp, hun, hrest⟩ := delRec_main k v none none true t hw hu
    cases t with
    | leaf es =>
      have hred : deleteOp k v (.leaf es) = (.leaf (deleteEntry k v es), true) := by
        rw [deleteOp.eq_def]
        try dsimp only
        rw [if_neg (by simp [hyes])]
      rw [hred]
      rw [delRec_leaf] at hfl hun hrest
      rcases hrest with ⟨hwf, _⟩ | ⟨_, p, habs, _⟩
      swap
      · exact absurd habs (by simp)
      refine ⟨rfl, hfl, hwf, hun, ?_⟩
      intro es2 heq
      injection heq with heq2
      rw [heq2]
    | inner prev es =>
      cases hr : delRec k v (.inner prev es) with
      | leaf es2 =>
        rw [hr] at hsp
        rw [leftSpineLen, leftSpineLen_inner] at hsp
        have := leftSpineLen_pos prev
        omega
      | inner prev2 es2 =>
        rw [hr] at hfl hun hrest
        by_cases hnil : es2.length = 0
        · have hes2 : es2 = [] := List.length_eq_zero.mp hnil
          subst hes2
          have hred : deleteOp k v (.inner prev es) = (prev2, true) := by
            rw [deleteOp.eq_def]
            try dsimp only
            rw [if_neg (by simp [hyes]), hr]
            try dsimp only
            rw [if_pos (show (([] : InnerEntries)).length = 0 from rfl)]
          rw [hred]
          rcases hrest with ⟨hwf, _⟩ | ⟨_, p, heqp, hwfp, hunp⟩
          · rw [wfB_inner_nil] at hwf
            exact absurd hwf (by simp)
          · injection heqp with h1 h2
            subst h1
            rw [flat_inner, flatList_nil, List.append_nil] at hfl
            refine ⟨rfl, hfl, hwfp, hunp, ?_⟩
            intro es3 habs
            exact absurd habs (by simp)
        · have hred : deleteOp k v (.inner prev es) = (.inner prev2 es2, true) := by
            rw [deleteOp.eq_def]
            try dsimp only
            rw [if_neg (by simp [hyes]), hr]
            try dsimp only
            rw [if_neg hnil]
          rw [hred]
          rcases hrest with ⟨hwf, _⟩ | ⟨_, p, heqp, _, _⟩
          swap
          · injection heqp with h1 h2
            exact absurd (by simp [h2]) hnil
          refine ⟨rfl, hfl, hwf, hun, ?_⟩
          intro es3 habs
          exact absurd habs (by simp)

/-- Duplicate-freedom of the values at one key. -/
theorem listValuesAt_nodup (k : Nat) (es : LeafEntries) (hs : sortedP es)
    (hnd : ∀ p ∈ es, p.2.Nodup) : (listValuesAt k es).Nodup := by
  induction es with
  | nil => simp [listValuesAt_nil]
  | cons p tl ih =>
    obtain ⟨pk, pv⟩ := p
    by_cases h : pk = k
    · subst h
      have ht : listValuesAt pk tl = [] := listValuesAt_eq_nil _ _ fun q hq => by
        have := sorted_tail_gt (pk, pv) tl hs q hq
        simp only at this
        omega
      rw [listValuesAt_cons_self, ht, List.append_nil]
      exact hnd (pk, pv) (by simp)
    · rw [listValuesAt_cons_ne k (pk, pv) tl (by simpa using h)]
      exact ih (sortedP_tail _ _ hs) (fun q hq => hnd q (by simp [hq]))

end BPT

namespace BPT

/-- C2: `Delete(k, v)` returns true exactly when the pair `(k, v)` is
stored; a miss returns false and leaves the tree untouched; a hit erases
`v` from `k`'s value set (only), after which the pair is gone and the tree
is still well-formed; on a root leaf the entry is removed unconditionally,
even when the leaf empties (the empty-tree representation). -/
theorem claim_C2_delete (k v : Nat) (t : Node) (h : wfTree t = true)
    (hu : unifB t = true) :
    ((deleteOp k v t).2 = true ↔ containsKV t k v) ∧
    ((deleteOp k v t).2 = false → deleteOp k v t = (t, false)) ∧
    (containsKV t k v →
      valuesAt k (deleteOp k v t).1 = vsErase v (valuesAt k t) ∧
      ¬ containsKV (deleteOp k v t).1 k v ∧
      (∀ k1, k1 ≠ k → valuesAt k1 (deleteOp k v t).1 = valuesAt k1 t) ∧
      wfTree (deleteOp k v t).1 = true) ∧
    (∀ es, t = .leaf es → containsKV t k v →
      (deleteOp k v t).1 = .leaf (deleteEntry k v es)) := by
  obtain ⟨hval, hkv, _, _⟩ := routed_checks k v t h
  obtain ⟨hno, hyes⟩ := deleteOp_main k v t h hu
  by_cases hC : hasKeyValue k v (findLeafNode k t) = true
  · obtain ⟨hb, hfl, hwf, hunf, hleaf⟩ := hyes hC
    have hsflat := (wfB_flat_facts none none true t h).1
    refine ⟨⟨fun _ => hkv.mp hC, fun _ => hb⟩, ?_, fun _ => ?_,
      fun es het _ => hleaf es het⟩
    · intro hfalse
      rw [hb] at hfalse
      exact absurd hfalse (by simp)
    · have hvv : valuesAt k (deleteOp k v t).1 = vsErase v (valuesAt k t) := by
        rw [valuesAt, hfl, listValuesAt_deleteEntry k k v (flat t) hsflat, if_pos rfl]
        rfl
      refine ⟨hvv, ?_, ?_, hwf⟩
      · intro hcon
        have hv2 := (mem_listValuesAt k v (flat (deleteOp k v t).1)).mpr hcon
        rw [← valuesAt, hvv] at hv2
        have hnd : (valuesAt k t).Nodup := listValuesAt_nodup k (flat t) hsflat
          (fun p hp => ((wfB_flat_facts none none true t h).2 p hp).2.2)
        rw [vsErase] at hv2
        exact absurd ((List.Nodup.mem_erase_iff hnd).mp hv2).1 (by simp)
      · intro k1 hk1
        rw [valuesAt, hfl, listValuesAt_deleteEntry k1 k v (flat t) hsflat, if_neg hk1]
        rfl
  · have hred := hno (by simpa using hC)
    rw [hred]
    refine ⟨?_, fun _ => rfl, fun hcon => absurd (hkv.mpr hcon) hC,
      fun es het hcon => absurd (hkv.mpr hcon) hC⟩
    constructor
    · intro habs
      exact absurd habs (by simp)
    · intro hcon
      exact absurd (hkv.mpr hcon) hC

unseal wfB wfChain findLeafNode delRec in
theorem claim_C2_delete_witness :
    wfTree (Node.leaf [(1, [10]), (2, [20])]) = true ∧
      unifB (Node.leaf [(1, [10]), (2, [20])]) = true ∧
      ((deleteOp 1 10 (Node.leaf [(1, [10]), (2, [20])])).2 = true ↔
        containsKV (Node.leaf [(1, [10]), (2, [20])]) 1 10) :=
  ⟨by decide, by decide,
    (claim_C2_delete 1 10 (Node.leaf [(1, [10]), (2, [20])]) (by decide) (by decide)).1⟩

end BPT

namespace BPT

/-! ## The leaf-level invariant (claim C5) -/

mutual

/-- Every leaf below a well-formed node is sorted with non-empty sets. -/
theorem wfB_leaves (lo hi : Option Nat) (rt : Bool) (t : Node)
    (h : wfB lo hi rt t = true) :
    ∀ es ∈ leavesOf t, sortedP es ∧ ∀ p ∈ es, p.2 ≠ [] := by
  match t with
  | .leaf es0 =>
    rw [leavesOf_leaf]
    obtain ⟨hs, hok, _, _⟩ := (wfB_leaf_iff lo hi rt es0).mp h
    intro es hes
    simp only [List.mem_singleton] at hes
    subst hes
    exact ⟨hs, fun p hp => (hok p hp).2.1⟩
  | .inner prev es0 =>
    match es0 with
    | [] => rw [wfB_inner_nil] at h; exact absurd h (by simp)
    | (k0, c0) :: rest =>
      obtain ⟨hp, _, hc, _, _⟩ := (wfB_inner_cons_iff lo hi rt prev k0 c0 rest).mp h
      rw [leavesOf_inner]
      intro es hes
      rcases List.mem_append.mp hes with hm | hm
      · exact wfB_leaves lo (some k0) false prev hp es hm
      · exact wfChain_leaves hi k0 c0 rest hc es hm
termination_by sizeOf t
decreasing_by
  all_goals try simp only [Node.inner.sizeOf_spec, List.cons.sizeOf_spec, List.nil.sizeOf_spec, Prod.mk.sizeOf_spec]
  all_goals omega

/-- Every leaf below a chain is sorted with non-empty sets. -/
theorem wfChain_leaves (hi : Option Nat) (k : Nat) (c : Node) (l : InnerEntries)
    (h : wfChain hi k c l = true) :
    ∀ es ∈ leavesList ((k, c) :: l), sortedP es ∧ ∀ p ∈ es, p.2 ≠ [] := by
  match l with
  | [] =>
    obtain ⟨_, hcw⟩ := (wfChain_nil_iff hi k c).mp h
    rw [leavesList_cons, leavesList_nil, List.append_nil]
    exact wfB_leaves (some k) hi false c hcw
  | (k2, c2) :: rest =>
    obtain ⟨_, hcw, hch⟩ := (wfChain_cons_iff hi k c k2 c2 rest).mp h
    rw [leavesList_cons]
    intro es hes
    rcases List.mem_append.mp hes with hm | hm
    · exact wfB_leaves (some k) (some k2) false c hcw es hm
    · exact wfChain_leaves hi k2 c2 rest hch es hm
termination_by sizeOf c + sizeOf l
decreasing_by
  all_goals try simp only [Node.inner.sizeOf_spec, List.cons.sizeOf_spec, List.nil.sizeOf_spec, Prod.mk.sizeOf_spec]
  all_goals omega

end

/-- The specification's leaf facts hold in every well-formed state. -/
theorem leafFactsB_of_wfTree (t : Node) (h : wfTree t = true) :
    leafFactsB t = true := by
  rw [leafFactsB, List.all_eq_true]
  intro es hes
  obtain ⟨hs, hne⟩ := wfB_leaves none none true t h es hes
  rw [Bool.and_eq_true]
  refine ⟨(sortedKeysB_iff es).mpr hs, ?_⟩
  rw [List.all_eq_true]
  intro p hp
  simpa using hne p hp

end BPT

namespace BPT

/-- C5: in every well-formed state the leaf-level invariant holds — each
leaf's entries strictly increase by key and every value set is non-empty —
and it is preserved by `Insert`, `ConditionalInsert` and `Delete` (an entry
whose set empties is removed by `DeleteEntry`). -/
theorem claim_C5_leaf_invariant (k v : Nat) (u : Bool) (pr : Nat → Bool) (t : Node)
    (h : wfTree t = true) (hu : unifB t = true) :
    leafFactsB t = true ∧
    leafFactsB (insertOp k v u t).1 = true ∧
    leafFactsB (conditionalInsertOp k v pr t).1 = true ∧
    leafFactsB (deleteOp k v t).1 = true := by
  refine ⟨leafFactsB_of_wfTree t h, ?_, ?_, ?_⟩
  · by_cases hC : (hasKeyValue k v (findLeafNode k t) ||
        (u && hasKey k (findLeafNode k t))) = true
    · simp only [insertOp, if_pos hC]
      exact leafFactsB_of_wfTree t h
    · simp only [insertOp, if_neg hC]
      exact leafFactsB_of_wfTree _ (insertProp_main k v t h).1
  · by_cases hC : satisfiesPredicate k pr (findLeafNode k t) = true
    · simp only [conditionalInsertOp, if_pos hC]
      exact leafFactsB_of_wfTree t h
    · simp only [conditionalInsertOp, if_neg hC]
      exact leafFactsB_of_wfTree _ (insertProp_main k v t h).1
  · by_cases hC : hasKeyValue k v (findLeafNode k t) = true
    · exact leafFactsB_of_wfTree _ ((deleteOp_main k v t h hu).2 hC).2.2.1
    · rw [(deleteOp_main k v t h hu).1 (by simpa using hC)]
      exact leafFactsB_of_wfTree t h

unseal wfB wfChain findLeafNode insertRec delRec in
theorem claim_C5_leaf_invariant_witness :
    wfTree (Node.leaf [(1, [10]), (2, [20])]) = true ∧
      leafFactsB (insertOp 3 30 false (Node.leaf [(1, [10]), (2, [20])])).1 = true :=
  ⟨by decide,
    (claim_C5_leaf_invariant 3 30 false (fun _ => false)
      (Node.leaf [(1, [10]), (2, [20])]) (by decide) (by decide)).2.1⟩

end BPT
